import Mathlib

/-!
# ULP content-addressed record protocol: embedding and properties

A shallow embedding of the record/world store, the URL parser, the
canonicaliser and the stream handlers of the ULP peer
(`archive/ulp-v1.1/v2/network/ulp_peer.go`) and of the two server copies
(`apps/p2p-server/server/main.go`, `testament-trustee/server/main.go`).

Go strings and byte slices are finite byte sequences: `List Byte`.
Standard-library routines the code calls (`crypto/sha256`, `encoding/hex`,
`strings`, `sort`, `encoding/json`) are modelled next to the code that uses
them; SHA-256 and the wording of library error values are parameters.
-/

namespace ULP

/-! ## Bytes and text -/

deriving instance DecidableEq for Except

/-- One octet. -/
abbrev Byte := Fin 256

/-- A Go `string` or `[]byte`: a finite sequence of octets. -/
abbrev Bytes := List Byte

/-- The bytes of an ASCII literal of the source text. -/
def ascii (s : String) : Bytes :=
  s.toList.map (fun c => Fin.ofNat c.toNat)

/-- Decimal digits of a natural number, as `%d` prints them. -/
def decimal (n : Nat) : Bytes :=
  (Nat.toDigits 10 n).map (fun c => Fin.ofNat c.toNat)

/-! ## `strings.TrimPrefix`, `strings.TrimSpace` -/

/-- Go `strings.HasPrefix`. -/
def hasPrefix : Bytes → Bytes → Bool
  | _, [] => true
  | [], _ :: _ => false
  | a :: s, b :: p => a == b && hasPrefix s p

/-- Go `strings.TrimPrefix`: drops one leading copy of the prefix when present. -/
def trimPrefix (s p : Bytes) : Bytes :=
  if hasPrefix s p then s.drop p.length else s

/-- The six ASCII white-space bytes: tab, line feed, vertical tab, form feed,
carriage return, space. -/
def isAsciiSpace (b : Byte) : Bool :=
  b.val == 9 || b.val == 10 || b.val == 11 || b.val == 12 || b.val == 13 || b.val == 32

/-- Two-byte UTF-8 encodings of white space: U+0085 and U+00A0. -/
def isSpace2 (a b : Byte) : Bool :=
  a.val == 0xC2 && (b.val == 0x85 || b.val == 0xA0)

/-- Three-byte UTF-8 encodings of white space: U+1680, U+2000..U+200A,
U+2028, U+2029, U+202F, U+205F, U+3000. -/
def isSpace3 (a b c : Byte) : Bool :=
  (a.val == 0xE1 && b.val == 0x9A && c.val == 0x80) ||
  (a.val == 0xE2 && b.val == 0x80 &&
    ((0x80 ≤ c.val && c.val ≤ 0x8A) || c.val == 0xA8 || c.val == 0xA9 || c.val == 0xAF)) ||
  (a.val == 0xE2 && b.val == 0x81 && c.val == 0x9F) ||
  (a.val == 0xE3 && b.val == 0x80 && c.val == 0x80)

/-- Left half of `strings.TrimSpace`: drops every leading white-space code
point (`unicode.IsSpace`), ASCII or UTF-8 encoded. -/
def trimLeftSpace : Bytes → Bytes
  | [] => []
  | a :: t =>
    if isAsciiSpace a then trimLeftSpace t
    else match t with
      | [] => [a]
      | b :: t1 =>
        if isSpace2 a b then trimLeftSpace t1
        else match t1 with
          | [] => [a, b]
          | c :: t2 =>
            if isSpace3 a b c then trimLeftSpace t2 else a :: b :: c :: t2

/-- The same scan on the reversed text: drops every trailing white-space code
point; the bytes of a multi-byte encoding arrive last byte first. -/
def trimLeftSpaceRev : Bytes → Bytes
  | [] => []
  | a :: t =>
    if isAsciiSpace a then trimLeftSpaceRev t
    else match t with
      | [] => [a]
      | b :: t1 =>
        if isSpace2 b a then trimLeftSpaceRev t1
        else match t1 with
          | [] => [a, b]
          | c :: t2 =>
            if isSpace3 c b a then trimLeftSpaceRev t2 else a :: b :: c :: t2

/-- Right half of `strings.TrimSpace`. -/
def trimRightSpace (s : Bytes) : Bytes :=
  (trimLeftSpaceRev s.reverse).reverse

/-- Go `strings.TrimSpace`: leading white space is removed first, then
trailing white space of what remains. -/
def trimSpace (s : Bytes) : Bytes :=
  trimRightSpace (trimLeftSpace s)

/-! ## `encoding/hex` -/

/-- Errors of `hex.DecodeString`: `InvalidByteError(b)` and `ErrLength`. -/
inductive HexError where
  | invalidByte (b : Byte)
  | oddLength
  deriving DecidableEq

/-- The table `"0123456789abcdef"` of `encoding/hex`, indexed by a nibble. -/
def hextable (n : Nat) : Byte :=
  if n < 10 then Fin.ofNat (48 + n) else Fin.ofNat (87 + n)

/-- Go `hex.EncodeToString`: two lower-case digits per byte, high nibble first. -/
def hexEncode : Bytes → Bytes
  | [] => []
  | v :: rest => hextable (v.val / 16) :: hextable (v.val % 16) :: hexEncode rest

/-- Value of one hexadecimal digit, either case; `none` for any other byte. -/
def fromHexChar (c : Byte) : Option Nat :=
  if 48 ≤ c.val ∧ c.val ≤ 57 then some (c.val - 48)
  else if 97 ≤ c.val ∧ c.val ≤ 102 then some (c.val - 97 + 10)
  else if 65 ≤ c.val ∧ c.val ≤ 70 then some (c.val - 65 + 10)
  else none

/-- Go `hex.DecodeString`: pairs of digits left to right; the first bad digit
is reported; an unpaired last byte is reported as bad when it is no digit and
as an odd length otherwise. -/
def hexDecode : Bytes → Except HexError Bytes
  | [] => .ok []
  | [p] =>
    match fromHexChar p with
    | none => .error (.invalidByte p)
    | some _ => .error .oddLength
  | p :: q :: rest =>
    match fromHexChar p with
    | none => .error (.invalidByte p)
    | some a =>
      match fromHexChar q with
      | none => .error (.invalidByte q)
      | some b =>
        match hexDecode rest with
        | .error e => .error e
        | .ok bs => .ok (Fin.ofNat (a * 16 + b) :: bs)

/-! ## Identifiers -/

/-- The type `RID [32]byte`: the SHA-256 digest of a record's bytes. -/
structure RID where
  bytes : Bytes
  size : bytes.length = 32
  deriving DecidableEq

/-- The zero value of `RID`: thirty-two zero bytes. -/
def RID.zero : RID := ⟨List.replicate 32 0, rfl⟩

/-- The method `RID.String`: lower-case hexadecimal. -/
def RID.String (r : RID) : Bytes := hexEncode r.bytes

/-- The method `RID.URL`: `ulp://` followed by the hexadecimal text. -/
def RID.URL (r : RID) : Bytes := ascii "ulp://" ++ r.String

/-- Go `ParseULPURL` (the archive peer) and `parseULPURL` (both servers; the
three bodies are the same text). The second parameter is the wording of a
`hex.DecodeString` error. The result is the pair `(rid, err)`. -/
def ParseULPURL (hexErrText : HexError → Bytes) (url : Bytes) : RID × Option Bytes :=
  let url := trimPrefix url (ascii "ulp://")
  let url := trimSpace url
  match hexDecode url with
  | .error e => (RID.zero, some (ascii "invalid RID hex: " ++ hexErrText e))
  | .ok bytes =>
    if h : bytes.length = 32 then (⟨bytes, h⟩, none)
    else (RID.zero,
      some (ascii "invalid RID length: got " ++ decimal bytes.length ++ ascii ", want 32"))

/-- The servers' `parseULPURL` of `apps/p2p-server/server/main.go`. -/
def P2P.parseULPURL (hexErrText : HexError → Bytes) (url : Bytes) : RID × Option Bytes :=
  let url := trimPrefix url (ascii "ulp://")
  let url := trimSpace url
  match hexDecode url with
  | .error e => (RID.zero, some (ascii "invalid RID hex: " ++ hexErrText e))
  | .ok bytes =>
    if h : bytes.length = 32 then (⟨bytes, h⟩, none)
    else (RID.zero,
      some (ascii "invalid RID length: got " ++ decimal bytes.length ++ ascii ", want 32"))

/-- The servers' `parseULPURL` of `testament-trustee/server/main.go`. -/
def Trustee.parseULPURL (hexErrText : HexError → Bytes) (url : Bytes) : RID × Option Bytes :=
  let url := trimPrefix url (ascii "ulp://")
  let url := trimSpace url
  match hexDecode url with
  | .error e => (RID.zero, some (ascii "invalid RID hex: " ++ hexErrText e))
  | .ok bytes =>
    if h : bytes.length = 32 then (⟨bytes, h⟩, none)
    else (RID.zero,
      some (ascii "invalid RID length: got " ++ decimal bytes.length ++ ascii ", want 32"))

/-! ## Go maps -/

/-- A Go `map`: a listing of its entries with pairwise distinct keys. The
order of the listing stands for the (unspecified) iteration order. -/
abbrev GoMap (κ ν : Type) := List (κ × ν)

/-- The keys in iteration order. -/
def GoMap.keys {κ ν : Type} (m : GoMap κ ν) : List κ := m.map Prod.fst

/-- Index expression `m[k]` in its two-result form. -/
def GoMap.get {κ ν : Type} [DecidableEq κ] : GoMap κ ν → κ → Option ν
  | [], _ => none
  | (k1, v) :: rest, k => if k1 = k then some v else GoMap.get rest k

/-- The entries under keys other than `k`. -/
def GoMap.erase {κ ν : Type} [DecidableEq κ] : GoMap κ ν → κ → GoMap κ ν
  | [], _ => []
  | (k1, v) :: rest, k =>
    if k1 = k then GoMap.erase rest k else (k1, v) :: GoMap.erase rest k

/-- Assignment `m[k] = v`: an entry under `k` is replaced. -/
def GoMap.set {κ ν : Type} [DecidableEq κ] (m : GoMap κ ν) (k : κ) (v : ν) : GoMap κ ν :=
  (k, v) :: m.erase k

/-! ## Records and policy -/

/-- The struct `PolicyMetadata`. -/
structure PolicyMetadata where
  E8L : Bytes
  E8R : Bytes
  Chirality : Bytes
  Projective : Bytes
  Causality : Bytes
  Incidence : Bytes
  Slots : List Int
  deriving DecidableEq

/-- The zero value `&PolicyMetadata{}`. -/
def PolicyMetadata.empty : PolicyMetadata := ⟨[], [], [], [], [], [], []⟩

/-- The struct `Record`; a nil `Policy` pointer is `none`. -/
structure Record where
  RID : RID
  Bytes : Bytes
  Policy : Option PolicyMetadata
  deriving DecidableEq

/-- The type `WID [32]byte`: the SHA-256 digest of the canonical dotfile bytes. -/
abbrev WID := RID

/-- The struct `WorldBall`. -/
structure WorldBall where
  WID : WID
  Dotfiles : GoMap Bytes Bytes
  deriving DecidableEq

/-- The library routines whose results the code uses as given:
`sha256.Sum256`, the text of a `hex.DecodeString` error, and
`json.Unmarshal` into a `[]int` (from the text and the slice's old value to
its new value and the error, if any). -/
structure Lib where
  sha256 : Bytes → RID
  hexErrText : HexError → Bytes
  jsonUnmarshalInts : Bytes → List Int → List Int × Option Bytes

/-- Go `strings.Split` on a one-byte separator. -/
def splitOn (sep : Byte) : Bytes → List Bytes
  | [] => [[]]
  | c :: rest =>
    if c = sep then [] :: splitOn sep rest
    else match splitOn sep rest with
      | [] => [[c]]
      | h :: t => (c :: h) :: t

/-- Go `strings.Join` with a one-byte separator. -/
def joinWith (sep : Byte) : List Bytes → Bytes
  | [] => []
  | [a] => a
  | a :: b :: rest => a ++ sep :: joinWith sep (b :: rest)

/-- One turn of the line loop of `extractPolicyFromTrace` (archive peer): a
line with fewer than three tab-separated fields is skipped, a malformed slot
array leaves `Slots` as it was. -/
def policyLine (L : Lib) (policy : PolicyMetadata) (line : Bytes) : PolicyMetadata :=
  match splitOn 9 line with
  | f0 :: f1 :: f2 :: more =>
    if f0 = ascii "POLICY" then
      if f1 = ascii "e8l" then { policy with E8L := f2 }
      else if f1 = ascii "e8r" then { policy with E8R := f2 }
      else if f1 = ascii "chirality" then { policy with Chirality := f2 }
      else policy
    else if f0 = ascii "GEOMETRY" then
      if f1 = ascii "projective" then { policy with Projective := f2 }
      else if f1 = ascii "causality" then { policy with Causality := f2 }
      else if f1 = ascii "incidence" then { policy with Incidence := f2 }
      else policy
    else if f0 = ascii "REPLICA" then
      if f1 = ascii "slots" then
        match L.jsonUnmarshalInts (joinWith 9 (f2 :: more)) [] with
        | (slots, none) => { policy with Slots := slots }
        | (_, some _) => policy
      else policy
    else policy
  | _ => policy

/-- Go `ULPPeer.extractPolicyFromTrace`: `none` is the error
"missing policy metadata". -/
def extractPolicyFromTrace (L : Lib) (bytes : Bytes) : Option PolicyMetadata :=
  let policy := (splitOn 10 bytes).foldl (policyLine L) PolicyMetadata.empty
  if policy.E8L = [] ∨ policy.E8R = [] then none else some policy

/-- One turn of the line loop of `extractPolicy` (p2p server): a malformed
slot array ends the extraction with an error. -/
def P2P.policyLine (L : Lib) (policy : PolicyMetadata) (line : Bytes) :
    Except Bytes PolicyMetadata :=
  match splitOn 9 line with
  | f0 :: f1 :: f2 :: more =>
    if f0 = ascii "POLICY" then
      if f1 = ascii "e8l" then .ok { policy with E8L := f2 }
      else if f1 = ascii "e8r" then .ok { policy with E8R := f2 }
      else if f1 = ascii "chirality" then .ok { policy with Chirality := f2 }
      else .ok policy
    else if f0 = ascii "GEOMETRY" then
      if f1 = ascii "projective" then .ok { policy with Projective := f2 }
      else if f1 = ascii "causality" then .ok { policy with Causality := f2 }
      else if f1 = ascii "incidence" then .ok { policy with Incidence := f2 }
      else .ok policy
    else if f0 = ascii "REPLICA" then
      if f1 = ascii "slots" then
        match L.jsonUnmarshalInts (joinWith 9 (f2 :: more)) policy.Slots with
        | (slots, none) => .ok { policy with Slots := slots }
        | (_, some err) => .error (ascii "invalid replica slots: " ++ err)
      else .ok policy
    else .ok policy
  | _ => .ok policy

/-- The line loop of the p2p server's `extractPolicy`. -/
def P2P.policyLines (L : Lib) : PolicyMetadata → List Bytes → Except Bytes PolicyMetadata
  | policy, [] => .ok policy
  | policy, line :: rest =>
    match P2P.policyLine L policy line with
    | .error e => .error e
    | .ok policy1 => P2P.policyLines L policy1 rest

/-- Go `extractPolicy` of the p2p server. -/
def P2P.extractPolicy (L : Lib) (traceBytes : Bytes) : Except Bytes PolicyMetadata :=
  match P2P.policyLines L PolicyMetadata.empty (splitOn 10 traceBytes) with
  | .error e => .error e
  | .ok policy =>
    if policy.E8L = [] then .error (ascii "no policy metadata") else .ok policy

/-! ## The peer and its store -/

/-- The struct `ULPPeer`, without its network host. -/
structure ULPPeer where
  records : GoMap RID Record
  worlds : GoMap WID WorldBall
  deriving DecidableEq

/-- Go `NewULPPeer`: both tables start empty. -/
def NewULPPeer : ULPPeer := ⟨[], []⟩

/-- Go `ULPPeer.LoadRecord`. The file system is the function from a path to
the result of `os.ReadFile`. Returns the peer afterwards and `(record, err)`. -/
def LoadRecord (L : Lib) (fs : Bytes → Except Bytes Bytes) (p : ULPPeer) (tracePath : Bytes) :
    ULPPeer × Except Bytes Record :=
  match fs tracePath with
  | .error err => (p, .error err)
  | .ok bytes =>
    let rid := L.sha256 bytes
    let policy := extractPolicyFromTrace L bytes
    let record : Record := ⟨rid, bytes, policy⟩
    ({ p with records := p.records.set rid record }, .ok record)

/-- The struct `TestamentServer` of the p2p server, without host and HTTP data. -/
structure P2P.TestamentServer where
  records : GoMap RID Record
  deriving DecidableEq

/-- Go `TestamentServer.loadRecord` of the p2p server. Returns the server
afterwards and the error, if any. -/
def P2P.loadRecord (L : Lib) (fs : Bytes → Except Bytes Bytes) (s : P2P.TestamentServer)
    (tracePath : Bytes) : P2P.TestamentServer × Option Bytes :=
  match fs tracePath with
  | .error err => (s, some err)
  | .ok bytes =>
    let rid := L.sha256 bytes
    let policy : Option PolicyMetadata :=
      match P2P.extractPolicy L bytes with
      | .error _ => none
      | .ok pol => some pol
    let record : Record := ⟨rid, bytes, policy⟩
    ({ s with records := s.records.set rid record }, none)

/-- The load loop of `main` (command `serve`): `LoadRecord` on each trace path
in turn, a failed load being logged and skipped. -/
def loadAll (L : Lib) (fs : Bytes → Except Bytes Bytes) (p : ULPPeer) (paths : List Bytes) :
    ULPPeer :=
  paths.foldl (fun q path => (LoadRecord L fs q path).1) p

/-- Go `TestamentServer.LoadRecords` of the p2p server, on the paths the glob
delivered. -/
def P2P.LoadRecords (L : Lib) (fs : Bytes → Except Bytes Bytes) (s : P2P.TestamentServer)
    (files : List Bytes) : P2P.TestamentServer :=
  files.foldl (fun q path => (P2P.loadRecord L fs q path).1) s

/-! ## Stream handlers -/

/-- Go `bufio.Reader.ReadString` on a stream that delivers the given bytes and
then ends: the text up to and including the first delimiter, and whether an
error (end of stream before a delimiter) is returned with it. -/
def readString (delim : Byte) : Bytes → Bytes × Bool
  | [] => ([], true)
  | c :: rest =>
    if c = delim then ([c], false)
    else ((readString delim rest).1.cons c, (readString delim rest).2)

/-- Go `ULPPeer.handleULPStream`: the bytes written to the stream, `none`
when the handler returns without writing. -/
def handleULPStream (L : Lib) (p : ULPPeer) (inbound : Bytes) : Option Bytes :=
  match readString 10 inbound with
  | (_, true) => none
  | (request, false) =>
    let request := trimSpace request
    match ParseULPURL L.hexErrText request with
    | (_, some err) => some (ascii "ERROR: " ++ err ++ ascii "\n")
    | (rid, none) =>
      match p.records.get rid with
      | none => some (ascii "NOT_FOUND\n")
      | some record => some record.Bytes

/-- Go `TestamentServer.handleULPRequest` of the p2p server: `io.ReadAll`
delivers the whole inbound stream. -/
def P2P.handleULPRequest (L : Lib) (s : P2P.TestamentServer) (data : Bytes) : Option Bytes :=
  let request := trimSpace data
  match P2P.parseULPURL L.hexErrText request with
  | (_, some err) => some (ascii "ERROR: " ++ err ++ ascii "\n")
  | (rid, none) =>
    match s.records.get rid with
    | none => some (ascii "NOT_FOUND\n")
    | some record => some record.Bytes

/-! ## Worlds -/

/-- Go string comparison `a <= b`: bytewise lexicographic. -/
def strLE : Bytes → Bytes → Bool
  | [], _ => true
  | _ :: _, [] => false
  | a :: s, b :: t => decide (a.val < b.val) || (a == b && strLE s t)

/-- Go `sort.Strings`: the names in ascending order. -/
def sortStrings (names : List Bytes) : List Bytes :=
  names.insertionSort (fun a b => strLE a b = true)

/-- Go `canonicalizeDotfiles`: collect the keys, sort them, and append
`name`, `=`, the blob and a line feed for each. -/
def canonicalizeDotfiles (files : GoMap Bytes Bytes) : Bytes :=
  let names := sortStrings files.keys
  names.foldl
    (fun result name => result ++ name ++ [61] ++ (files.get name).getD [] ++ [10]) []

/-- The list `required` of `LoadWorld`. -/
def required : List Bytes :=
  [ascii ".genesis", ascii ".env", ascii ".schema", ascii ".atom", ascii ".manifest",
   ascii ".sequence", ascii ".include", ascii ".ignore", ascii ".interrupt",
   ascii ".procedure", ascii ".view", ascii ".record", ascii ".symmetry"]

/-- The read loop of `LoadWorld` over the names still to read. The world
directory is the function from a dotfile name to the result of reading that
file in it. -/
def readDotfiles (dir : Bytes → Except Bytes Bytes) :
    List Bytes → GoMap Bytes Bytes → Except Bytes (GoMap Bytes Bytes)
  | [], dotfiles => .ok dotfiles
  | name :: rest, dotfiles =>
    match dir name with
    | .error err => .error (ascii "missing dotfile " ++ name ++ ascii ": " ++ err)
    | .ok data => readDotfiles dir rest (dotfiles.set name data)

/-- Go `LoadWorld`. -/
def LoadWorld (L : Lib) (dir : Bytes → Except Bytes Bytes) : Except Bytes WorldBall :=
  match readDotfiles dir required [] with
  | .error e => .error e
  | .ok dotfiles =>
    let canonical := canonicalizeDotfiles dotfiles
    let wid : WID := L.sha256 canonical
    .ok ⟨wid, dotfiles⟩

/-! ## Auxiliary notions for the statements -/

/-- A byte that no white-space encoding starts or ends with: ASCII and not
one of the six ASCII white-space bytes. -/
def plain (b : Byte) : Bool := decide (b.val < 128) && !isAsciiSpace b

/-- The store holds the blob `B` under its digest. -/
def Holds (L : Lib) (records : GoMap RID Record) (B : Bytes) : Prop :=
  ∃ record, records.get (L.sha256 B) = some record ∧ record.Bytes = B

/-- The answer the protocol prescribes for a trimmed request text: an error
text when it does not parse, `NOT_FOUND` when the identifier is no key of the
store, the record's bytes otherwise. -/
def threeWay (L : Lib) (records : GoMap RID Record) (request : Bytes) : Bytes :=
  match ParseULPURL L.hexErrText request with
  | (_, some reason) => ascii "ERROR: " ++ reason ++ ascii "\n"
  | (rid, none) =>
    match records.get rid with
    | none => ascii "NOT_FOUND\n"
    | some record => record.Bytes

/-- A stand-in digest for evaluating the definitions: the first 32 bytes of
the input, padded with zeros. -/
def demoDigest (b : Bytes) : RID :=
  ⟨(b ++ List.replicate 32 0).take 32, by simp⟩

/-- A library instance for evaluating the definitions: the stand-in digest,
empty error texts, and an unmarshaller that accepts only the text `[]`. -/
def demoLib : Lib :=
  { sha256 := demoDigest
    hexErrText := fun _ => []
    jsonUnmarshalInts := fun text old =>
      if text = ascii "[]" then ([], none) else (old, some (ascii "invalid")) }

/-- A file system with two trace files. -/
def demoFs (path : Bytes) : Except Bytes Bytes :=
  if path = ascii "a/trace.log" then .ok (ascii "POLICY\te8l\tx\nPOLICY\te8r\ty\n")
  else if path = ascii "b/trace.log" then .ok (ascii "hello")
  else .error (ascii "no such file")

/-- A hexadecimal digit in either case. -/
def isHexDigit (c : Byte) : Bool :=
  decide (48 ≤ c.val ∧ c.val ≤ 57) || decide (97 ≤ c.val ∧ c.val ≤ 102) ||
    decide (65 ≤ c.val ∧ c.val ≤ 70)

/-- ASCII lower-casing of one byte. -/
def toLower (c : Byte) : Byte :=
  if 65 ≤ c.val ∧ c.val ≤ 90 then Fin.ofNat (c.val + 32) else c

/-- The text `ParseULPURL` hands to the decoder. -/
def remainder (s : Bytes) : Bytes := trimSpace (trimPrefix s (ascii "ulp://"))

/-- The digit value agrees with the digit test, is a nibble, and indexes the
lower-case spelling of the digit in the encoder's table. -/
def digitOk (c : Byte) : Bool :=
  match fromHexChar c with
  | some a => isHexDigit c && decide (a < 16) && (hextable a == toLower c)
  | none => !isHexDigit c

/-- Go string comparison `a < b`, as the standard lexicographic order of the
byte sequences. -/
def StrLT (a b : Bytes) : Prop := List.Lex (fun x y : Byte => x < y) a b

/-- One segment of the canonical form. -/
def segment (e : Bytes × Bytes) : Bytes := e.1 ++ ascii "=" ++ e.2 ++ ascii "\n"

/-- The bytes a directory delivers for a name; empty when the read fails. -/
def contents (dir : Bytes → Except Bytes Bytes) (name : Bytes) : Bytes :=
  match dir name with
  | .ok data => data
  | .error _ => []

/-- The name can be read in the directory. -/
def Readable (dir : Bytes → Except Bytes Bytes) (name : Bytes) : Prop :=
  ∃ data, dir name = .ok data

/-- A world directory that holds every required dotfile, each with its own
name as content, and nothing else. -/
def demoDir (name : Bytes) : Except Bytes Bytes :=
  if name ∈ required then .ok name else .error (ascii "no such file")

/-- A world directory in which `.schema` and `.view` are absent. -/
def brokenDir (name : Bytes) : Except Bytes Bytes :=
  if name = ascii ".schema" ∨ name = ascii ".view" then .error (ascii "no such file")
  else .ok (ascii "x")

/-- First world of the collision: `.atom` holds a line feed and an `=`. -/
def worldA (name : Bytes) : Except Bytes Bytes :=
  if name = ascii ".atom" then .ok (ascii "X\n.env=Y")
  else if name = ascii ".env" then .ok (ascii "Z")
  else if name ∈ required then .ok []
  else .error (ascii "no such file")

/-- Second world of the collision: `.env` holds a line feed and an `=`. -/
def worldB (name : Bytes) : Except Bytes Bytes :=
  if name = ascii ".atom" then .ok (ascii "X")
  else if name = ascii ".env" then .ok (ascii "Y\n.env=Z")
  else if name ∈ required then .ok []
  else .error (ascii "no such file")

/-- The dotfile map `LoadWorld` builds from a directory in which every
required name can be read. -/
def dotfilesOf (dir : Bytes → Except Bytes Bytes) : GoMap Bytes Bytes :=
  (required.map (fun n => (n, contents dir n))).reverse

/-- A call of `LoadWorld` made next to a peer. `LoadWorld` is a plain
function, not a method of `ULPPeer`: no peer is among its arguments, so the
peer is afterwards what it was before. -/
def LoadWorldAt (L : Lib) (dir : Bytes → Except Bytes Bytes) (p : ULPPeer) :
    ULPPeer × Except Bytes WorldBall :=
  (p, LoadWorld L dir)

/-- The calls that load data: `LoadRecord` on a trace path and `LoadWorld` on
a world directory. -/
inductive Call where
  | loadRecord (tracePath : Bytes)
  | loadWorld (dir : Bytes → Except Bytes Bytes)

/-- The peer after one call. -/
def Call.run (L : Lib) (fs : Bytes → Except Bytes Bytes) (p : ULPPeer) : Call → ULPPeer
  | .loadRecord tracePath => (LoadRecord L fs p tracePath).1
  | .loadWorld dir => (LoadWorldAt L dir p).1

/-- The peer after a sequence of calls. -/
def runCalls (L : Lib) (fs : Bytes → Except Bytes Bytes) (p : ULPPeer) (calls : List Call) :
    ULPPeer :=
  calls.foldl (Call.run L fs) p

/-! ## The trustee server's extraction, routing and replica intent -/

/-- One turn of the line loop of `extractPolicy` (testament-trustee): the
error of `json.Unmarshal` is not looked at, `Slots` is whatever the call left. -/
def Trustee.policyLine (L : Lib) (policy : PolicyMetadata) (line : Bytes) : PolicyMetadata :=
  match splitOn 9 line with
  | f0 :: f1 :: f2 :: more =>
    if f0 = ascii "POLICY" then
      if f1 = ascii "e8l" then { policy with E8L := f2 }
      else if f1 = ascii "e8r" then { policy with E8R := f2 }
      else if f1 = ascii "chirality" then { policy with Chirality := f2 }
      else policy
    else if f0 = ascii "GEOMETRY" then
      if f1 = ascii "projective" then { policy with Projective := f2 }
      else if f1 = ascii "causality" then { policy with Causality := f2 }
      else if f1 = ascii "incidence" then { policy with Incidence := f2 }
      else policy
    else if f0 = ascii "REPLICA" then
      if f1 = ascii "slots" then
        { policy with Slots := (L.jsonUnmarshalInts (joinWith 9 (f2 :: more)) policy.Slots).1 }
      else policy
    else policy
  | _ => policy

/-- Go `extractPolicy` of testament-trustee: `none` is the error
"no policy metadata". -/
def Trustee.extractPolicy (L : Lib) (traceBytes : Bytes) : Option PolicyMetadata :=
  let policy := (splitOn 10 traceBytes).foldl (Trustee.policyLine L) PolicyMetadata.empty
  if policy.E8L = [] then none else some policy

/-- The type `peer.ID`: a string. -/
abbrev PeerID := Bytes

/-- The assignment `ordered[i], ordered[j] = ordered[j], ordered[i]`. -/
def swapAt (ordered : List PeerID) (i j : Nat) : List PeerID :=
  match ordered[i]?, ordered[j]? with
  | some a, some b => (ordered.set i b).set j a
  | _, _ => ordered

/-- The loop `for i, j := 0, len(ordered)-1; i < j; i, j = i+1, j-1` of
`RouteToPeers`, entered with the current `i` and `j`. -/
def reverseLoop (ordered : List PeerID) (i j : Nat) : List PeerID :=
  if i < j then reverseLoop (swapAt ordered i j) (i + 1) (j - 1) else ordered
termination_by j - i

/-- Go `ULPPeer.RouteToPeers`. The result is the returned slice together with
the contents of the argument slice after the call: the loop works on the
copy `ordered`, the argument is only read. -/
def RouteToPeers (p : ULPPeer) (rid : RID) (peers : List PeerID) :
    List PeerID × List PeerID :=
  match p.records.get rid with
  | none => (peers, peers)
  | some record =>
    let ordered := peers
    match record.Policy with
    | some policy =>
      if policy.Chirality = ascii "RIGHT" then
        (reverseLoop ordered 0 (ordered.length - 1), peers)
      else (ordered, peers)
    | none => (ordered, peers)

/-- Go `ULPPeer.AnnounceReplicaIntent`. The result is the peer after the call
(the method only reads it) and the returned slots; a nil slice is `[]`. -/
def AnnounceReplicaIntent (p : ULPPeer) (rid : RID) : ULPPeer × List Int :=
  match p.records.get rid with
  | none => (p, [])
  | some record =>
    match record.Policy with
    | none => (p, [])
    | some policy => (p, policy.Slots)

/-! ## Notions for the statements about policy extraction -/

/-- The lines of a trace, as `strings.Split(trace, "\n")` delivers them. -/
def traceLines (trace : Bytes) : List Bytes := splitOn 10 trace

/-- A data line of the given section and key: at least three tab-separated
fields, the first two being the section and the key. -/
def DataLine (sec key line : Bytes) : Prop :=
  ∃ f2 more, splitOn 9 line = sec :: key :: f2 :: more

/-- The test for a data line of the given section and key. -/
def isDataLine (sec key line : Bytes) : Bool :=
  match splitOn 9 line with
  | f0 :: f1 :: _ :: _ => decide (f0 = sec) && decide (f1 = key)
  | _ => false

/-- A `REPLICA`/`slots` data line. -/
def SlotsLine (line : Bytes) : Prop := DataLine (ascii "REPLICA") (ascii "slots") line

/-- The third tab-separated field of a line (empty when there is none). -/
def thirdField (line : Bytes) : Bytes :=
  match splitOn 9 line with
  | _ :: _ :: f2 :: _ => f2
  | _ => []

/-- The fields of a line from the third onward, re-joined with tabs. -/
def restText (line : Bytes) : Bytes :=
  match splitOn 9 line with
  | _ :: _ :: f2 :: more => joinWith 9 (f2 :: more)
  | _ => []

/-- The six scalar keys of the trace encoding. -/
inductive Scalar where
  | e8l | e8r | chirality | projective | causality | incidence
  deriving DecidableEq

/-- The section a scalar key is written under. -/
def Scalar.sec : Scalar → Bytes
  | .e8l => ascii "POLICY"
  | .e8r => ascii "POLICY"
  | .chirality => ascii "POLICY"
  | .projective => ascii "GEOMETRY"
  | .causality => ascii "GEOMETRY"
  | .incidence => ascii "GEOMETRY"

/-- The key text of a scalar key. -/
def Scalar.key : Scalar → Bytes
  | .e8l => ascii "e8l"
  | .e8r => ascii "e8r"
  | .chirality => ascii "chirality"
  | .projective => ascii "projective"
  | .causality => ascii "causality"
  | .incidence => ascii "incidence"

/-- The field of `PolicyMetadata` a scalar key is stored in. -/
def PolicyMetadata.scalar (p : PolicyMetadata) : Scalar → Bytes
  | .e8l => p.E8L
  | .e8r => p.E8R
  | .chirality => p.Chirality
  | .projective => p.Projective
  | .causality => p.Causality
  | .incidence => p.Incidence

/-- The policy with one scalar field replaced. -/
def PolicyMetadata.setScalar (p : PolicyMetadata) : Scalar → Bytes → PolicyMetadata
  | .e8l, v => { p with E8L := v }
  | .e8r, v => { p with E8R := v }
  | .chirality, v => { p with Chirality := v }
  | .projective, v => { p with Projective := v }
  | .causality, v => { p with Causality := v }
  | .incidence, v => { p with Incidence := v }

/-- The seven recognised (section, key) pairs. -/
def recognised : List (Bytes × Bytes) :=
  [(ascii "POLICY", ascii "e8l"), (ascii "POLICY", ascii "e8r"),
   (ascii "POLICY", ascii "chirality"), (ascii "GEOMETRY", ascii "projective"),
   (ascii "GEOMETRY", ascii "causality"), (ascii "GEOMETRY", ascii "incidence"),
   (ascii "REPLICA", ascii "slots")]

/-- A line that is no data line of a recognised pair: fewer than three
tab-separated fields, or a (section, key) pair outside the seven. -/
def Irrelevant (line : Bytes) : Prop :=
  (splitOn 9 line).length < 3 ∨
    ∀ f0 f1 f2 more, splitOn 9 line = f0 :: f1 :: f2 :: more → (f0, f1) ∉ recognised

/-- Digits of a decimal numeral read left to right onto an accumulator;
`none` when a byte is no digit. -/
def readDigits : Bytes → Nat → Option Nat
  | [], acc => some acc
  | c :: rest, acc =>
    if 48 ≤ c.val ∧ c.val ≤ 57 then readDigits rest (acc * 10 + (c.val - 48)) else none

/-- A decimal integer with an optional minus sign. -/
def readInt : Bytes → Option Int
  | [] => none
  | c :: rest =>
    if c.val = 45 then
      (if rest = [] then none else (readDigits rest 0).map (fun n => - (n : Int)))
    else (readDigits (c :: rest) 0).map (fun n => (n : Int))

/-- A small reader of integer arrays `[n,n,...]` without white space, used
to evaluate the definitions where a slot array is decoded. -/
def readIntArray (text : Bytes) : Option (List Int) :=
  match text with
  | 91 :: rest =>
    match rest.reverse with
    | 93 :: inner =>
      if inner = [] then some []
      else (splitOn 44 inner.reverse).mapM readInt
    | _ => none
  | _ => none

/-- A library instance whose unmarshaller reads integer arrays with
`readIntArray` and leaves the slice alone on an error. -/
def arrayLib : Lib :=
  { sha256 := demoDigest
    hexErrText := fun _ => []
    jsonUnmarshalInts := fun text old =>
      match readIntArray text with
      | some s => (s, none)
      | none => (old, some (ascii "invalid character")) }

/-- One line of the trace encoding: section, tab, key, tab, value. -/
def encodeLine (sec key value : Bytes) : Bytes := sec ++ 9 :: (key ++ 9 :: value)

/-- The seven lines of the trace encoding for the given six scalar values
and the text of the slot array. -/
def traceEncoding (e8l e8r chirality projective causality incidence slots : Bytes) :
    List Bytes :=
  [encodeLine (ascii "POLICY") (ascii "e8l") e8l,
   encodeLine (ascii "POLICY") (ascii "e8r") e8r,
   encodeLine (ascii "POLICY") (ascii "chirality") chirality,
   encodeLine (ascii "GEOMETRY") (ascii "projective") projective,
   encodeLine (ascii "GEOMETRY") (ascii "causality") causality,
   encodeLine (ascii "GEOMETRY") (ascii "incidence") incidence,
   encodeLine (ascii "REPLICA") (ascii "slots") slots]

/-- A peer that holds one record, with chirality `RIGHT` and three slots,
under the zero RID. -/
def demoPeer : ULPPeer :=
  ⟨[(RID.zero, ⟨RID.zero, ascii "t",
      some ⟨ascii "x", ascii "y", ascii "RIGHT", [], [], [], [2, 0, 2]⟩⟩)], []⟩

/-! ## Notions for the store invariant, the stream end and the label values -/

/-- The store invariant: the keys are pairwise distinct and every entry
`k -> r` has `r.RID = k` and `k = SHA256(r.Bytes)`. -/
def StoreInv (L : Lib) (records : GoMap RID Record) : Prop :=
  records.keys.Nodup ∧ ∀ e ∈ records, e.2.RID = e.1 ∧ e.1 = L.sha256 e.2.Bytes

/-- The number of loads, among the given trace paths, whose file is read
successfully. -/
def successfulLoads (fs : Bytes → Except Bytes Bytes) (paths : List Bytes) : Nat :=
  (paths.filter (fun q => match fs q with | .ok _ => true | .error _ => false)).length

/-- The third field of the last data line of the given section and key among
the lines; `none` when there is no such line. -/
def lastValue (sec key : Bytes) (lines : List Bytes) : Option Bytes :=
  match (lines.filter (fun line => isDataLine sec key line)).getLast? with
  | some line => some (thirdField line)
  | none => none

/-! ## JSON arrays of integers -/

/-- JSON white space: space, tab, line feed, carriage return. -/
def isJsonSpace (b : Byte) : Bool :=
  b.val == 32 || b.val == 9 || b.val == 10 || b.val == 13

/-- A text without its leading and trailing JSON white space. -/
def trimJsonSpace (t : Bytes) : Bytes :=
  ((t.dropWhile isJsonSpace).reverse.dropWhile isJsonSpace).reverse

/-- A JSON integer numeral without sign: `0`, or a digit from 1 to 9
followed by digits. -/
def isJsonNatToken : Bytes → Bool
  | [] => false
  | [c] => decide (48 ≤ c.val ∧ c.val ≤ 57)
  | c :: rest =>
    decide (49 ≤ c.val ∧ c.val ≤ 57) && rest.all (fun d => decide (48 ≤ d.val ∧ d.val ≤ 57))

/-- A JSON integer numeral: an optional minus sign and an unsigned numeral. -/
def isJsonIntToken : Bytes → Bool
  | 45 :: rest => isJsonNatToken rest
  | t => isJsonNatToken t

/-- The list a text denotes when it is a JSON array of integers: `[`, the
numerals separated by commas, `]`, with white space allowed around every
token; `none` for every other text. -/
def jsonIntArray (text : Bytes) : Option (List Int) :=
  match trimJsonSpace text with
  | 91 :: rest =>
    match rest.reverse with
    | 93 :: innerRev =>
      if trimJsonSpace innerRev.reverse = [] then some []
      else (splitOn 44 innerRev.reverse).mapM
        (fun tok => if isJsonIntToken (trimJsonSpace tok) then readInt (trimJsonSpace tok)
          else none)
    | _ => none
  | _ => none

/-- A library instance whose unmarshaller follows `encoding/json` on the
texts used here: a JSON array of integers is decoded, the literal `null` is
accepted without error and leaves a nil slice, any other text is an error
that leaves the slice alone. -/
def jsonLib : Lib :=
  { sha256 := demoDigest
    hexErrText := fun _ => []
    jsonUnmarshalInts := fun text old =>
      if trimJsonSpace text = ascii "null" then ([], none)
      else match jsonIntArray text with
        | some s => (s, none)
        | none => (old, some (ascii "invalid character")) }

/-! ## Evaluation checks -/

theorem eval_ascii : ascii "ulp://" = [117, 108, 112, 58, 47, 47] := by decide
theorem eval_decimal : decimal 120 = ascii "120" := by decide
theorem eval_trimSpace_ascii : trimSpace (ascii " \t ab c\n") = ascii "ab c" := by decide
theorem eval_trimSpace_unicode :
    trimSpace ([0xC2, 0xA0] ++ ascii "ab" ++ [0xE2, 0x80, 0x83, 10]) = ascii "ab" := by decide
theorem eval_jsonIntArray : jsonIntArray (ascii " [3, -1,20 ]") = some [3, -1, 20] := by decide
theorem eval_jsonIntArray_real : jsonIntArray (ascii "[1.5]") = none := by decide
theorem eval_jsonIntArray_open : jsonIntArray (ascii "[1,") = none := by decide
theorem eval_hexEncode : hexEncode [0, 255, 0x1a] = ascii "00ff1a" := by decide
theorem eval_hexDecode : hexDecode (ascii "00Ff1A") = .ok [0, 255, 0x1a] := by decide
theorem eval_hexDecode_bad_digit : hexDecode (ascii "00z") = .error (.invalidByte 122) := by decide
theorem eval_hexDecode_odd : hexDecode (ascii "00a") = .error .oddLength := by decide

theorem eval_splitOn :
    splitOn 9 (ascii "a\tb\t\tc") = [ascii "a", ascii "b", [], ascii "c"] := by decide
theorem eval_canonicalizeDotfiles : canonicalizeDotfiles [(ascii "b", ascii "2"), (ascii "a", ascii "1")]
    = ascii "a=1\nb=2\n" := by decide

/-! ## Lemmas: text routines -/

theorem hasPrefix_append (p s : Bytes) : hasPrefix (p ++ s) p = true := by
  induction p with
  | nil => cases s <;> rfl
  | cons a p ih => simp [hasPrefix, ih]

theorem trimPrefix_append (p s : Bytes) : trimPrefix (p ++ s) p = s := by
  simp [trimPrefix, hasPrefix_append]

theorem isSpace2_plain_left (a b : Byte) (h : plain a = true) : isSpace2 a b = false := by
  simp only [plain, Bool.and_eq_true, decide_eq_true_eq] at h
  have := h.1
  simp only [isSpace2, Bool.and_eq_false_imp, beq_iff_eq]
  intro h1; omega

theorem isSpace3_plain_left (a b c : Byte) (h : plain a = true) : isSpace3 a b c = false := by
  simp only [plain, Bool.and_eq_true, decide_eq_true_eq] at h
  have h1 := h.1
  have e1 : (a.val == 0xE1) = false := by simp; omega
  have e2 : (a.val == 0xE2) = false := by simp; omega
  have e3 : (a.val == 0xE3) = false := by simp; omega
  simp [isSpace3, e1, e2, e3]

theorem isSpace2_plain_right (a b : Byte) (h : plain b = true) : isSpace2 a b = false := by
  simp only [plain, Bool.and_eq_true, decide_eq_true_eq] at h
  have h1 := h.1
  have e1 : (b.val == 0x85) = false := by simp; omega
  have e2 : (b.val == 0xA0) = false := by simp; omega
  simp [isSpace2, e1, e2]

theorem isSpace3_plain_right (a b c : Byte) (h : plain c = true) : isSpace3 a b c = false := by
  simp only [plain, Bool.and_eq_true, decide_eq_true_eq] at h
  have h1 := h.1
  have e1 : (c.val == 0x80) = false := by simp; omega
  have e2 : (c.val == 0xA8) = false := by simp; omega
  have e3 : (c.val == 0xA9) = false := by simp; omega
  have e4 : (c.val == 0xAF) = false := by simp; omega
  have e5 : (c.val == 0x9F) = false := by simp; omega
  have e6 : decide (0x80 ≤ c.val) = false := by simp; omega
  simp [isSpace3, e1, e2, e3, e4, e5, e6]

theorem plain_not_space (a : Byte) (h : plain a = true) : isAsciiSpace a = false := by
  simp only [plain, Bool.and_eq_true, Bool.not_eq_true'] at h
  exact h.2

/-- Left trimming stops at a plain byte. -/
theorem trimLeftSpace_cons_plain (a : Byte) (t : Bytes) (h : plain a = true) :
    trimLeftSpace (a :: t) = a :: t := by
  have h0 := plain_not_space a h
  match t with
  | [] => simp [trimLeftSpace, h0]
  | [b] => simp [trimLeftSpace, h0, isSpace2_plain_left a b h]
  | b :: c :: t2 =>
    simp [trimLeftSpace, h0, isSpace2_plain_left a b h, isSpace3_plain_left a b c h]

/-- Right trimming (on the reversed text) stops at a plain byte. -/
theorem trimLeftSpaceRev_cons_plain (a : Byte) (t : Bytes) (h : plain a = true) :
    trimLeftSpaceRev (a :: t) = a :: t := by
  have h0 := plain_not_space a h
  match t with
  | [] => simp [trimLeftSpaceRev, h0]
  | [b] => simp [trimLeftSpaceRev, h0, isSpace2_plain_right b a h]
  | b :: c :: t2 =>
    simp [trimLeftSpaceRev, h0, isSpace2_plain_right b a h, isSpace3_plain_right c b a h]

theorem trimRightSpace_append_plain (s : Bytes) (a : Byte) (h : plain a = true) :
    trimRightSpace (s ++ [a]) = s ++ [a] := by
  simp [trimRightSpace, trimLeftSpaceRev_cons_plain _ _ h]

theorem trimRightSpace_append_space (s : Bytes) (a : Byte) (h : isAsciiSpace a = true) :
    trimRightSpace (s ++ [a]) = trimRightSpace s := by
  have e : (s ++ [a]).reverse = a :: s.reverse := by simp
  unfold trimRightSpace
  rw [e, trimLeftSpaceRev.eq_def]
  simp [h]

/-- A text that starts and ends with a plain byte is left alone. -/
theorem trimSpace_plain_ends (a b : Byte) (m : Bytes) (ha : plain a = true)
    (hb : plain b = true) : trimSpace (a :: (m ++ [b])) = a :: (m ++ [b]) := by
  unfold trimSpace
  rw [trimLeftSpace_cons_plain _ _ ha]
  have : a :: (m ++ [b]) = (a :: m) ++ [b] := rfl
  rw [this, trimRightSpace_append_plain _ _ hb]

theorem fromHexChar_hextable : ∀ n : Fin 16, fromHexChar (hextable n.val) = some n.val := by
  decide

theorem plain_hextable : ∀ n : Fin 16, plain (hextable n.val) = true := by
  decide

theorem byte_split (v : Byte) : (Fin.ofNat (v.val / 16 * 16 + v.val % 16) : Byte) = v := by
  apply Fin.ext
  simp [Fin.ofNat]
  omega

theorem fromHexChar_hi (v : Byte) : fromHexChar (hextable (v.val / 16)) = some (v.val / 16) :=
  fromHexChar_hextable ⟨v.val / 16, by omega⟩

theorem fromHexChar_lo (v : Byte) : fromHexChar (hextable (v.val % 16)) = some (v.val % 16) :=
  fromHexChar_hextable ⟨v.val % 16, by omega⟩

/-- Decoding undoes encoding. -/
theorem hexDecode_hexEncode (bs : Bytes) : hexDecode (hexEncode bs) = .ok bs := by
  induction bs with
  | nil => rfl
  | cons v rest ih =>
    simp [hexEncode, hexDecode, fromHexChar_hi, fromHexChar_lo, ih, byte_split]

theorem hexEncode_all_plain (bs : Bytes) : ∀ c ∈ hexEncode bs, plain c = true := by
  induction bs with
  | nil => simp [hexEncode]
  | cons v rest ih =>
    intro c hc
    simp only [hexEncode, List.mem_cons] at hc
    rcases hc with h | h | h
    · rw [h]; exact plain_hextable ⟨v.val / 16, by omega⟩
    · rw [h]; exact plain_hextable ⟨v.val % 16, by omega⟩
    · exact ih c h

theorem hextable_lower : ∀ n : Fin 16, hextable n.val ∈ ascii "0123456789abcdef" := by
  decide

/-- The encoder writes lower-case digits only. -/
theorem hexEncode_lower (bs : Bytes) : ∀ c ∈ hexEncode bs, c ∈ ascii "0123456789abcdef" := by
  induction bs with
  | nil => simp [hexEncode]
  | cons v rest ih =>
    intro c hc
    simp only [hexEncode, List.mem_cons] at hc
    rcases hc with h | h | h
    · rw [h]; exact hextable_lower ⟨v.val / 16, by omega⟩
    · rw [h]; exact hextable_lower ⟨v.val % 16, by omega⟩
    · exact ih c h

/-- A text made of plain bytes only is left alone. -/
theorem trimSpace_all_plain (s : Bytes) (h : ∀ c ∈ s, plain c = true) : trimSpace s = s := by
  match s with
  | [] => rfl
  | [a] =>
    have ha := h a (by simp)
    simp [trimSpace, trimRightSpace, trimLeftSpace_cons_plain _ _ ha,
      trimLeftSpaceRev_cons_plain _ _ ha]
  | a :: b :: t =>
    have ha := h a (by simp)
    obtain ⟨m, z, hz⟩ : ∃ m z, b :: t = m ++ [z] :=
      ⟨(b :: t).dropLast, (b :: t).getLast (by simp),
        (List.dropLast_append_getLast (by simp)).symm⟩
    have hzp : plain z = true := h z (by rw [hz]; simp)
    rw [hz]
    exact trimSpace_plain_ends a z m ha hzp

theorem trimSpace_hexEncode (bs : Bytes) : trimSpace (hexEncode bs) = hexEncode bs :=
  trimSpace_all_plain _ (hexEncode_all_plain bs)

/-- Parsing the hexadecimal text of an identifier, with or without the
scheme, gives the identifier back. -/
theorem ParseULPURL_hex (t : HexError → Bytes) (r : RID) :
    ParseULPURL t (ascii "ulp://" ++ hexEncode r.bytes) = (r, none) := by
  unfold ParseULPURL
  simp only [trimPrefix_append, trimSpace_hexEncode, hexDecode_hexEncode]
  simp [r.size]

/-! ## Lemmas: maps and the record store -/

theorem GoMap.get_set_self {κ ν : Type} [DecidableEq κ] (m : GoMap κ ν) (k : κ) (v : ν) :
    (m.set k v).get k = some v := by
  simp [GoMap.set, GoMap.get]

theorem GoMap.get_erase_ne {κ ν : Type} [DecidableEq κ] (m : GoMap κ ν) (k k1 : κ)
    (h : k1 ≠ k) : GoMap.get (m.erase k) k1 = GoMap.get m k1 := by
  induction m with
  | nil => rfl
  | cons e rest ih =>
    obtain ⟨a, b⟩ := e
    by_cases hak : a = k
    · have hne : ¬ a = k1 := fun e => h (e ▸ hak)
      simp only [GoMap.erase, hak, if_true, GoMap.get]
      rw [ih, if_neg (fun e => h e.symm)]
    · by_cases hak1 : a = k1
      · subst hak1
        simp only [GoMap.erase, hak, if_false, GoMap.get, if_true]
      · simp only [GoMap.erase, hak, if_false, GoMap.get, hak1, ih]

theorem GoMap.get_set_ne {κ ν : Type} [DecidableEq κ] (m : GoMap κ ν) (k k1 : κ) (v : ν)
    (h : k1 ≠ k) : (m.set k v).get k1 = m.get k1 := by
  have hk : ¬ k = k1 := fun e => h e.symm
  simp only [GoMap.set, GoMap.get, hk, if_false]
  exact GoMap.get_erase_ne m k k1 h

theorem readString_line (d : Byte) (s : Bytes) (h : d ∉ s) :
    readString d (s ++ [d]) = (s ++ [d], false) := by
  induction s with
  | nil => simp [readString]
  | cons c rest ih =>
    have hc : ¬ c = d := fun e => h (by simp [e])
    have hr : d ∉ rest := fun e => h (by simp [e])
    simp [readString, hc, ih hr]

theorem trimLeftSpace_all_plain (s t : Bytes) (h : ∀ c ∈ s, plain c = true) (hs : s ≠ []) :
    trimLeftSpace (s ++ t) = s ++ t := by
  match s with
  | [] => exact absurd rfl hs
  | a :: r => exact trimLeftSpace_cons_plain a (r ++ t) (h a (by simp))

theorem trimRightSpace_all_plain (s : Bytes) (h : ∀ c ∈ s, plain c = true) :
    trimRightSpace s = s := by
  match s with
  | [] => rfl
  | a :: r =>
    have e := trimSpace_all_plain (a :: r) h
    unfold trimSpace at e
    rwa [trimLeftSpace_cons_plain a r (h a (by simp))] at e

/-- A line of plain bytes followed by a line feed is trimmed to the line. -/
theorem trimSpace_line (s : Bytes) (h : ∀ c ∈ s, plain c = true) :
    trimSpace (s ++ [10]) = s := by
  by_cases hs : s = []
  · subst hs; decide
  · unfold trimSpace
    rw [trimLeftSpace_all_plain s [10] h hs,
      trimRightSpace_append_space s 10 (by decide), trimRightSpace_all_plain s h]

theorem url_all_plain (r : RID) : ∀ c ∈ ascii "ulp://" ++ hexEncode r.bytes, plain c = true := by
  intro c hc
  rcases List.mem_append.1 hc with h | h
  · have e : ascii "ulp://" = [117, 108, 112, 58, 47, 47] := by decide
    rw [e] at h
    simp only [List.mem_cons, List.mem_singleton, List.not_mem_nil, or_false] at h
    rcases h with h | h | h | h | h | h <;> rw [h] <;> decide
  · exact hexEncode_all_plain _ c h

theorem url_no_newline (r : RID) : (10 : Byte) ∉ ascii "ulp://" ++ hexEncode r.bytes := by
  intro h
  have := url_all_plain r 10 h
  exact absurd this (by decide)

/-- The archive handler on the request line of an identifier: the store is
consulted under that identifier. -/
theorem handleULPStream_url (L : Lib) (p : ULPPeer) (r : RID) :
    handleULPStream L p (ascii "ulp://" ++ hexEncode r.bytes ++ [10]) =
      match p.records.get r with
      | none => some (ascii "NOT_FOUND\n")
      | some record => some record.Bytes := by
  unfold handleULPStream
  rw [readString_line 10 _ (url_no_newline r)]
  simp only [trimSpace_line _ (url_all_plain r), ParseULPURL_hex]

/-- The p2p server's handler on the request line of an identifier. -/
theorem P2P.handleULPRequest_url (L : Lib) (s : P2P.TestamentServer) (r : RID) :
    P2P.handleULPRequest L s (ascii "ulp://" ++ hexEncode r.bytes ++ [10]) =
      match s.records.get r with
      | none => some (ascii "NOT_FOUND\n")
      | some record => some record.Bytes := by
  have e : P2P.parseULPURL = ParseULPURL := rfl
  unfold P2P.handleULPRequest
  simp only [e, trimSpace_line _ (url_all_plain r), ParseULPURL_hex]

theorem Holds_set (L : Lib) (records : GoMap RID Record) (B B1 : Bytes)
    (pol : Option PolicyMetadata) (h : Holds L records B)
    (inj : L.sha256 B1 = L.sha256 B → B1 = B) :
    Holds L (records.set (L.sha256 B1) ⟨L.sha256 B1, B1, pol⟩) B := by
  by_cases e : L.sha256 B = L.sha256 B1
  · refine ⟨⟨L.sha256 B1, B1, pol⟩, ?_, inj e.symm⟩
    rw [e]; exact GoMap.get_set_self _ _ _
  · obtain ⟨record, h1, h2⟩ := h
    exact ⟨record, by rw [GoMap.get_set_ne _ _ _ _ e]; exact h1, h2⟩

theorem Holds_loadAll (L : Lib) (fs : Bytes → Except Bytes Bytes) (B : Bytes)
    (later : List Bytes) :
    ∀ p : ULPPeer, Holds L p.records B →
      (∀ q ∈ later, ∀ B1, fs q = .ok B1 → L.sha256 B1 = L.sha256 B → B1 = B) →
      Holds L (loadAll L fs p later).records B := by
  induction later with
  | nil => intro p h _; exact h
  | cons q rest ih =>
    intro p h inj
    have step : Holds L (LoadRecord L fs p q).1.records B := by
      unfold LoadRecord
      cases hq : fs q with
      | error err => exact h
      | ok B1 => exact Holds_set L p.records B B1 _ h (inj q (by simp) B1 hq)
    exact ih _ step (fun q1 hq1 => inj q1 (by simp [hq1]))

theorem Holds_LoadRecords (L : Lib) (fs : Bytes → Except Bytes Bytes) (B : Bytes)
    (later : List Bytes) :
    ∀ s : P2P.TestamentServer, Holds L s.records B →
      (∀ q ∈ later, ∀ B1, fs q = .ok B1 → L.sha256 B1 = L.sha256 B → B1 = B) →
      Holds L (P2P.LoadRecords L fs s later).records B := by
  induction later with
  | nil => intro s h _; exact h
  | cons q rest ih =>
    intro s h inj
    have step : Holds L (P2P.loadRecord L fs s q).1.records B := by
      unfold P2P.loadRecord
      cases hq : fs q with
      | error err => exact h
      | ok B1 => exact Holds_set L s.records B B1 _ h (inj q (by simp) B1 hq)
    exact ih _ step (fun q1 hq1 => inj q1 (by simp [hq1]))

theorem isSpace2_nl (a : Byte) : isSpace2 a 10 = false := by
  simp [isSpace2]; intro _; decide

theorem isSpace3_nl (a b : Byte) : isSpace3 a b 10 = false := by
  have e : ((10 : Byte).val) = 10 := rfl
  simp [isSpace3, e]

theorem trimLeftSpace_append_nl (s : Bytes) :
    trimLeftSpace (s ++ [10]) =
      if trimLeftSpace s = [] then [] else trimLeftSpace s ++ [10] := by
  induction s using trimLeftSpace.induct with
  | case1 => decide
  | case2 a t h ih =>
    rw [List.cons_append, trimLeftSpace.eq_def, trimLeftSpace.eq_def (a :: t)]
    simp only [h, if_true]
    exact ih
  | case3 a h =>
    have h1 : isAsciiSpace a = false := by simpa using h
    rw [List.cons_append, trimLeftSpace.eq_def, trimLeftSpace.eq_def [a]]
    simp [h1, isSpace2_nl]
  | case4 a h b t1 h2 ih =>
    have h1 : isAsciiSpace a = false := by simpa using h
    rw [List.cons_append, List.cons_append, trimLeftSpace.eq_def,
      trimLeftSpace.eq_def (a :: b :: t1)]
    simp only [h1, h2, if_true, Bool.false_eq_true, if_false]
    exact ih
  | case5 a h b h2 =>
    have h1 : isAsciiSpace a = false := by simpa using h
    have h3 : isSpace2 a b = false := by simpa using h2
    rw [List.cons_append, List.cons_append, trimLeftSpace.eq_def,
      trimLeftSpace.eq_def [a, b]]
    simp [h1, h3, isSpace3_nl]
  | case6 a h b h2 c t2 h3 ih =>
    have h1 : isAsciiSpace a = false := by simpa using h
    have h4 : isSpace2 a b = false := by simpa using h2
    rw [List.cons_append, List.cons_append, List.cons_append, trimLeftSpace.eq_def,
      trimLeftSpace.eq_def (a :: b :: c :: t2)]
    simp only [h1, h4, h3, if_true, Bool.false_eq_true, if_false]
    exact ih
  | case7 a h b h2 c t2 h3 =>
    have h1 : isAsciiSpace a = false := by simpa using h
    have h4 : isSpace2 a b = false := by simpa using h2
    have h5 : isSpace3 a b c = false := by simpa using h3
    rw [List.cons_append, List.cons_append, List.cons_append, trimLeftSpace.eq_def,
      trimLeftSpace.eq_def (a :: b :: c :: t2)]
    simp [h1, h4, h5]

/-- The line feed that ends a request line is trimmed away with the rest of
the trailing white space. -/
theorem trimSpace_append_nl (s : Bytes) : trimSpace (s ++ [10]) = trimSpace s := by
  unfold trimSpace
  rw [trimLeftSpace_append_nl]
  by_cases h : trimLeftSpace s = []
  · simp [h]
  · simp only [h, if_false]
    exact trimRightSpace_append_space _ 10 (by decide)

theorem isSpace3_plain_mid (a b c : Byte) (h : plain b = true) : isSpace3 a b c = false := by
  simp only [plain, Bool.and_eq_true, decide_eq_true_eq] at h
  have h1 := h.1
  have e1 : (b.val == 0x9A) = false := by simp; omega
  have e2 : (b.val == 0x80) = false := by simp; omega
  have e3 : (b.val == 0x81) = false := by simp; omega
  simp [isSpace3, e1, e2, e3]

/-- Right trimming (on the reversed text) never passes a plain byte. -/
theorem trimLeftSpaceRev_keeps (b : Byte) (w : Bytes) (hb : plain b = true) (u : Bytes) :
    ∃ u1, trimLeftSpaceRev (u ++ b :: w) = u1 ++ b :: w := by
  induction u using trimLeftSpaceRev.induct with
  | case1 => exact ⟨[], trimLeftSpaceRev_cons_plain b w hb⟩
  | case2 a t h ih =>
    obtain ⟨u1, e⟩ := ih
    refine ⟨u1, ?_⟩
    rw [List.cons_append, trimLeftSpaceRev.eq_def]
    simp only [h, if_true]
    exact e
  | case3 a h =>
    have h1 : isAsciiSpace a = false := by simpa using h
    refine ⟨[a], ?_⟩
    rw [List.cons_append, List.nil_append, trimLeftSpaceRev.eq_def]
    cases w with
    | nil => simp [h1, isSpace2_plain_left b a hb]
    | cons c t2 => simp [h1, isSpace2_plain_left b a hb, isSpace3_plain_mid c b a hb]
  | case4 a h x t2 h2 ih =>
    have h1 : isAsciiSpace a = false := by simpa using h
    obtain ⟨u1, e⟩ := ih
    refine ⟨u1, ?_⟩
    rw [List.cons_append, List.cons_append, trimLeftSpaceRev.eq_def]
    simp only [h1, h2, if_true, Bool.false_eq_true, if_false]
    exact e
  | case5 a h x h2 =>
    have h1 : isAsciiSpace a = false := by simpa using h
    have h3 : isSpace2 x a = false := by simpa using h2
    refine ⟨[a, x], ?_⟩
    rw [List.cons_append, List.cons_append, List.nil_append, trimLeftSpaceRev.eq_def]
    simp [h1, h3, isSpace3_plain_left b x a hb]
  | case6 a h x h2 y t2 h3 ih =>
    have h1 : isAsciiSpace a = false := by simpa using h
    have h4 : isSpace2 x a = false := by simpa using h2
    obtain ⟨u1, e⟩ := ih
    refine ⟨u1, ?_⟩
    rw [List.cons_append, List.cons_append, List.cons_append, trimLeftSpaceRev.eq_def]
    simp only [h1, h4, h3, if_true, Bool.false_eq_true, if_false]
    exact e
  | case7 a h x h2 y t2 h3 =>
    have h1 : isAsciiSpace a = false := by simpa using h
    have h4 : isSpace2 x a = false := by simpa using h2
    have h5 : isSpace3 y x a = false := by simpa using h3
    refine ⟨a :: x :: y :: t2, ?_⟩
    rw [List.cons_append, List.cons_append, List.cons_append, trimLeftSpaceRev.eq_def]
    simp [h1, h4, h5]

/-- Trimming keeps everything from a leading plain byte up to a later plain byte. -/
theorem trimSpace_keeps (a b : Byte) (m t : Bytes) (ha : plain a = true)
    (hb : plain b = true) : ∃ t1, trimSpace (a :: (m ++ b :: t)) = a :: (m ++ b :: t1) := by
  obtain ⟨u1, e⟩ := trimLeftSpaceRev_keeps b (a :: m).reverse hb t.reverse
  refine ⟨u1.reverse, ?_⟩
  unfold trimSpace
  rw [trimLeftSpace_cons_plain _ _ ha]
  unfold trimRightSpace
  have e1 : (a :: (m ++ b :: t)).reverse = t.reverse ++ b :: (a :: m).reverse := by simp
  rw [e1, e]
  simp

/-- A request whose identifier starts with `zz` does not parse, whatever follows. -/
theorem ParseULPURL_zz (t : HexError → Bytes) (tail : Bytes) :
    ∃ reason, (ParseULPURL t (trimSpace (ascii "ulp://zz" ++ tail))).2 = some reason := by
  have e0 : ascii "ulp://zz" ++ tail
      = 117 :: ([108, 112, 58, 47, 47, 122] ++ 122 :: tail) := by
    have : ascii "ulp://zz" = [117, 108, 112, 58, 47, 47, 122, 122] := by decide
    rw [this]; rfl
  obtain ⟨t1, e1⟩ := trimSpace_keeps 117 122 [108, 112, 58, 47, 47, 122] tail
    (by decide) (by decide)
  obtain ⟨t2, e2⟩ := trimSpace_keeps 122 122 [] t1 (by decide) (by decide)
  have e3 : (117 : Byte) :: ([108, 112, 58, 47, 47, 122] ++ 122 :: t1)
      = ascii "ulp://" ++ (122 :: ([] ++ 122 :: t1)) := by
    have : ascii "ulp://" = [117, 108, 112, 58, 47, 47] := by decide
    rw [this]; rfl
  rw [e0, e1, e3]
  unfold ParseULPURL
  simp only [trimPrefix_append, e2]
  have e4 : fromHexChar 122 = none := by decide
  simp [hexDecode, e4]

theorem handleULPStream_line (L : Lib) (p : ULPPeer) (line : Bytes) (h : (10 : Byte) ∉ line) :
    handleULPStream L p (line ++ [10]) = some (threeWay L p.records (trimSpace line)) := by
  unfold handleULPStream threeWay
  rw [readString_line 10 line h]
  simp only [trimSpace_append_nl]
  generalize ParseULPURL L.hexErrText (trimSpace line) = r
  obtain ⟨rid, err⟩ := r
  cases err with
  | some e => rfl
  | none =>
    cases hg : p.records.get rid <;> simp [hg]

theorem P2P.handleULPRequest_line (L : Lib) (s : P2P.TestamentServer) (line : Bytes) :
    P2P.handleULPRequest L s (line ++ [10]) = some (threeWay L s.records (trimSpace line)) := by
  have e : P2P.parseULPURL = ParseULPURL := rfl
  unfold P2P.handleULPRequest threeWay
  simp only [trimSpace_append_nl, e]
  generalize ParseULPURL L.hexErrText (trimSpace line) = r
  obtain ⟨rid, err⟩ := r
  cases err with
  | some e => rfl
  | none =>
    cases hg : s.records.get rid <;> simp [hg]

/-! ## Lemmas: hexadecimal texts -/

set_option maxRecDepth 100000 in
theorem digitOk_all : ∀ c : Byte, digitOk c = true := by
  decide

theorem fromHexChar_spec (c : Byte) :
    match fromHexChar c with
    | some a => isHexDigit c = true ∧ a < 16 ∧ hextable a = toLower c
    | none => isHexDigit c = false := by
  have h := digitOk_all c
  unfold digitOk at h
  cases hc : fromHexChar c with
  | none => simpa [hc] using h
  | some a => simpa [hc, and_assoc] using h

set_option maxRecDepth 100000 in
theorem isHexDigit_toLower : ∀ c : Byte, isHexDigit (toLower c) = isHexDigit c := by
  decide

theorem nibbles (a b : Nat) (ha : a < 16) (hb : b < 16) :
    ((Fin.ofNat (a * 16 + b) : Byte).val / 16 = a) ∧
    ((Fin.ofNat (a * 16 + b) : Byte).val % 16 = b) := by
  have e : (Fin.ofNat (a * 16 + b) : Byte).val = a * 16 + b := by
    simp [Fin.ofNat]; omega
  rw [e]; omega

/-- What a successful decoding says about the text. -/
theorem hexDecode_ok (s : Bytes) : ∀ bs, hexDecode s = .ok bs →
    s.length = 2 * bs.length ∧ (∀ c ∈ s, isHexDigit c = true) ∧
      hexEncode bs = s.map toLower := by
  induction s using hexDecode.induct with
  | case1 => intro bs h; simp [hexDecode] at h; subst h; simp [hexEncode]
  | case2 p hp => intro bs h; simp [hexDecode, hp] at h
  | case3 p a hp => intro bs h; simp [hexDecode, hp] at h
  | case4 p q rest hp => intro bs h; simp [hexDecode, hp] at h
  | case5 p q rest a hp hq => intro bs h; simp [hexDecode, hp, hq] at h
  | case6 p q rest a hp b hq e hr ih => intro bs h; simp [hexDecode, hp, hq, hr] at h
  | case7 p q rest a hp b hq bs1 hr ih =>
    intro bs h
    simp [hexDecode, hp, hq, hr] at h
    subst h
    obtain ⟨l1, l2, l3⟩ := ih bs1 hr
    have sp := fromHexChar_spec p
    have sq := fromHexChar_spec q
    rw [hp] at sp; rw [hq] at sq
    simp only at sp sq
    obtain ⟨n1, n2⟩ := nibbles a b sp.2.1 sq.2.1
    refine ⟨by simp [l1]; omega, ?_, ?_⟩
    · intro c hc
      simp only [List.mem_cons] at hc
      rcases hc with h | h | h
      · rw [h]; exact sp.1
      · rw [h]; exact sq.1
      · exact l2 c h
    · simp only [hexEncode, n1, n2, List.map_cons, sp.2.2, sq.2.2, l3]

/-- Every text of hexadecimal digits of even length decodes. -/
theorem hexDecode_total (s : Bytes) : s.length % 2 = 0 → (∀ c ∈ s, isHexDigit c = true) →
    ∃ bs, hexDecode s = .ok bs := by
  induction s using hexDecode.induct with
  | case1 => intro _ _; exact ⟨[], rfl⟩
  | case2 p hp => intro h _; simp at h
  | case3 p a hp => intro h _; simp at h
  | case4 p q rest hp =>
    intro _ h
    have sp := fromHexChar_spec p
    rw [hp] at sp
    simp only at sp
    have := h p (by simp)
    rw [sp] at this
    exact absurd this (by decide)
  | case5 p q rest a hp hq =>
    intro _ h
    have sq := fromHexChar_spec q
    rw [hq] at sq
    simp only at sq
    have := h q (by simp)
    rw [sq] at this
    exact absurd this (by decide)
  | case6 p q rest a hp b hq e hr ih =>
    intro hl h
    obtain ⟨bs, hbs⟩ := ih (by simp at hl; omega) (fun c hc => h c (by simp [hc]))
    rw [hr] at hbs
    exact absurd hbs (by simp)
  | case7 p q rest a hp b hq bs1 hr ih =>
    intro _ _
    exact ⟨Fin.ofNat (a * 16 + b) :: bs1, by simp [hexDecode, hp, hq, hr]⟩

theorem ParseULPURL_error (t : HexError → Bytes) (u : Bytes) (e : HexError)
    (hd : hexDecode (remainder u) = .error e) :
    ParseULPURL t u = (RID.zero, some (ascii "invalid RID hex: " ++ t e)) := by
  unfold ParseULPURL
  unfold remainder at hd
  simp [hd]

theorem ParseULPURL_length (t : HexError → Bytes) (u bs : Bytes)
    (hd : hexDecode (remainder u) = .ok bs) (hl : bs.length ≠ 32) :
    ParseULPURL t u = (RID.zero,
      some (ascii "invalid RID length: got " ++ decimal bs.length ++ ascii ", want 32")) := by
  unfold ParseULPURL
  unfold remainder at hd
  simp [hd, hl]

theorem ParseULPURL_ok (t : HexError → Bytes) (u bs : Bytes)
    (hd : hexDecode (remainder u) = .ok bs) (hl : bs.length = 32) :
    ParseULPURL t u = (⟨bs, hl⟩, none) := by
  unfold ParseULPURL
  unfold remainder at hd
  simp [hd, hl]

/-! ## Lemmas: the canonical form -/

theorem strLE_iff (a b : Bytes) : strLE a b = true ↔ (a = b ∨ StrLT a b) := by
  induction a generalizing b with
  | nil =>
    cases b with
    | nil => simp [strLE]
    | cons y t => simp [strLE, StrLT, List.Lex.nil]
  | cons x s ih =>
    cases b with
    | nil => simp [strLE, StrLT]
    | cons y t =>
      simp only [strLE, Bool.or_eq_true, decide_eq_true_eq, Bool.and_eq_true, beq_iff_eq, ih,
        List.cons.injEq, StrLT]
      constructor
      · rintro (h | ⟨h1, h2 | h2⟩)
        · exact Or.inr (List.Lex.rel h)
        · exact Or.inl ⟨h1, h2⟩
        · subst h1; exact Or.inr (List.Lex.cons h2)
      · rintro (⟨h1, h2⟩ | h)
        · exact Or.inr ⟨h1, Or.inl h2⟩
        · cases h with
          | cons h2 => exact Or.inr ⟨rfl, Or.inr h2⟩
          | rel h2 => exact Or.inl h2

theorem strLE_total (a b : Bytes) : strLE a b = true ∨ strLE b a = true := by
  induction a generalizing b with
  | nil => simp [strLE]
  | cons x s ih =>
    cases b with
    | nil => simp [strLE]
    | cons y t =>
      simp only [strLE, Bool.or_eq_true, decide_eq_true_eq, Bool.and_eq_true, beq_iff_eq]
      rcases Nat.lt_trichotomy x.val y.val with h | h | h
      · exact Or.inl (Or.inl h)
      · have e : x = y := Fin.ext h
        subst e
        rcases ih t with h1 | h1
        · exact Or.inl (Or.inr ⟨rfl, h1⟩)
        · exact Or.inr (Or.inr ⟨rfl, h1⟩)
      · exact Or.inr (Or.inl h)

theorem strLE_trans (a b c : Bytes) : strLE a b = true → strLE b c = true →
    strLE a c = true := by
  induction a generalizing b c with
  | nil => intro _ _; simp [strLE]
  | cons x s ih =>
    cases b with
    | nil => simp [strLE]
    | cons y t =>
      cases c with
      | nil => simp [strLE]
      | cons z u =>
        simp only [strLE, Bool.or_eq_true, decide_eq_true_eq, Bool.and_eq_true, beq_iff_eq]
        rintro (h1 | ⟨h1, h2⟩) (h3 | ⟨h3, h4⟩)
        · exact Or.inl (by omega)
        · subst h3; exact Or.inl h1
        · subst h1; exact Or.inl h3
        · subst h1; subst h3; exact Or.inr ⟨rfl, ih t u h2 h4⟩

theorem strLE_antisymm (a b : Bytes) : strLE a b = true → strLE b a = true → a = b := by
  induction a generalizing b with
  | nil =>
    cases b with
    | nil => intro _ _; rfl
    | cons y t => simp [strLE]
  | cons x s ih =>
    cases b with
    | nil => simp [strLE]
    | cons y t =>
      simp only [strLE, Bool.or_eq_true, decide_eq_true_eq, Bool.and_eq_true, beq_iff_eq]
      rintro (h1 | ⟨h1, h2⟩) (h3 | ⟨h3, h4⟩)
      · omega
      · subst h3; omega
      · subst h1; omega
      · subst h1; rw [ih t h2 h4]

/-- Sorting delivers the one ascending arrangement of the names. -/
theorem sortStrings_unique (names order : List Bytes) (hp : order.Perm names)
    (hs : order.Sorted (fun a b => strLE a b = true)) : sortStrings names = order :=
  haveI : IsTotal Bytes (fun a b => strLE a b = true) := ⟨strLE_total⟩
  haveI : IsTrans Bytes (fun a b => strLE a b = true) := ⟨strLE_trans⟩
  haveI : IsAntisymm Bytes (fun a b => strLE a b = true) := ⟨strLE_antisymm⟩
  List.eq_of_perm_of_sorted ((List.perm_insertionSort _ names).trans hp.symm)
    (List.sorted_insertionSort _ names) hs

theorem foldl_append_flatten {α : Type} (f : α → Bytes) (l : List α) (acc : Bytes) :
    l.foldl (fun result x => result ++ f x) acc = acc ++ (l.map f).flatten := by
  induction l generalizing acc with
  | nil => simp
  | cons x rest ih => simp [ih]

theorem GoMap.get_of_mem {κ ν : Type} [DecidableEq κ] (m : GoMap κ ν) (hnd : m.keys.Nodup)
    (k : κ) (v : ν) (h : (k, v) ∈ m) : m.get k = some v := by
  induction m with
  | nil => simp at h
  | cons e rest ih =>
    obtain ⟨a, b⟩ := e
    simp only [GoMap.keys, List.map_cons, List.nodup_cons, List.mem_map, not_exists,
      not_and] at hnd
    rcases List.mem_cons.1 h with h1 | h1
    · injection h1 with h1 h2
      subst h1; subst h2
      simp [GoMap.get]
    · have hak : ¬ a = k := fun e => hnd.1 (k, v) h1 e.symm
      simp only [GoMap.get, hak, if_false]
      exact ih hnd.2 h1

/-- The canonical form as a concatenation of segments in sorted order. -/
theorem canonicalizeDotfiles_eq (files entries : GoMap Bytes Bytes)
    (hnd : files.keys.Nodup) (hperm : entries.Perm files)
    (hsorted : entries.Sorted (fun e f => StrLT e.1 f.1)) :
    canonicalizeDotfiles files = (entries.map segment).flatten := by
  have hs : (entries.map Prod.fst).Sorted (fun a b => strLE a b = true) := by
    unfold List.Sorted at hsorted ⊢
    rw [List.pairwise_map]
    exact hsorted.imp (fun h => (strLE_iff _ _).2 (Or.inr h))
  have hk : sortStrings files.keys = entries.map Prod.fst :=
    sortStrings_unique _ _ (hperm.map Prod.fst) hs
  have eq : ascii "=" = [61] := by decide
  have nl : ascii "\n" = [10] := by decide
  unfold canonicalizeDotfiles
  simp only [hk]
  have hf : (fun (result name : Bytes) =>
        result ++ name ++ [61] ++ (files.get name).getD [] ++ [10]) =
      (fun result name => result ++ (name ++ [61] ++ (files.get name).getD [] ++ [10])) := by
    funext r n; simp [List.append_assoc]
  rw [hf, foldl_append_flatten (fun name => name ++ [61] ++ (files.get name).getD [] ++ [10])]
  simp only [List.nil_append, List.map_map]
  congr 1
  apply List.map_congr_left
  intro e he
  obtain ⟨k, v⟩ := e
  have hg := GoMap.get_of_mem files hnd k v (hperm.subset he)
  simp [segment, hg, eq, nl]

/-- Every map has an ascending listing of its entries. -/
theorem exists_sorted_entries (files : GoMap Bytes Bytes) (hnd : files.keys.Nodup) :
    ∃ entries : GoMap Bytes Bytes,
      entries.Perm files ∧ entries.Sorted (fun e f => StrLT e.1 f.1) := by
  haveI : IsTotal (Bytes × Bytes) (fun e f => strLE e.1 f.1 = true) :=
    ⟨fun e f => strLE_total e.1 f.1⟩
  haveI : IsTrans (Bytes × Bytes) (fun e f => strLE e.1 f.1 = true) :=
    ⟨fun e f g => strLE_trans e.1 f.1 g.1⟩
  refine ⟨files.insertionSort (fun e f => strLE e.1 f.1 = true),
    List.perm_insertionSort _ files, ?_⟩
  have hs := List.sorted_insertionSort (fun e f : Bytes × Bytes => strLE e.1 f.1 = true) files
  have hn : (files.insertionSort (fun e f => strLE e.1 f.1 = true)).Pairwise
      (fun e f => e.1 ≠ f.1) := by
    have h1 : (List.map Prod.fst
        (files.insertionSort (fun e f => strLE e.1 f.1 = true))).Nodup :=
      ((List.perm_insertionSort _ files).map Prod.fst).nodup_iff.2 hnd
    exact List.pairwise_map.1 h1
  unfold List.Sorted at hs ⊢
  refine (hs.and hn).imp ?_
  intro e f h
  rcases (strLE_iff e.1 f.1).1 h.1 with h1 | h1
  · exact absurd h1 h.2
  · exact h1

/-- Two listings of one map have the same canonical form. -/
theorem canonicalizeDotfiles_perm (l1 l2 : GoMap Bytes Bytes) (hnd : l1.keys.Nodup)
    (hp : l1.Perm l2) : canonicalizeDotfiles l1 = canonicalizeDotfiles l2 := by
  obtain ⟨entries, he, hs⟩ := exists_sorted_entries l1 hnd
  have hnd2 : l2.keys.Nodup := (hp.map Prod.fst).nodup_iff.1 hnd
  rw [canonicalizeDotfiles_eq l1 entries hnd he hs,
    canonicalizeDotfiles_eq l2 entries hnd2 (he.trans hp) hs]

/-! ## Lemmas: loading a world -/

theorem GoMap.erase_absent {κ ν : Type} [DecidableEq κ] (m : GoMap κ ν) (k : κ)
    (h : k ∉ m.keys) : m.erase k = m := by
  induction m with
  | nil => rfl
  | cons e rest ih =>
    obtain ⟨a, b⟩ := e
    simp only [GoMap.keys, List.map_cons, List.mem_cons, not_or] at h
    have hak : ¬ a = k := fun e => h.1 e.symm
    simp only [GoMap.erase, hak, if_false]
    rw [ih h.2]

theorem readDotfiles_error (dir : Bytes → Except Bytes Bytes) (pre : List Bytes)
    (n : Bytes) (post : List Bytes) (e : Bytes) (hn : dir n = .error e) :
    ∀ acc, (∀ x ∈ pre, Readable dir x) →
      readDotfiles dir (pre ++ n :: post) acc
        = .error (ascii "missing dotfile " ++ n ++ ascii ": " ++ e) := by
  induction pre with
  | nil => intro acc _; simp [readDotfiles, hn]
  | cons x rest ih =>
    intro acc h
    obtain ⟨d, hd⟩ := h x (by simp)
    simp only [List.cons_append, readDotfiles, hd]
    exact ih _ (fun y hy => h y (by simp [hy]))

theorem readDotfiles_ok (dir : Bytes → Except Bytes Bytes) (names : List Bytes) :
    ∀ acc, (∀ x ∈ names, Readable dir x) →
      readDotfiles dir names acc
        = .ok (names.foldl (fun m n => m.set n (contents dir n)) acc) := by
  induction names with
  | nil => intro acc _; rfl
  | cons x rest ih =>
    intro acc h
    obtain ⟨d, hd⟩ := h x (by simp)
    have hc : contents dir x = d := by simp [contents, hd]
    simp only [readDotfiles, hd, List.foldl_cons, hc]
    exact ih _ (fun y hy => h y (by simp [hy]))

theorem exists_first_missing (dir : Bytes → Except Bytes Bytes) (names : List Bytes)
    (h : ∃ x ∈ names, ¬ Readable dir x) :
    ∃ pre n post e, names = pre ++ n :: post ∧ (∀ x ∈ pre, Readable dir x) ∧
      dir n = .error e := by
  induction names with
  | nil => obtain ⟨x, hx, _⟩ := h; simp at hx
  | cons y rest ih =>
    cases hy : dir y with
    | error e => exact ⟨[], y, rest, e, rfl, by simp, hy⟩
    | ok d =>
      have h1 : ∃ x ∈ rest, ¬ Readable dir x := by
        obtain ⟨x, hx, hnr⟩ := h
        rcases List.mem_cons.1 hx with e | e
        · subst e; exact absurd ⟨d, hy⟩ hnr
        · exact ⟨x, e, hnr⟩
      obtain ⟨pre, n, post, e, h2, h3, h4⟩ := ih h1
      refine ⟨y :: pre, n, post, e, by simp [h2], ?_, h4⟩
      intro x hx
      rcases List.mem_cons.1 hx with e1 | e1
      · subst e1; exact ⟨d, hy⟩
      · exact h3 x e1

theorem foldl_set_fresh (f : Bytes → Bytes) (names : List Bytes) :
    ∀ acc : GoMap Bytes Bytes, names.Nodup → (∀ n ∈ names, n ∉ acc.keys) →
      names.foldl (fun m n => m.set n (f n)) acc
        = (names.map (fun n => (n, f n))).reverse ++ acc := by
  induction names with
  | nil => intro acc _ _; rfl
  | cons x rest ih =>
    intro acc hnd hfresh
    have hx : x ∉ acc.keys := hfresh x (by simp)
    have hnd1 := List.nodup_cons.1 hnd
    have hs : acc.set x (f x) = (x, f x) :: acc := by
      simp only [GoMap.set, GoMap.erase_absent acc x hx]
    simp only [List.foldl_cons, hs]
    rw [ih _ hnd1.2]
    · simp
    · intro n hn
      simp only [GoMap.keys, List.map_cons, List.mem_cons, not_or]
      exact ⟨fun e => hnd1.1 (e ▸ hn), hfresh n (by simp [hn])⟩

theorem readDotfiles_congr (dir1 dir2 : Bytes → Except Bytes Bytes) (names : List Bytes) :
    ∀ acc, (∀ n ∈ names, dir1 n = dir2 n) →
      readDotfiles dir1 names acc = readDotfiles dir2 names acc := by
  induction names with
  | nil => intro acc _; rfl
  | cons x rest ih =>
    intro acc h
    simp only [readDotfiles, h x (by simp)]
    cases dir2 x with
    | error e => rfl
    | ok d => exact ih _ (fun n hn => h n (by simp [hn]))

theorem required_nodup : required.Nodup := by decide

/-- The outcome of `LoadWorld` when every required name can be read: the
dotfile map lists the required names, last read first, each with the bytes
read for it. -/
theorem LoadWorld_ok (L : Lib) (dir : Bytes → Except Bytes Bytes)
    (h : ∀ x ∈ required, Readable dir x) :
    LoadWorld L dir
      = .ok ⟨L.sha256 (canonicalizeDotfiles (dotfilesOf dir)), dotfilesOf dir⟩ := by
  unfold LoadWorld dotfilesOf
  rw [readDotfiles_ok dir required [] h,
    foldl_set_fresh (contents dir) required [] required_nodup (by simp [GoMap.keys])]
  simp

/-- The outcome of `LoadWorld` when a required name cannot be read. -/
theorem LoadWorld_error (L : Lib) (dir : Bytes → Except Bytes Bytes) (pre : List Bytes)
    (n : Bytes) (post : List Bytes) (e : Bytes) (hr : required = pre ++ n :: post)
    (hpre : ∀ x ∈ pre, Readable dir x) (hn : dir n = .error e) :
    LoadWorld L dir = .error (ascii "missing dotfile " ++ n ++ ascii ": " ++ e) := by
  unfold LoadWorld
  rw [hr, readDotfiles_error dir pre n post e hn [] hpre]

/-- A successful `LoadWorld` has read every required name. -/
theorem LoadWorld_readable (L : Lib) (dir : Bytes → Except Bytes Bytes) (ball : WorldBall)
    (h : LoadWorld L dir = .ok ball) : ∀ x ∈ required, Readable dir x := by
  by_contra hc
  simp only [not_forall] at hc
  obtain ⟨x, hx, hnr⟩ := hc
  obtain ⟨pre, n, post, e, h1, h2, h3⟩ := exists_first_missing dir required ⟨x, hx, hnr⟩
  rw [LoadWorld_error L dir pre n post e h1 h2 h3] at h
  exact absurd h (by simp)

theorem GoMap.get_absent {κ ν : Type} [DecidableEq κ] (m : GoMap κ ν) (k : κ)
    (h : k ∉ m.keys) : m.get k = none := by
  induction m with
  | nil => rfl
  | cons e rest ih =>
    obtain ⟨a, b⟩ := e
    simp only [GoMap.keys, List.map_cons, List.mem_cons, not_or] at h
    have hak : ¬ a = k := fun e => h.1 e.symm
    simp only [GoMap.get, hak, if_false]
    exact ih h.2

theorem dotfilesOf_keys (dir : Bytes → Except Bytes Bytes) :
    (dotfilesOf dir).keys = required.reverse := by
  simp [dotfilesOf, GoMap.keys, List.map_reverse, Function.comp_def]

/-! ## Lemmas: splitting and joining -/

theorem splitOn_ne_nil (sep : Byte) (t : Bytes) : splitOn sep t ≠ [] := by
  induction t with
  | nil => simp [splitOn]
  | cons c rest ih =>
    by_cases h : c = sep
    · simp [splitOn, h]
    · simp only [splitOn, h, if_false]
      cases hs : splitOn sep rest with
      | nil => exact absurd hs ih
      | cons a b => simp

theorem splitOn_no_sep (sep : Byte) (a : Bytes) (h : sep ∉ a) : splitOn sep a = [a] := by
  induction a with
  | nil => rfl
  | cons c rest ih =>
    have hc : ¬ c = sep := fun e => h (by simp [e])
    have hr : sep ∉ rest := fun e => h (by simp [e])
    simp [splitOn, hc, ih hr]

theorem splitOn_append_sep (sep : Byte) (a t : Bytes) (h : sep ∉ a) :
    splitOn sep (a ++ sep :: t) = a :: splitOn sep t := by
  induction a with
  | nil => simp [splitOn]
  | cons c rest ih =>
    have hc : ¬ c = sep := fun e => h (by simp [e])
    have hr : sep ∉ rest := fun e => h (by simp [e])
    simp [splitOn, hc, ih hr]

theorem splitOn_joinWith (sep : Byte) (ls : List Bytes) (hne : ls ≠ [])
    (h : ∀ x ∈ ls, sep ∉ x) : splitOn sep (joinWith sep ls) = ls := by
  induction ls with
  | nil => exact absurd rfl hne
  | cons a rest ih =>
    cases rest with
    | nil => simpa [joinWith] using splitOn_no_sep sep a (h a (by simp))
    | cons b more =>
      simp only [joinWith]
      rw [splitOn_append_sep sep a _ (h a (by simp)),
        ih (by simp) (fun x hx => h x (by simp [hx]))]

theorem splitOn_mem_no_sep (sep : Byte) (t : Bytes) : ∀ x ∈ splitOn sep t, sep ∉ x := by
  induction t with
  | nil => simp [splitOn]
  | cons c rest ih =>
    by_cases h : c = sep
    · intro x hx
      simp only [splitOn, h, if_true, List.mem_cons] at hx
      rcases hx with e | e
      · subst e; simp
      · exact ih x e
    · simp only [splitOn, h, if_false]
      cases hs : splitOn sep rest with
      | nil => exact absurd hs (splitOn_ne_nil sep rest)
      | cons a b =>
        rw [hs] at ih
        intro x hx
        simp only [List.mem_cons] at hx
        rcases hx with e | e
        · subst e
          intro hm
          rcases List.mem_cons.1 hm with e1 | e1
          · exact h e1.symm
          · exact ih a (by simp) e1
        · exact ih x (by simp [e])

theorem joinWith_splitOn (sep : Byte) (t : Bytes) : joinWith sep (splitOn sep t) = t := by
  induction t with
  | nil => rfl
  | cons c rest ih =>
    by_cases h : c = sep
    · simp only [splitOn, h, if_true]
      cases hs : splitOn sep rest with
      | nil => exact absurd hs (splitOn_ne_nil sep rest)
      | cons a b =>
        rw [hs] at ih
        simp [joinWith, ih]
    · simp only [splitOn, h, if_false]
      cases hs : splitOn sep rest with
      | nil => exact absurd hs (splitOn_ne_nil sep rest)
      | cons a b =>
        rw [hs] at ih
        cases b with
        | nil => simp only [joinWith] at ih ⊢; rw [ih]
        | cons b1 b2 => simp only [joinWith] at ih ⊢; rw [← ih]; rfl

/-! ## Lemmas: one line of a trace -/

theorem policyLine_scalar (L : Lib) (p : PolicyMetadata) (line : Bytes) (k : Scalar)
    (h : DataLine k.sec k.key line) :
    policyLine L p line = p.setScalar k (thirdField line) := by
  obtain ⟨f2, more, hs⟩ := h
  unfold policyLine thirdField
  rw [hs]
  cases k <;> rfl

theorem P2P.serverLine_scalar (L : Lib) (p : PolicyMetadata) (line : Bytes) (k : Scalar)
    (h : DataLine k.sec k.key line) :
    P2P.policyLine L p line = .ok (p.setScalar k (thirdField line)) := by
  obtain ⟨f2, more, hs⟩ := h
  unfold P2P.policyLine thirdField
  rw [hs]
  cases k <;> rfl

theorem policyLine_slots (L : Lib) (p : PolicyMetadata) (line : Bytes) (h : SlotsLine line) :
    policyLine L p line =
      match L.jsonUnmarshalInts (restText line) [] with
      | (slots, none) => { p with Slots := slots }
      | (_, some _) => p := by
  obtain ⟨f2, more, hs⟩ := h
  unfold policyLine restText
  rw [hs]
  rfl

theorem P2P.serverLine_slots (L : Lib) (p : PolicyMetadata) (line : Bytes)
    (h : SlotsLine line) :
    P2P.policyLine L p line =
      match L.jsonUnmarshalInts (restText line) p.Slots with
      | (slots, none) => .ok { p with Slots := slots }
      | (_, some err) => .error (ascii "invalid replica slots: " ++ err) := by
  obtain ⟨f2, more, hs⟩ := h
  unfold P2P.policyLine restText
  rw [hs]
  rfl

/-- Every line is irrelevant, a data line of one scalar key, or a slots line. -/
theorem line_cases (line : Bytes) :
    Irrelevant line ∨ (∃ k : Scalar, DataLine k.sec k.key line) ∨ SlotsLine line := by
  match hs : splitOn 9 line with
  | [] => exact Or.inl (Or.inl (by simp [hs]))
  | [_] => exact Or.inl (Or.inl (by simp [hs]))
  | [_, _] => exact Or.inl (Or.inl (by simp [hs]))
  | f0 :: f1 :: f2 :: more =>
    by_cases hm : (f0, f1) ∈ recognised
    · simp only [recognised, List.mem_cons, Prod.mk.injEq, List.mem_singleton,
        List.not_mem_nil, or_false] at hm
      rcases hm with ⟨h0, h1⟩ | ⟨h0, h1⟩ | ⟨h0, h1⟩ | ⟨h0, h1⟩ | ⟨h0, h1⟩ | ⟨h0, h1⟩ | ⟨h0, h1⟩
      · exact Or.inr (Or.inl ⟨.e8l, f2, more, by rw [hs, h0, h1]; rfl⟩)
      · exact Or.inr (Or.inl ⟨.e8r, f2, more, by rw [hs, h0, h1]; rfl⟩)
      · exact Or.inr (Or.inl ⟨.chirality, f2, more, by rw [hs, h0, h1]; rfl⟩)
      · exact Or.inr (Or.inl ⟨.projective, f2, more, by rw [hs, h0, h1]; rfl⟩)
      · exact Or.inr (Or.inl ⟨.causality, f2, more, by rw [hs, h0, h1]; rfl⟩)
      · exact Or.inr (Or.inl ⟨.incidence, f2, more, by rw [hs, h0, h1]; rfl⟩)
      · exact Or.inr (Or.inr ⟨f2, more, by rw [hs, h0, h1]⟩)
    · refine Or.inl (Or.inr ?_)
      intro g0 g1 g2 gm hg
      rw [hs] at hg
      injection hg with e0 hg
      injection hg with e1 hg
      rw [← e0, ← e1]
      exact hm

/-- The keys are told apart by their (section, key) pairs. -/
theorem Scalar.pair_injective (k k1 : Scalar) (h0 : k.sec = k1.sec) (h1 : k.key = k1.key) :
    k = k1 := by
  cases k <;> cases k1 <;> first | rfl | exact absurd h1 (by decide)

theorem DataLine_unique (line : Bytes) (k k1 : Scalar) (h : DataLine k.sec k.key line)
    (h1 : DataLine k1.sec k1.key line) : k = k1 := by
  obtain ⟨f2, more, hs⟩ := h
  obtain ⟨g2, gm, hg⟩ := h1
  rw [hs] at hg
  injection hg with e0 hg
  injection hg with e1 hg
  exact Scalar.pair_injective k k1 e0 e1

theorem DataLine_not_slots (line : Bytes) (k : Scalar) (h : DataLine k.sec k.key line) :
    ¬ SlotsLine line := by
  obtain ⟨f2, more, hs⟩ := h
  rintro ⟨g2, gm, hg⟩
  rw [hs] at hg
  injection hg with e0 hg
  cases k <;> exact absurd e0 (by decide)

theorem DataLine_not_irrelevant (line sec key : Bytes) (h : DataLine sec key line)
    (hr : (sec, key) ∈ recognised) : ¬ Irrelevant line := by
  obtain ⟨f2, more, hs⟩ := h
  rintro (hl | hn)
  · rw [hs] at hl; simp only [List.length_cons] at hl; omega
  · exact hn sec key f2 more hs hr

theorem Scalar.recognised (k : Scalar) : (k.sec, k.key) ∈ recognised := by
  cases k <;> decide

theorem policyLine_irrelevant (L : Lib) (p : PolicyMetadata) (line : Bytes)
    (h : Irrelevant line) : policyLine L p line = p := by
  rcases line_cases line with h1 | ⟨k, h1⟩ | h1
  · unfold policyLine
    match hs : splitOn 9 line with
    | [] => rfl
    | [_] => rfl
    | [_, _] => rfl
    | f0 :: f1 :: f2 :: more =>
      have hn : (f0, f1) ∉ recognised := by
        rcases h with hl | hn
        · rw [hs] at hl; simp only [List.length_cons] at hl; omega
        · exact hn f0 f1 f2 more hs
      simp only [recognised, List.mem_cons, Prod.mk.injEq, List.mem_singleton,
        List.not_mem_nil, or_false, not_or, not_and] at hn
      obtain ⟨n1, n2, n3, n4, n5, n6, n7⟩ := hn
      simp only
      split_ifs <;> first | rfl | (exfalso; simp_all)
  · exact absurd h (DataLine_not_irrelevant line _ _ h1 k.recognised)
  · exact absurd h (DataLine_not_irrelevant line _ _ h1 (by decide))

theorem P2P.serverLine_irrelevant (L : Lib) (p : PolicyMetadata) (line : Bytes)
    (h : Irrelevant line) : P2P.policyLine L p line = .ok p := by
  rcases line_cases line with h1 | ⟨k, h1⟩ | h1
  · unfold P2P.policyLine
    match hs : splitOn 9 line with
    | [] => rfl
    | [_] => rfl
    | [_, _] => rfl
    | f0 :: f1 :: f2 :: more =>
      have hn : (f0, f1) ∉ recognised := by
        rcases h with hl | hn
        · rw [hs] at hl; simp only [List.length_cons] at hl; omega
        · exact hn f0 f1 f2 more hs
      simp only [recognised, List.mem_cons, Prod.mk.injEq, List.mem_singleton,
        List.not_mem_nil, or_false, not_or, not_and] at hn
      obtain ⟨n1, n2, n3, n4, n5, n6, n7⟩ := hn
      simp only
      split_ifs <;> first | rfl | (exfalso; simp_all)
  · exact absurd h (DataLine_not_irrelevant line _ _ h1 k.recognised)
  · exact absurd h (DataLine_not_irrelevant line _ _ h1 (by decide))

/-! ## Lemmas: the line loop -/

theorem scalar_setScalar (p : PolicyMetadata) (k : Scalar) (v : Bytes) :
    (p.setScalar k v).scalar k = v := by
  cases k <;> rfl

theorem scalar_setScalar_ne (p : PolicyMetadata) (k k1 : Scalar) (v : Bytes) (h : k1 ≠ k) :
    (p.setScalar k1 v).scalar k = p.scalar k := by
  cases k <;> cases k1 <;> first | rfl | exact absurd rfl h

theorem Slots_setScalar (p : PolicyMetadata) (k : Scalar) (v : Bytes) :
    (p.setScalar k v).Slots = p.Slots := by
  cases k <;> rfl

theorem policyLine_frame_scalar (L : Lib) (p : PolicyMetadata) (line : Bytes) (k : Scalar)
    (h : ¬ DataLine k.sec k.key line) : (policyLine L p line).scalar k = p.scalar k := by
  rcases line_cases line with h1 | ⟨k1, h1⟩ | h1
  · rw [policyLine_irrelevant L p line h1]
  · rw [policyLine_scalar L p line k1 h1]
    exact scalar_setScalar_ne p k k1 _ (fun e => h (e ▸ h1))
  · rw [policyLine_slots L p line h1]
    generalize L.jsonUnmarshalInts (restText line) [] = r
    obtain ⟨s, e⟩ := r
    cases e <;> cases k <;> rfl

theorem fold_frame_scalar (L : Lib) (k : Scalar) (lines : List Bytes) :
    ∀ p : PolicyMetadata, (∀ x ∈ lines, ¬ DataLine k.sec k.key x) →
      (lines.foldl (policyLine L) p).scalar k = p.scalar k := by
  induction lines with
  | nil => intro p _; rfl
  | cons x rest ih =>
    intro p h
    rw [List.foldl_cons, ih _ (fun y hy => h y (by simp [hy])),
      policyLine_frame_scalar L p x k (h x (by simp))]

/-- In the archive loop the last data line of a scalar key decides its field. -/
theorem fold_last_scalar (L : Lib) (k : Scalar) (pre post : List Bytes) (l : Bytes)
    (p : PolicyMetadata) (hl : DataLine k.sec k.key l)
    (hpost : ∀ x ∈ post, ¬ DataLine k.sec k.key x) :
    ((pre ++ l :: post).foldl (policyLine L) p).scalar k = thirdField l := by
  rw [List.foldl_append, List.foldl_cons, fold_frame_scalar L k post _ hpost,
    policyLine_scalar L _ l k hl, scalar_setScalar]

theorem policyLine_frame_slots (L : Lib) (p : PolicyMetadata) (line : Bytes)
    (h : SlotsLine line → (L.jsonUnmarshalInts (restText line) []).2 ≠ none) :
    (policyLine L p line).Slots = p.Slots := by
  rcases line_cases line with h1 | ⟨k1, h1⟩ | h1
  · rw [policyLine_irrelevant L p line h1]
  · rw [policyLine_scalar L p line k1 h1, Slots_setScalar]
  · rw [policyLine_slots L p line h1]
    have hb := h h1
    generalize L.jsonUnmarshalInts (restText line) [] = r at hb
    obtain ⟨s, e⟩ := r
    cases e with
    | none => exact absurd rfl hb
    | some _ => rfl

theorem fold_frame_slots (L : Lib) (lines : List Bytes) :
    ∀ p : PolicyMetadata,
      (∀ x ∈ lines, SlotsLine x → (L.jsonUnmarshalInts (restText x) []).2 ≠ none) →
      (lines.foldl (policyLine L) p).Slots = p.Slots := by
  induction lines with
  | nil => intro p _; rfl
  | cons x rest ih =>
    intro p h
    rw [List.foldl_cons, ih _ (fun y hy => h y (by simp [hy])),
      policyLine_frame_slots L p x (h x (by simp))]

/-- In the archive loop the last well-formed slots line decides `Slots`. -/
theorem fold_last_slots (L : Lib) (pre post : List Bytes) (l : Bytes) (p : PolicyMetadata)
    (s : List Int) (hl : SlotsLine l) (hs : L.jsonUnmarshalInts (restText l) [] = (s, none))
    (hpost : ∀ x ∈ post, SlotsLine x → (L.jsonUnmarshalInts (restText x) []).2 ≠ none) :
    ((pre ++ l :: post).foldl (policyLine L) p).Slots = s := by
  rw [List.foldl_append, List.foldl_cons, fold_frame_slots L post _ hpost,
    policyLine_slots L _ l hl, hs]

theorem foldl_insert_noop {α β : Type} (f : α → β → α) (x : β) (h : ∀ q, f q x = q)
    (pre post : List β) (p : α) :
    (pre ++ x :: post).foldl f p = (pre ++ post).foldl f p := by
  rw [List.foldl_append, List.foldl_append, List.foldl_cons, h]

theorem P2P.policyLines_append (L : Lib) (a b : List Bytes) :
    ∀ p : PolicyMetadata, P2P.policyLines L p (a ++ b) =
      match P2P.policyLines L p a with
      | .error e => .error e
      | .ok q => P2P.policyLines L q b := by
  induction a with
  | nil => intro p; rfl
  | cons x rest ih =>
    intro p
    simp only [List.cons_append, P2P.policyLines]
    cases P2P.policyLine L p x with
    | error e => rfl
    | ok q => exact ih q

theorem P2P.serverLine_frame_scalar (L : Lib) (p q : PolicyMetadata) (line : Bytes)
    (k : Scalar) (hq : P2P.policyLine L p line = .ok q) (h : ¬ DataLine k.sec k.key line) :
    q.scalar k = p.scalar k := by
  rcases line_cases line with h1 | ⟨k1, h1⟩ | h1
  · rw [P2P.serverLine_irrelevant L p line h1] at hq
    injection hq with hq
    rw [← hq]
  · rw [P2P.serverLine_scalar L p line k1 h1] at hq
    injection hq with hq
    rw [← hq]
    exact scalar_setScalar_ne p k k1 _ (fun e => h (e ▸ h1))
  · rw [P2P.serverLine_slots L p line h1] at hq
    generalize L.jsonUnmarshalInts (restText line) p.Slots = r at hq
    obtain ⟨s, e⟩ := r
    cases e with
    | some err => exact absurd hq (by simp)
    | none =>
      injection hq with hq
      rw [← hq]
      cases k <;> rfl

theorem P2P.policyLines_frame_scalar (L : Lib) (k : Scalar) (lines : List Bytes) :
    ∀ p q : PolicyMetadata, P2P.policyLines L p lines = .ok q →
      (∀ x ∈ lines, ¬ DataLine k.sec k.key x) → q.scalar k = p.scalar k := by
  induction lines with
  | nil =>
    intro p q hq _
    injection hq with hq
    rw [hq]
  | cons x rest ih =>
    intro p q hq h
    simp only [P2P.policyLines] at hq
    cases hx : P2P.policyLine L p x with
    | error e => rw [hx] at hq; exact absurd hq (by simp)
    | ok p1 =>
      rw [hx] at hq
      rw [ih p1 q hq (fun y hy => h y (by simp [hy])),
        P2P.serverLine_frame_scalar L p p1 x k hx (h x (by simp))]

/-- In the p2p loop the last data line of a scalar key decides its field. -/
theorem P2P.policyLines_last_scalar (L : Lib) (k : Scalar) (pre post : List Bytes)
    (l : Bytes) (p q : PolicyMetadata) (hq : P2P.policyLines L p (pre ++ l :: post) = .ok q)
    (hl : DataLine k.sec k.key l) (hpost : ∀ x ∈ post, ¬ DataLine k.sec k.key x) :
    q.scalar k = thirdField l := by
  rw [P2P.policyLines_append] at hq
  cases hpre : P2P.policyLines L p pre with
  | error e => rw [hpre] at hq; exact absurd hq (by simp)
  | ok p1 =>
    rw [hpre] at hq
    simp only [P2P.policyLines, P2P.serverLine_scalar L p1 l k hl] at hq
    rw [P2P.policyLines_frame_scalar L k post _ q hq hpost, scalar_setScalar]

theorem P2P.serverLine_frame_slots (L : Lib) (p q : PolicyMetadata) (line : Bytes)
    (hq : P2P.policyLine L p line = .ok q) (h : ¬ SlotsLine line) : q.Slots = p.Slots := by
  rcases line_cases line with h1 | ⟨k1, h1⟩ | h1
  · rw [P2P.serverLine_irrelevant L p line h1] at hq
    injection hq with hq
    rw [← hq]
  · rw [P2P.serverLine_scalar L p line k1 h1] at hq
    injection hq with hq
    rw [← hq, Slots_setScalar]
  · exact absurd h1 h

theorem P2P.policyLines_frame_slots (L : Lib) (lines : List Bytes) :
    ∀ p q : PolicyMetadata, P2P.policyLines L p lines = .ok q →
      (∀ x ∈ lines, ¬ SlotsLine x) → q.Slots = p.Slots := by
  induction lines with
  | nil =>
    intro p q hq _
    injection hq with hq
    rw [hq]
  | cons x rest ih =>
    intro p q hq h
    simp only [P2P.policyLines] at hq
    cases hx : P2P.policyLine L p x with
    | error e => rw [hx] at hq; exact absurd hq (by simp)
    | ok p1 =>
      rw [hx] at hq
      rw [ih p1 q hq (fun y hy => h y (by simp [hy])),
        P2P.serverLine_frame_slots L p p1 x hx (h x (by simp))]

/-- In the p2p loop the last slots line decides `Slots`. -/
theorem P2P.policyLines_last_slots (L : Lib) (pre post : List Bytes) (l : Bytes)
    (p q : PolicyMetadata) (s : List Int)
    (hq : P2P.policyLines L p (pre ++ l :: post) = .ok q) (hl : SlotsLine l)
    (hs : ∀ old, L.jsonUnmarshalInts (restText l) old = (s, none))
    (hpost : ∀ x ∈ post, ¬ SlotsLine x) : q.Slots = s := by
  rw [P2P.policyLines_append] at hq
  cases hpre : P2P.policyLines L p pre with
  | error e => rw [hpre] at hq; exact absurd hq (by simp)
  | ok p1 =>
    rw [hpre] at hq
    simp only [P2P.policyLines, P2P.serverLine_slots L p1 l hl, hs] at hq
    rw [P2P.policyLines_frame_slots L post _ q hq hpost]

theorem P2P.serverLine_error_form (L : Lib) (p : PolicyMetadata) (line e : Bytes)
    (h : P2P.policyLine L p line = .error e) :
    ∃ err, e = ascii "invalid replica slots: " ++ err := by
  rcases line_cases line with h1 | ⟨k1, h1⟩ | h1
  · rw [P2P.serverLine_irrelevant L p line h1] at h; exact absurd h (by simp)
  · rw [P2P.serverLine_scalar L p line k1 h1] at h; exact absurd h (by simp)
  · rw [P2P.serverLine_slots L p line h1] at h
    generalize L.jsonUnmarshalInts (restText line) p.Slots = r at h
    obtain ⟨s, e1⟩ := r
    cases e1 with
    | none => exact absurd h (by simp)
    | some err =>
      injection h with h
      exact ⟨err, h.symm⟩

/-- A slots line the library refuses ends the p2p loop with its error. -/
theorem P2P.policyLines_bad (L : Lib) (line : Bytes) (hl : SlotsLine line)
    (hbad : ∀ old, (L.jsonUnmarshalInts (restText line) old).2 ≠ none) (lines : List Bytes) :
    ∀ p : PolicyMetadata, line ∈ lines →
      ∃ err, P2P.policyLines L p lines = .error (ascii "invalid replica slots: " ++ err) := by
  induction lines with
  | nil => intro p hm; simp at hm
  | cons x rest ih =>
    intro p hm
    simp only [P2P.policyLines]
    cases hx : P2P.policyLine L p x with
    | error e =>
      obtain ⟨err, he⟩ := P2P.serverLine_error_form L p x e hx
      exact ⟨err, by rw [he]⟩
    | ok p1 =>
      rcases List.mem_cons.1 hm with e | e
      · subst e
        rw [P2P.serverLine_slots L p line hl] at hx
        have hb := hbad p.Slots
        generalize L.jsonUnmarshalInts (restText line) p.Slots = r at hx hb
        obtain ⟨s, e1⟩ := r
        cases e1 with
        | none => exact absurd rfl hb
        | some err => exact absurd hx (by simp)
      · exact ih p1 e

theorem P2P.policyLines_insert_noop (L : Lib) (x : Bytes)
    (h : ∀ q, P2P.policyLine L q x = .ok q) (pre post : List Bytes) (p : PolicyMetadata) :
    P2P.policyLines L p (pre ++ x :: post) = P2P.policyLines L p (pre ++ post) := by
  rw [P2P.policyLines_append, P2P.policyLines_append]
  cases P2P.policyLines L p pre with
  | error e => rfl
  | ok q => simp only [P2P.policyLines, h]

/-! ## Lemmas: traces -/

theorem isDataLine_iff (sec key line : Bytes) :
    DataLine sec key line ↔ isDataLine sec key line = true := by
  unfold DataLine isDataLine
  match hs : splitOn 9 line with
  | [] => simp
  | [_] => simp
  | [_, _] => simp
  | f0 :: f1 :: f2 :: more =>
    simp only [List.cons.injEq, Bool.and_eq_true, decide_eq_true_eq]
    constructor
    · rintro ⟨g2, gm, h0, h1, _⟩; exact ⟨h0, h1⟩
    · rintro ⟨h0, h1⟩; exact ⟨f2, more, h0, h1, rfl, rfl⟩

theorem restText_eq (line f0 f1 f2 : Bytes) (more : List Bytes)
    (h : splitOn 9 line = f0 :: f1 :: f2 :: more) : restText line = joinWith 9 (f2 :: more) := by
  unfold restText; rw [h]

theorem thirdField_eq (line f0 f1 f2 : Bytes) (more : List Bytes)
    (h : splitOn 9 line = f0 :: f1 :: f2 :: more) : thirdField line = f2 := by
  unfold thirdField; rw [h]

/-- The lines of a trace with one more line put in. -/
theorem traceLines_insert (trace : Bytes) (pre post : List Bytes) (line : Bytes)
    (hlines : traceLines trace = pre ++ post) (hnl : (10 : Byte) ∉ line) :
    traceLines (joinWith 10 (pre ++ line :: post)) = pre ++ line :: post := by
  unfold traceLines at hlines ⊢
  apply splitOn_joinWith 10 _ (by simp)
  intro x hx
  rcases List.mem_append.1 hx with h | h
  · exact splitOn_mem_no_sep 10 trace x (by rw [hlines]; simp [h])
  · rcases List.mem_cons.1 h with e | e
    · rw [e]; exact hnl
    · exact splitOn_mem_no_sep 10 trace x (by rw [hlines]; simp [e])

/-- A line the archive loop passes over can be put in anywhere. -/
theorem extractPolicyFromTrace_insert (L : Lib) (trace : Bytes) (pre post : List Bytes)
    (line : Bytes) (hlines : traceLines trace = pre ++ post) (hnl : (10 : Byte) ∉ line)
    (hnoop : ∀ q, policyLine L q line = q) :
    extractPolicyFromTrace L (joinWith 10 (pre ++ line :: post))
      = extractPolicyFromTrace L trace := by
  have h1 := traceLines_insert trace pre post line hlines hnl
  unfold traceLines at h1 hlines
  unfold extractPolicyFromTrace
  rw [h1, hlines, foldl_insert_noop (policyLine L) line hnoop]

/-- A line the p2p loop passes over can be put in anywhere. -/
theorem P2P.extractPolicy_insert (L : Lib) (trace : Bytes) (pre post : List Bytes)
    (line : Bytes) (hlines : traceLines trace = pre ++ post) (hnl : (10 : Byte) ∉ line)
    (hnoop : ∀ q, P2P.policyLine L q line = .ok q) :
    P2P.extractPolicy L (joinWith 10 (pre ++ line :: post)) = P2P.extractPolicy L trace := by
  have h1 := traceLines_insert trace pre post line hlines hnl
  unfold traceLines at h1 hlines
  unfold P2P.extractPolicy
  rw [h1, hlines, P2P.policyLines_insert_noop L line hnoop]

/-- The archive extraction succeeds exactly with the policy the loop built
when both labels came out non-empty. -/
theorem extractPolicyFromTrace_some (L : Lib) (trace : Bytes) (pol : PolicyMetadata)
    (h : extractPolicyFromTrace L trace = some pol) :
    pol = (traceLines trace).foldl (policyLine L) PolicyMetadata.empty := by
  unfold extractPolicyFromTrace at h
  unfold traceLines
  simp only at h
  split_ifs at h
  injection h with h
  exact h.symm

theorem P2P.extractPolicy_ok (L : Lib) (trace : Bytes) (pol : PolicyMetadata)
    (h : P2P.extractPolicy L trace = .ok pol) :
    P2P.policyLines L PolicyMetadata.empty (traceLines trace) = .ok pol := by
  unfold P2P.extractPolicy at h
  unfold traceLines
  cases hp : P2P.policyLines L PolicyMetadata.empty (splitOn 10 trace) with
  | error e => rw [hp] at h; exact absurd h (by simp)
  | ok q =>
    rw [hp] at h
    simp only at h
    split_ifs at h
    injection h with h
    rw [h]

/-! ## Lemmas: the reversal loop -/

theorem swapAt_ends (a m b : List PeerID) (x y : PeerID) :
    swapAt (a ++ x :: (m ++ y :: b)) a.length (a.length + m.length + 1)
      = a ++ y :: (m ++ x :: b) := by
  have h1 : (a ++ x :: (m ++ y :: b))[a.length]? = some x := by
    rw [List.getElem?_append_right (by omega)]
    simp
  have h2 : (a ++ x :: (m ++ y :: b))[a.length + m.length + 1]? = some y := by
    rw [List.getElem?_append_right (by omega)]
    have : a.length + m.length + 1 - a.length = m.length + 1 := by omega
    rw [this, List.getElem?_cons_succ, List.getElem?_append_right (by omega)]
    simp
  unfold swapAt
  rw [h1, h2]
  simp only
  have e1 : (a ++ x :: (m ++ y :: b)).set a.length y = a ++ y :: (m ++ y :: b) := by
    simp
  rw [e1]
  have e2 : (a ++ y :: (m ++ y :: b)).set (a.length + m.length + 1) x
      = a ++ y :: (m ++ x :: b) := by
    rw [List.set_append_right _ _ (by omega)]
    have : a.length + m.length + 1 - a.length = m.length + 1 := by omega
    rw [this, List.set_cons_succ, List.set_append_right _ _ (by omega)]
    simp
  rw [e2]

/-- The loop reverses the part of the slice between its two indices. -/
theorem reverseLoop_middle (n : Nat) : ∀ (a m b : List PeerID), m.length = n →
    reverseLoop (a ++ m ++ b) a.length (a.length + m.length - 1) = a ++ m.reverse ++ b := by
  induction n using Nat.strong_induction_on with
  | _ n ih =>
    intro a m b hm
    match m, hm with
    | [], _ =>
      rw [reverseLoop]
      simp
    | [x], _ =>
      rw [reverseLoop]
      simp
    | x :: y :: rest, hm =>
      obtain ⟨mid, z, hz⟩ : ∃ mid z, y :: rest = mid ++ [z] :=
        ⟨(y :: rest).dropLast, (y :: rest).getLast (by simp),
          (List.dropLast_append_getLast (by simp)).symm⟩
      have hlen : (y :: rest).length = mid.length + 1 := by rw [hz]; simp
      have hmid : mid.length < n := by
        simp only [List.length_cons] at hm hlen; omega
      rw [hz, reverseLoop]
      have hj : a.length + (x :: (mid ++ [z])).length - 1 = a.length + mid.length + 1 := by
        simp; omega
      rw [hj, if_pos (by omega)]
      have e : a ++ x :: (mid ++ [z]) ++ b = a ++ x :: (mid ++ z :: b) := by simp
      rw [e, swapAt_ends a mid b x z]
      have e2 : a ++ z :: (mid ++ x :: b) = (a ++ [z]) ++ mid ++ (x :: b) := by simp
      have e3 : a.length + 1 = (a ++ [z]).length := by simp
      have e4 : a.length + mid.length + 1 - 1 = (a ++ [z]).length + mid.length - 1 := by
        simp
      rw [e2, e3, e4, ih mid.length hmid (a ++ [z]) mid (x :: b) rfl]
      simp

theorem reverseLoop_reverse (peers : List PeerID) :
    reverseLoop peers 0 (peers.length - 1) = peers.reverse := by
  have h := reverseLoop_middle peers.length [] peers [] rfl
  simpa using h

/-! ## Lemmas: the trace encoding -/

theorem encodeLine_split (sec key v : Bytes) (hs : (9 : Byte) ∉ sec) (hk : (9 : Byte) ∉ key) :
    splitOn 9 (encodeLine sec key v) = sec :: key :: splitOn 9 v := by
  unfold encodeLine
  rw [splitOn_append_sep 9 sec _ hs, splitOn_append_sep 9 key _ hk]

theorem Scalar.no_tab (k : Scalar) : (9 : Byte) ∉ k.sec ∧ (9 : Byte) ∉ k.key := by
  cases k <;> decide

theorem Scalar.no_nl (k : Scalar) : (10 : Byte) ∉ k.sec ∧ (10 : Byte) ∉ k.key := by
  cases k <;> decide

theorem encodeLine_scalar (k : Scalar) (v : Bytes) (hv : (9 : Byte) ∉ v) :
    splitOn 9 (encodeLine k.sec k.key v) = [k.sec, k.key, v] := by
  rw [encodeLine_split _ _ _ k.no_tab.1 k.no_tab.2, splitOn_no_sep 9 v hv]

theorem encodeLine_no_nl (sec key v : Bytes) (hs : (10 : Byte) ∉ sec) (hk : (10 : Byte) ∉ key)
    (hv : (10 : Byte) ∉ v) : (10 : Byte) ∉ encodeLine sec key v := by
  unfold encodeLine
  simp only [List.mem_append, List.mem_cons, not_or]
  exact ⟨hs, by decide, hk, by decide, hv⟩

theorem joinWith_append_empty (sep : Byte) (ls : List Bytes) (hne : ls ≠ []) :
    joinWith sep (ls ++ [[]]) = joinWith sep ls ++ [sep] := by
  induction ls with
  | nil => exact absurd rfl hne
  | cons a rest ih =>
    cases rest with
    | nil => simp [joinWith]
    | cons b more =>
      have e : joinWith sep (a :: b :: (more ++ [[]]))
          = a ++ sep :: joinWith sep (b :: (more ++ [[]])) := rfl
      have e2 : joinWith sep (a :: b :: more) = a ++ sep :: joinWith sep (b :: more) := rfl
      rw [List.cons_append, List.cons_append, e, e2, ← List.cons_append, ih (by simp)]
      simp

theorem scalar_line (L : Lib) (p : PolicyMetadata) (k : Scalar) (v : Bytes)
    (hv : (9 : Byte) ∉ v) :
    policyLine L p (encodeLine k.sec k.key v) = p.setScalar k v := by
  have hs := encodeLine_scalar k v hv
  rw [policyLine_scalar L p _ k ⟨v, [], hs⟩, thirdField_eq _ _ _ v [] hs]

theorem P2P.server_scalar_line (L : Lib) (p : PolicyMetadata) (k : Scalar) (v : Bytes)
    (hv : (9 : Byte) ∉ v) :
    P2P.policyLine L p (encodeLine k.sec k.key v) = .ok (p.setScalar k v) := by
  have hs := encodeLine_scalar k v hv
  rw [P2P.serverLine_scalar L p _ k ⟨v, [], hs⟩, thirdField_eq _ _ _ v [] hs]

theorem slots_line_split (arr : Bytes) :
    ∃ f2 more, splitOn 9 (encodeLine (ascii "REPLICA") (ascii "slots") arr)
        = ascii "REPLICA" :: ascii "slots" :: f2 :: more ∧ joinWith 9 (f2 :: more) = arr := by
  have hs := encodeLine_split (ascii "REPLICA") (ascii "slots") arr (by decide) (by decide)
  cases hf : splitOn 9 arr with
  | nil => exact absurd hf (splitOn_ne_nil 9 arr)
  | cons f2 more =>
    refine ⟨f2, more, by rw [hs, hf], ?_⟩
    rw [← hf]
    exact joinWith_splitOn 9 arr

theorem slots_line (L : Lib) (p : PolicyMetadata) (arr : Bytes) (s : List Int)
    (h : L.jsonUnmarshalInts arr [] = (s, none)) :
    policyLine L p (encodeLine (ascii "REPLICA") (ascii "slots") arr)
      = { p with Slots := s } := by
  obtain ⟨f2, more, hs, hj⟩ := slots_line_split arr
  rw [policyLine_slots L p _ ⟨f2, more, hs⟩, restText_eq _ _ _ f2 more hs, hj, h]

theorem P2P.server_slots_line (L : Lib) (p : PolicyMetadata) (arr : Bytes) (s : List Int)
    (h : L.jsonUnmarshalInts arr p.Slots = (s, none)) :
    P2P.policyLine L p (encodeLine (ascii "REPLICA") (ascii "slots") arr)
      = .ok { p with Slots := s } := by
  obtain ⟨f2, more, hs, hj⟩ := slots_line_split arr
  rw [P2P.serverLine_slots L p _ ⟨f2, more, hs⟩, restText_eq _ _ _ f2 more hs, hj, h]

/-- The archive loop on the seven lines of the encoding. -/
theorem fold_traceEncoding (L : Lib) (e8l e8r chirality projective causality incidence
    arr : Bytes) (s : List Int)
    (hclean : ∀ v ∈ [e8l, e8r, chirality, projective, causality, incidence], (9 : Byte) ∉ v)
    (hjson : L.jsonUnmarshalInts arr [] = (s, none)) :
    (traceEncoding e8l e8r chirality projective causality incidence arr).foldl (policyLine L)
        PolicyMetadata.empty
      = ⟨e8l, e8r, chirality, projective, causality, incidence, s⟩ := by
  have h1 := fun p => scalar_line L p .e8l e8l (hclean _ (by simp))
  have h2 := fun p => scalar_line L p .e8r e8r (hclean _ (by simp))
  have h3 := fun p => scalar_line L p .chirality chirality (hclean _ (by simp))
  have h4 := fun p => scalar_line L p .projective projective (hclean _ (by simp))
  have h5 := fun p => scalar_line L p .causality causality (hclean _ (by simp))
  have h6 := fun p => scalar_line L p .incidence incidence (hclean _ (by simp))
  have h7 := fun p => slots_line L p arr s hjson
  simp only [Scalar.sec, Scalar.key] at h1 h2 h3 h4 h5 h6
  simp only [traceEncoding, List.foldl_cons, List.foldl_nil, h1, h2, h3, h4, h5, h6, h7]
  rfl

/-- The p2p loop on the seven lines of the encoding. -/
theorem P2P.policyLines_traceEncoding (L : Lib) (e8l e8r chirality projective causality
    incidence arr : Bytes) (s : List Int) (tail : List Bytes)
    (hclean : ∀ v ∈ [e8l, e8r, chirality, projective, causality, incidence], (9 : Byte) ∉ v)
    (hjson : L.jsonUnmarshalInts arr [] = (s, none)) :
    P2P.policyLines L PolicyMetadata.empty
        (traceEncoding e8l e8r chirality projective causality incidence arr ++ tail)
      = P2P.policyLines L ⟨e8l, e8r, chirality, projective, causality, incidence, s⟩ tail := by
  have h1 := fun p => P2P.server_scalar_line L p .e8l e8l (hclean _ (by simp))
  have h2 := fun p => P2P.server_scalar_line L p .e8r e8r (hclean _ (by simp))
  have h3 := fun p => P2P.server_scalar_line L p .chirality chirality (hclean _ (by simp))
  have h4 := fun p => P2P.server_scalar_line L p .projective projective (hclean _ (by simp))
  have h5 := fun p => P2P.server_scalar_line L p .causality causality (hclean _ (by simp))
  have h6 := fun p => P2P.server_scalar_line L p .incidence incidence (hclean _ (by simp))
  have h7 := P2P.server_slots_line L ⟨e8l, e8r, chirality, projective, causality, incidence, []⟩
    arr s hjson
  simp only [Scalar.sec, Scalar.key] at h1 h2 h3 h4 h5 h6
  simp only [traceEncoding, List.cons_append, List.nil_append, P2P.policyLines, h1, h2, h3,
    h4, h5, h6]
  simp only [PolicyMetadata.setScalar, PolicyMetadata.empty, h7]
  rfl

theorem traceEncoding_no_nl (e8l e8r chirality projective causality incidence arr : Bytes)
    (hclean : ∀ v ∈ [e8l, e8r, chirality, projective, causality, incidence], (10 : Byte) ∉ v)
    (harr : (10 : Byte) ∉ arr) :
    ∀ x ∈ traceEncoding e8l e8r chirality projective causality incidence arr,
      (10 : Byte) ∉ x := by
  intro x hx
  simp only [traceEncoding, List.mem_cons, List.mem_singleton, List.not_mem_nil,
    or_false] at hx
  rcases hx with h | h | h | h | h | h | h <;> rw [h]
  · exact encodeLine_no_nl _ _ _ (by decide) (by decide) (hclean _ (by simp))
  · exact encodeLine_no_nl _ _ _ (by decide) (by decide) (hclean _ (by simp))
  · exact encodeLine_no_nl _ _ _ (by decide) (by decide) (hclean _ (by simp))
  · exact encodeLine_no_nl _ _ _ (by decide) (by decide) (hclean _ (by simp))
  · exact encodeLine_no_nl _ _ _ (by decide) (by decide) (hclean _ (by simp))
  · exact encodeLine_no_nl _ _ _ (by decide) (by decide) (hclean _ (by simp))
  · exact encodeLine_no_nl _ _ _ (by decide) (by decide) harr

/-! ## Lemmas: the store invariant -/

theorem GoMap.mem_erase {κ ν : Type} [DecidableEq κ] (m : GoMap κ ν) (k : κ) (e : κ × ν)
    (h : e ∈ m.erase k) : e ∈ m ∧ e.1 ≠ k := by
  induction m with
  | nil => simp [GoMap.erase] at h
  | cons x rest ih =>
    obtain ⟨a, b⟩ := x
    by_cases hak : a = k
    · simp only [GoMap.erase, hak, if_true] at h
      exact ⟨List.mem_cons_of_mem _ (ih h).1, (ih h).2⟩
    · simp only [GoMap.erase, hak, if_false, List.mem_cons] at h
      rcases h with h | h
      · subst h; exact ⟨List.mem_cons_self _ _, hak⟩
      · exact ⟨List.mem_cons_of_mem _ (ih h).1, (ih h).2⟩

theorem GoMap.not_mem_keys_erase {κ ν : Type} [DecidableEq κ] (m : GoMap κ ν) (k : κ) :
    k ∉ (m.erase k).keys := by
  intro h
  obtain ⟨e, he, hk⟩ := List.mem_map.1 h
  exact (GoMap.mem_erase m k e he).2 hk

theorem GoMap.nodup_erase {κ ν : Type} [DecidableEq κ] (m : GoMap κ ν) (k : κ)
    (h : m.keys.Nodup) : (m.erase k).keys.Nodup := by
  induction m with
  | nil => exact h
  | cons x rest ih =>
    obtain ⟨a, b⟩ := x
    simp only [GoMap.keys, List.map_cons, List.nodup_cons] at h
    by_cases hak : a = k
    · simp only [GoMap.erase, hak, if_true]
      exact ih h.2
    · simp only [GoMap.erase, hak, if_false, GoMap.keys, List.map_cons, List.nodup_cons]
      refine ⟨?_, ih h.2⟩
      intro hm
      obtain ⟨e, he, hk⟩ := List.mem_map.1 hm
      exact h.1 (List.mem_map.2 ⟨e, (GoMap.mem_erase rest k e he).1, hk⟩)

theorem GoMap.nodup_set {κ ν : Type} [DecidableEq κ] (m : GoMap κ ν) (k : κ) (v : ν)
    (h : m.keys.Nodup) : (m.set k v).keys.Nodup := by
  simp only [GoMap.set, GoMap.keys, List.map_cons, List.nodup_cons]
  exact ⟨GoMap.not_mem_keys_erase m k, GoMap.nodup_erase m k h⟩

theorem GoMap.length_erase_le {κ ν : Type} [DecidableEq κ] (m : GoMap κ ν) (k : κ) :
    (m.erase k).length ≤ m.length := by
  induction m with
  | nil => exact Nat.le_refl _
  | cons x rest ih =>
    obtain ⟨a, b⟩ := x
    by_cases hak : a = k
    · simp only [GoMap.erase, hak, if_true, List.length_cons]; omega
    · simp only [GoMap.erase, hak, if_false, List.length_cons]; omega

theorem GoMap.length_set_le {κ ν : Type} [DecidableEq κ] (m : GoMap κ ν) (k : κ) (v : ν) :
    (m.set k v).length ≤ m.length + 1 := by
  have := GoMap.length_erase_le m k
  simp only [GoMap.set, List.length_cons]
  omega

/-- Assigning the same entry twice is assigning it once. -/
theorem GoMap.set_set {κ ν : Type} [DecidableEq κ] (m : GoMap κ ν) (k : κ) (v : ν) :
    (m.set k v).set k v = m.set k v := by
  simp only [GoMap.set, GoMap.erase, if_true]
  rw [GoMap.erase_absent _ k (GoMap.not_mem_keys_erase m k)]

/-- Under distinct keys a key that is present heads exactly one entry. -/
theorem GoMap.count_key {κ ν : Type} [DecidableEq κ] (m : GoMap κ ν) (k : κ)
    (hnd : m.keys.Nodup) (h : (m.get k).isSome = true) :
    (m.filter (fun e => decide (e.1 = k))).length = 1 := by
  induction m with
  | nil => simp [GoMap.get] at h
  | cons x rest ih =>
    obtain ⟨a, b⟩ := x
    simp only [GoMap.keys, List.map_cons, List.nodup_cons] at hnd
    by_cases hak : a = k
    · subst hak
      have hrest : rest.filter (fun e => decide (e.1 = a)) = [] := by
        rw [List.filter_eq_nil_iff]
        intro e he hd
        simp only [decide_eq_true_eq] at hd
        exact hnd.1 (List.mem_map.2 ⟨e, he, hd⟩)
      simp [List.filter, hrest]
    · simp only [GoMap.get, hak, if_false] at h
      simp only [List.filter, hak, decide_False]
      exact ih hnd.2 h

theorem GoMap.isSome_set {κ ν : Type} [DecidableEq κ] (m : GoMap κ ν) (k k1 : κ) (v : ν)
    (h : (m.get k1).isSome = true) : ((m.set k v).get k1).isSome = true := by
  by_cases e : k1 = k
  · subst e; rw [GoMap.get_set_self]; rfl
  · rw [GoMap.get_set_ne m k k1 v e]; exact h

theorem StoreInv_set (L : Lib) (m : GoMap RID Record) (B : Bytes)
    (pol : Option PolicyMetadata) (h : StoreInv L m) :
    StoreInv L (m.set (L.sha256 B) ⟨L.sha256 B, B, pol⟩) := by
  refine ⟨GoMap.nodup_set m _ _ h.1, ?_⟩
  intro e he
  simp only [GoMap.set, List.mem_cons] at he
  rcases he with he | he
  · subst he; exact ⟨rfl, rfl⟩
  · exact h.2 e (GoMap.mem_erase m _ e he).1

/-- The records table after one `LoadRecord`. -/
theorem LoadRecord_records (L : Lib) (fs : Bytes → Except Bytes Bytes) (p : ULPPeer)
    (path : Bytes) :
    (LoadRecord L fs p path).1.records =
      match fs path with
      | .error _ => p.records
      | .ok B => p.records.set (L.sha256 B) ⟨L.sha256 B, B, extractPolicyFromTrace L B⟩ := by
  unfold LoadRecord
  cases fs path <;> rfl

/-- The records table after one `loadRecord` of the p2p server. -/
theorem P2P.loadRecord_records (L : Lib) (fs : Bytes → Except Bytes Bytes)
    (s : P2P.TestamentServer) (path : Bytes) :
    (P2P.loadRecord L fs s path).1.records =
      match fs path with
      | .error _ => s.records
      | .ok B => s.records.set (L.sha256 B) ⟨L.sha256 B, B,
          match P2P.extractPolicy L B with
          | .error _ => none
          | .ok pol => some pol⟩ := by
  unfold P2P.loadRecord
  cases fs path <;> rfl

theorem successfulLoads_cons (fs : Bytes → Except Bytes Bytes) (q : Bytes)
    (rest : List Bytes) :
    successfulLoads fs (q :: rest) =
      (match fs q with | .ok _ => 1 | .error _ => 0) + successfulLoads fs rest := by
  unfold successfulLoads
  cases h : fs q with
  | error e => simp [List.filter, h]
  | ok B => simp [List.filter, h]; omega

/-- What a run of loads keeps and adds, stated for any table and any step
that leaves the table alone on a failed read and assigns the record of the
blob under its digest on a successful one. -/
theorem loads_invariant (L : Lib) (fs : Bytes → Except Bytes Bytes) {σ : Type}
    (recs : σ → GoMap RID Record) (step : σ → Bytes → σ)
    (pol : σ → Bytes → Option PolicyMetadata)
    (hstep : ∀ st path, recs (step st path) =
      match fs path with
      | .error _ => recs st
      | .ok B => (recs st).set (L.sha256 B) ⟨L.sha256 B, B, pol st B⟩)
    (paths : List Bytes) :
    ∀ st : σ, StoreInv L (recs st) →
      StoreInv L (recs (paths.foldl step st)) ∧
      (recs (paths.foldl step st)).length ≤ (recs st).length + successfulLoads fs paths ∧
      (∀ k, ((recs st).get k).isSome = true →
        ((recs (paths.foldl step st)).get k).isSome = true) ∧
      (∀ q ∈ paths, ∀ B, fs q = .ok B →
        ((recs (paths.foldl step st)).get (L.sha256 B)).isSome = true) := by
  induction paths with
  | nil =>
    intro st h
    exact ⟨h, by simp [successfulLoads], fun k hk => hk, fun q hq => by simp at hq⟩
  | cons q rest ih =>
    intro st h
    have hs := hstep st q
    have inv1 : StoreInv L (recs (step st q)) := by
      rw [hs]
      cases fs q with
      | error e => exact h
      | ok B => exact StoreInv_set L _ B _ h
    have len1 : (recs (step st q)).length
        ≤ (recs st).length + (match fs q with | .ok _ => 1 | .error _ => 0) := by
      rw [hs]
      cases fs q with
      | error e => exact Nat.le_refl _
      | ok B => exact GoMap.length_set_le _ _ _
    have keep1 : ∀ k, ((recs st).get k).isSome = true →
        ((recs (step st q)).get k).isSome = true := by
      intro k hk
      rw [hs]
      cases fs q with
      | error e => exact hk
      | ok B => exact GoMap.isSome_set _ _ _ _ hk
    obtain ⟨i1, i2, i3, i4⟩ := ih (step st q) inv1
    refine ⟨i1, ?_, fun k hk => i3 k (keep1 k hk), ?_⟩
    · rw [successfulLoads_cons]
      simp only [List.foldl_cons]
      omega
    · intro q1 hq1 B hB
      rcases List.mem_cons.1 hq1 with e | e
      · subst e
        apply i3
        rw [hs, hB]
        simp only
        rw [GoMap.get_set_self]
        rfl
      · exact i4 q1 e B hB

/-! ## Lemmas: the end of the stream, the label values -/

theorem readString_no_delim (d : Byte) (s : Bytes) (h : d ∉ s) : readString d s = (s, true) := by
  induction s with
  | nil => rfl
  | cons c rest ih =>
    have hc : ¬ c = d := fun e => h (by simp [e])
    have hr : d ∉ rest := fun e => h (by simp [e])
    simp [readString, hc, ih hr]

theorem readString_line_rest (d : Byte) (s rest : Bytes) (h : d ∉ s) :
    readString d (s ++ d :: rest) = (s ++ [d], false) := by
  induction s with
  | nil => simp [readString]
  | cons c t ih =>
    have hc : ¬ c = d := fun e => h (by simp [e])
    have hr : d ∉ t := fun e => h (by simp [e])
    simp [readString, hc, ih hr]

/-- Every text either holds no delimiter or splits at its first one. -/
theorem split_at_first (d : Byte) (s : Bytes) :
    d ∉ s ∨ ∃ a b, s = a ++ d :: b ∧ d ∉ a := by
  induction s with
  | nil => exact Or.inl (by simp)
  | cons c t ih =>
    by_cases hc : c = d
    · exact Or.inr ⟨[], t, by simp [hc], by simp⟩
    · rcases ih with h | ⟨a, b, h1, h2⟩
      · refine Or.inl ?_
        intro hm
        rcases List.mem_cons.1 hm with e | e
        · exact hc e.symm
        · exact h e
      · refine Or.inr ⟨c :: a, b, by simp [h1], ?_⟩
        intro hm
        rcases List.mem_cons.1 hm with e | e
        · exact hc e.symm
        · exact h2 e

/-- The archive handler after a complete line, whatever follows it. -/
theorem handleULPStream_line_rest (L : Lib) (p : ULPPeer) (line rest : Bytes)
    (h : (10 : Byte) ∉ line) :
    handleULPStream L p (line ++ 10 :: rest)
      = some (threeWay L p.records (trimSpace line)) := by
  have e := handleULPStream_line L p line h
  unfold handleULPStream at e ⊢
  rw [readString_line 10 line h] at e
  rw [readString_line_rest 10 line rest h]
  exact e

/-- The archive handler on a stream that ends before a line feed. -/
theorem handleULPStream_no_newline (L : Lib) (p : ULPPeer) (text : Bytes)
    (h : (10 : Byte) ∉ text) : handleULPStream L p text = none := by
  unfold handleULPStream
  rw [readString_no_delim 10 text h]

theorem lastValue_snoc (sec key : Bytes) (init : List Bytes) (x : Bytes) :
    lastValue sec key (init ++ [x]) =
      if isDataLine sec key x = true then some (thirdField x) else lastValue sec key init := by
  unfold lastValue
  by_cases hx : isDataLine sec key x = true
  · simp [List.filter_append, List.filter, hx]
  · have hx1 : isDataLine sec key x = false := by simpa using hx
    simp [List.filter_append, List.filter, hx1]

theorem policyLine_scalar_value (L : Lib) (q : PolicyMetadata) (x : Bytes) (k : Scalar) :
    (policyLine L q x).scalar k =
      if isDataLine k.sec k.key x = true then thirdField x else q.scalar k := by
  by_cases hx : isDataLine k.sec k.key x = true
  · rw [if_pos hx, policyLine_scalar L q x k ((isDataLine_iff _ _ _).2 hx), scalar_setScalar]
  · rw [if_neg hx, policyLine_frame_scalar L q x k (fun hd => hx ((isDataLine_iff _ _ _).1 hd))]

/-- After the archive loop a scalar field holds the third field of the last
data line of its key, or what it held before when there is no such line. -/
theorem fold_scalar_lastValue (L : Lib) (k : Scalar) (p : PolicyMetadata)
    (lines : List Bytes) :
    (lines.foldl (policyLine L) p).scalar k
      = (lastValue k.sec k.key lines).getD (p.scalar k) := by
  induction lines using List.reverseRecOn with
  | nil => rfl
  | append_singleton init x ih =>
    rw [List.foldl_append, List.foldl_cons, List.foldl_nil, policyLine_scalar_value,
      lastValue_snoc]
    by_cases hx : isDataLine k.sec k.key x = true
    · simp [hx]
    · simp only [hx, if_false, Bool.false_eq_true]
      exact ih

/-! ## Claims -/

/-- C1. Load-then-fetch round trip: after `LoadRecord` has loaded the blob
`B` into any store, and after any later loads on whose blobs SHA-256 does not
collide with `B` (none at all when `B` is the most recent load), handling the
request line `ulp://` + lower-case hex of `SHA256(B)` + line feed writes
exactly `B`; this holds for the archive peer and for the p2p server. -/
theorem C1_load_then_fetch (L : Lib) (fs : Bytes → Except Bytes Bytes) (B path : Bytes)
    (later : List Bytes) (hB : fs path = .ok B)
    (inj : ∀ q ∈ later, ∀ B1, fs q = .ok B1 → L.sha256 B1 = L.sha256 B → B1 = B) :
    (∀ p : ULPPeer,
      handleULPStream L (loadAll L fs (LoadRecord L fs p path).1 later)
        (ascii "ulp://" ++ hexEncode (L.sha256 B).bytes ++ ascii "\n") = some B) ∧
    (∀ s : P2P.TestamentServer,
      P2P.handleULPRequest L (P2P.LoadRecords L fs (P2P.loadRecord L fs s path).1 later)
        (ascii "ulp://" ++ hexEncode (L.sha256 B).bytes ++ ascii "\n") = some B) := by
  have nl : ascii "\n" = [10] := by decide
  rw [nl]
  constructor
  · intro p
    have h0 : Holds L (LoadRecord L fs p path).1.records B := by
      unfold LoadRecord
      rw [hB]
      exact ⟨_, GoMap.get_set_self _ _ _, rfl⟩
    obtain ⟨record, h1, h2⟩ := Holds_loadAll L fs B later _ h0 inj
    simp only [handleULPStream_url, h1, h2]
  · intro s
    have h0 : Holds L (P2P.loadRecord L fs s path).1.records B := by
      unfold P2P.loadRecord
      rw [hB]
      exact ⟨_, GoMap.get_set_self _ _ _, rfl⟩
    obtain ⟨record, h1, h2⟩ := Holds_LoadRecords L fs B later _ h0 inj
    simp only [P2P.handleULPRequest_url, h1, h2]


/-- C3. URL round trip: for every 32-byte RID `r`, `ParseULPURL(r.URL())`
returns `(r, nil)`, where `r.URL()` is `ulp://` followed by the hexadecimal
text of `r`, which is 64 characters long and uses the digits `0-9a-f` only. -/
theorem C3_url_round_trip (t : HexError → Bytes) (r : RID) :
    ParseULPURL t r.URL = (r, none) ∧
    r.URL = ascii "ulp://" ++ hexEncode r.bytes ∧
    (hexEncode r.bytes).length = 64 ∧
    (∀ c ∈ hexEncode r.bytes, c ∈ ascii "0123456789abcdef") := by
  refine ⟨ParseULPURL_hex t r, rfl, ?_, hexEncode_lower r.bytes⟩
  have hlen : ∀ bs : Bytes, (hexEncode bs).length = 2 * bs.length := by
    intro bs
    induction bs with
    | nil => rfl
    | cons v rest ih => simp [hexEncode, ih]; omega
  rw [hlen, r.size]

/-- Witness for C1: two trace files are loaded and the first is fetched. -/
theorem C1_load_then_fetch_witness :
    demoFs (ascii "b/trace.log") = .ok (ascii "hello") ∧
    handleULPStream demoLib
      (loadAll demoLib demoFs (LoadRecord demoLib demoFs NewULPPeer (ascii "b/trace.log")).1
        [ascii "a/trace.log"])
      (ascii "ulp://" ++ hexEncode (demoLib.sha256 (ascii "hello")).bytes ++ ascii "\n")
      = some (ascii "hello") :=
  ⟨by decide,
   (C1_load_then_fetch demoLib demoFs (ascii "hello") (ascii "b/trace.log")
      [ascii "a/trace.log"] (by decide)
      (by
        intro q hq B1 h1 h2
        have hq1 : q = ascii "a/trace.log" := by simpa using hq
        subst hq1
        have e : demoFs (ascii "a/trace.log")
            = .ok (ascii "POLICY\te8l\tx\nPOLICY\te8r\ty\n") := by decide
        rw [e] at h1
        injection h1 with h1
        subst h1
        exact absurd h2 (by decide))).1 NewULPPeer⟩

/-- C2. The handler's response is a three-way function of the store and the
request line (without line feed in it, followed by one): when `ParseULPURL`
of the trimmed line fails with a reason, the response is `ERROR: ` + reason +
line feed; when it yields a RID that is no key of the store, the response is
`NOT_FOUND` + line feed; when it yields a key, the response is that record's
bytes. This holds for the archive peer and the p2p server. In particular
`ulp://` + 64 zero digits against an empty store gives `NOT_FOUND` + line
feed, and every line starting `ulp://zz` gives a response starting `ERROR:`. -/
theorem C2_handler_three_way (L : Lib) (line : Bytes) (h : (10 : Byte) ∉ line) :
    (∀ (p : ULPPeer) (s : P2P.TestamentServer) (rid : RID) (reason : Bytes),
      ParseULPURL L.hexErrText (trimSpace line) = (rid, some reason) →
      handleULPStream L p (line ++ ascii "\n")
        = some (ascii "ERROR: " ++ reason ++ ascii "\n") ∧
      P2P.handleULPRequest L s (line ++ ascii "\n")
        = some (ascii "ERROR: " ++ reason ++ ascii "\n")) ∧
    (∀ (p : ULPPeer) (s : P2P.TestamentServer) (rid : RID),
      ParseULPURL L.hexErrText (trimSpace line) = (rid, none) →
      (p.records.get rid = none →
        handleULPStream L p (line ++ ascii "\n") = some (ascii "NOT_FOUND\n")) ∧
      (s.records.get rid = none →
        P2P.handleULPRequest L s (line ++ ascii "\n") = some (ascii "NOT_FOUND\n")) ∧
      (∀ record, p.records.get rid = some record →
        handleULPStream L p (line ++ ascii "\n") = some record.Bytes) ∧
      (∀ record, s.records.get rid = some record →
        P2P.handleULPRequest L s (line ++ ascii "\n") = some record.Bytes)) ∧
    handleULPStream L NewULPPeer (ascii "ulp://" ++ List.replicate 64 48 ++ ascii "\n")
      = some (ascii "NOT_FOUND\n") ∧
    P2P.handleULPRequest L ⟨[]⟩ (ascii "ulp://" ++ List.replicate 64 48 ++ ascii "\n")
      = some (ascii "NOT_FOUND\n") ∧
    (∀ (p : ULPPeer) (s : P2P.TestamentServer) (tail : Bytes), (10 : Byte) ∉ tail →
      (∃ rest, handleULPStream L p (ascii "ulp://zz" ++ tail ++ ascii "\n")
        = some (ascii "ERROR:" ++ rest)) ∧
      (∃ rest, P2P.handleULPRequest L s (ascii "ulp://zz" ++ tail ++ ascii "\n")
        = some (ascii "ERROR:" ++ rest))) := by
  have nl : ascii "\n" = [10] := by decide
  have zeros : (List.replicate 64 48 : Bytes) = hexEncode RID.zero.bytes := by decide
  rw [nl]
  refine ⟨?_, ?_, ?_, ?_, ?_⟩
  · intro p s rid reason hp
    rw [handleULPStream_line L p line h, P2P.handleULPRequest_line L s line]
    simp [threeWay, hp, nl]
  · intro p s rid hp
    rw [handleULPStream_line L p line h, P2P.handleULPRequest_line L s line]
    refine ⟨?_, ?_, ?_, ?_⟩
    · intro hg; simp [threeWay, hp, hg]
    · intro hg; simp [threeWay, hp, hg]
    · intro record hg; simp [threeWay, hp, hg]
    · intro record hg; simp [threeWay, hp, hg]
  · rw [zeros, handleULPStream_url]; rfl
  · rw [zeros, P2P.handleULPRequest_url]; rfl
  · intro p s tail ht
    have hz : (10 : Byte) ∉ ascii "ulp://zz" ++ tail := by
      intro hm
      rcases List.mem_append.1 hm with h1 | h1
      · exact absurd h1 (by decide)
      · exact ht h1
    obtain ⟨reason, hr⟩ := ParseULPURL_zz L.hexErrText tail
    have e : ascii "ERROR: " = ascii "ERROR:" ++ [32] := by decide
    rw [handleULPStream_line L p _ hz, P2P.handleULPRequest_line L s]
    have tw : ∀ records, threeWay L records (trimSpace (ascii "ulp://zz" ++ tail))
        = ascii "ERROR:" ++ ([32] ++ reason ++ [10]) := by
      intro records
      unfold threeWay
      generalize ParseULPURL L.hexErrText (trimSpace (ascii "ulp://zz" ++ tail)) = r at hr
      obtain ⟨rid, err⟩ := r
      simp only at hr
      subst hr
      simp [e, nl]
    exact ⟨⟨_, by rw [tw]⟩, ⟨_, by rw [tw]⟩⟩

/-- Witness for C2: the line `ulp://zz` against the fresh peer. -/
theorem C2_handler_three_way_witness :
    (10 : Byte) ∉ ascii "ulp://zz" ∧
    handleULPStream demoLib NewULPPeer (ascii "ulp://zz" ++ ascii "\n")
      = some (ascii "ERROR: " ++ ascii "invalid RID hex: " ++ ascii "\n") :=
  ⟨by decide,
   ((C2_handler_three_way demoLib (ascii "ulp://zz") (by decide)).1
      NewULPPeer ⟨[]⟩ RID.zero (ascii "invalid RID hex: ") (by decide)).1⟩

/-- C4. For every string `s`, the three copies of `ParseULPURL` agree, and
the call succeeds exactly when `s`, after removing one leading `ulp://` if
present and then trimming surrounding white space, consists of exactly 64
hexadecimal digits in either case. On success the RID's `String()` is that
remainder lower-cased, so spellings that differ only in case give the same
RID. Otherwise the all-zero RID is returned with an error, which reads
`invalid RID length: got n, want 32` when the remainder decodes to `n ≠ 32`
bytes and `invalid RID hex: ` + the decoder's error when it does not decode. -/
theorem C4_parse_url (t : HexError → Bytes) (s : Bytes) :
    P2P.parseULPURL t s = ParseULPURL t s ∧
    Trustee.parseULPURL t s = ParseULPURL t s ∧
    ((ParseULPURL t s).2 = none ↔
      ((remainder s).length = 64 ∧ ∀ c ∈ remainder s, isHexDigit c = true)) ∧
    ((ParseULPURL t s).2 = none →
      (ParseULPURL t s).1.String = (remainder s).map toLower) ∧
    ((ParseULPURL t s).2 = none → ∀ s1 : Bytes,
      (remainder s1).map toLower = (remainder s).map toLower →
      ParseULPURL t s1 = ParseULPURL t s) ∧
    ((ParseULPURL t s).2 ≠ none → (ParseULPURL t s).1 = RID.zero) ∧
    (∀ bs, hexDecode (remainder s) = .ok bs → bs.length ≠ 32 →
      ParseULPURL t s = (RID.zero,
        some (ascii "invalid RID length: got " ++ decimal bs.length ++ ascii ", want 32"))) ∧
    (∀ e, hexDecode (remainder s) = .error e →
      ParseULPURL t s = (RID.zero, some (ascii "invalid RID hex: " ++ t e))) := by
  -- the outcome of a call in terms of the decoder
  have shape : ∀ u : Bytes,
      ((ParseULPURL t u).2 = none →
        ∃ r : RID, ParseULPURL t u = (r, none) ∧ hexDecode (remainder u) = .ok r.bytes) ∧
      ((ParseULPURL t u).2 ≠ none → (ParseULPURL t u).1 = RID.zero) ∧
      (∀ bs, hexDecode (remainder u) = .ok bs → bs.length = 32 →
        (ParseULPURL t u).2 = none) := by
    intro u
    cases hd : hexDecode (remainder u) with
    | error e =>
      rw [ParseULPURL_error t u e hd]
      simp
    | ok bs =>
      by_cases hl : bs.length = 32
      · rw [ParseULPURL_ok t u bs hd hl]
        refine ⟨fun _ => ⟨⟨bs, hl⟩, rfl, rfl⟩, by simp, fun _ _ _ => rfl⟩
      · rw [ParseULPURL_length t u bs hd hl]
        refine ⟨by simp, by simp, ?_⟩
        intro bs1 e h1
        injection e with e
        exact absurd (e ▸ h1) hl
  -- success in terms of the text
  have ok_iff : ∀ u : Bytes, (ParseULPURL t u).2 = none ↔
      ((remainder u).length = 64 ∧ ∀ c ∈ remainder u, isHexDigit c = true) := by
    intro u
    constructor
    · intro h
      obtain ⟨r, _, hd⟩ := (shape u).1 h
      obtain ⟨l1, l2, _⟩ := hexDecode_ok _ _ hd
      exact ⟨by rw [l1, r.size], l2⟩
    · intro ⟨hl, hh⟩
      obtain ⟨bs, hbs⟩ := hexDecode_total (remainder u) (by rw [hl]) hh
      obtain ⟨l1, _, _⟩ := hexDecode_ok _ _ hbs
      exact (shape u).2.2 bs hbs (by omega)
  have str : ∀ u : Bytes, (ParseULPURL t u).2 = none →
      (ParseULPURL t u).1.String = (remainder u).map toLower := by
    intro u h
    obtain ⟨r, hr, hd⟩ := (shape u).1 h
    rw [hr]
    exact (hexDecode_ok _ _ hd).2.2
  refine ⟨rfl, rfl, ok_iff s, str s, ?_, (shape s).2.1, ?_, ?_⟩
  · intro h s1 hs1
    have h1 : (ParseULPURL t s1).2 = none := by
      rw [ok_iff] at h ⊢
      have len : (remainder s1).length = (remainder s).length := by
        simpa using congrArg List.length hs1
      refine ⟨by rw [len, h.1], ?_⟩
      intro c hc
      have hm : toLower c ∈ (remainder s).map toLower := by
        rw [← hs1]; exact List.mem_map_of_mem _ hc
      obtain ⟨d, hd, hdc⟩ := List.mem_map.1 hm
      rw [← isHexDigit_toLower c, ← hdc, isHexDigit_toLower d]
      exact h.2 d hd
    obtain ⟨r, hr, _⟩ := (shape s).1 h
    obtain ⟨r1, hr1, _⟩ := (shape s1).1 h1
    have e : r1.String = r.String := by
      have a1 := str s1 h1
      have a := str s h
      rw [hr1] at a1; rw [hr] at a
      simp only at a1 a
      rw [a1, a, hs1]
    have eb : r1.bytes = r.bytes := by
      have d1 := hexDecode_hexEncode r1.bytes
      have d := hexDecode_hexEncode r.bytes
      unfold RID.String at e
      rw [e, d] at d1
      injection d1 with d1
      exact d1.symm
    have er : r1 = r := by
      cases r1; cases r; simp only [RID.mk.injEq]; exact eb
    rw [hr1, hr, er]
  · exact fun bs hd hl => ParseULPURL_length t s bs hd hl
  · exact fun e hd => ParseULPURL_error t s e hd

/-- Witness for C4: an upper-case spelling parses to the RID of the
lower-case one, and a short text is refused with its length. -/
theorem C4_parse_url_witness :
    (ParseULPURL demoLib.hexErrText (ascii "ulp://" ++ List.replicate 64 70)).1.String
      = List.replicate 64 102 ∧
    ParseULPURL demoLib.hexErrText (ascii " ab12 ")
      = (RID.zero, some (ascii "invalid RID length: got 2, want 32")) :=
  ⟨by
    have h := (C4_parse_url demoLib.hexErrText (ascii "ulp://" ++ List.replicate 64 70)).2.2.2.1
      (by decide)
    rw [h]; decide,
   (C4_parse_url demoLib.hexErrText (ascii " ab12 ")).2.2.2.2.2.2.1 [171, 18]
     (by decide) (by decide)⟩

/-- C5. For every mapping from names to byte blobs, `canonicalizeDotfiles`
returns exactly the concatenation, over the entries in ascending
bytewise-lexicographic order of their names, of name ++ `=` ++ blob ++ line
feed: one segment per name, nothing before, between or after. Such an
ascending listing exists for every mapping, and the empty mapping gives the
empty byte sequence. -/
theorem C5_canonical_form (files : GoMap Bytes Bytes) (hnd : files.keys.Nodup) :
    (∃ entries : GoMap Bytes Bytes,
      entries.Perm files ∧ entries.Sorted (fun e f => StrLT e.1 f.1)) ∧
    (∀ entries : GoMap Bytes Bytes,
      entries.Perm files → entries.Sorted (fun e f => StrLT e.1 f.1) →
      canonicalizeDotfiles files
        = (entries.map (fun e => e.1 ++ ascii "=" ++ e.2 ++ ascii "\n")).flatten) ∧
    canonicalizeDotfiles [] = [] :=
  ⟨exists_sorted_entries files hnd,
   fun entries hp hs => canonicalizeDotfiles_eq files entries hnd hp hs,
   rfl⟩

/-- Witness for C5: a two-entry map listed in descending order. -/
theorem C5_canonical_form_witness :
    canonicalizeDotfiles [(ascii ".env", ascii "Z"), (ascii ".atom", ascii "X")]
      = ascii ".atom=X\n.env=Z\n" := by
  have h := (C5_canonical_form [(ascii ".env", ascii "Z"), (ascii ".atom", ascii "X")]
    (by decide)).2.1 [(ascii ".atom", ascii "X"), (ascii ".env", ascii "Z")]
    (List.Perm.swap _ _ _)
    (by
      unfold List.Sorted
      refine List.Pairwise.cons ?_ (List.Pairwise.cons (by simp) List.Pairwise.nil)
      intro e he
      have e1 : e = (ascii ".env", ascii "Z") := by simpa using he
      subst e1
      exact (strLE_iff _ _).1 (by decide) |>.resolve_left (by decide))
  rw [h]
  decide

/-- C6. Canonicalisation does not depend on the order in which the entries
are listed: two listings of the same (name, blob) pairs with pairwise
distinct names, one a permutation of the other, give identical bytes and so
an identical SHA-256; in particular any listing of the dotfiles of a world
that `LoadWorld` returned hashes to the WID that `LoadWorld` computed. -/
theorem C6_order_independent (L : Lib) (l1 l2 : GoMap Bytes Bytes) (hnd : l1.keys.Nodup)
    (hp : l1.Perm l2) :
    canonicalizeDotfiles l1 = canonicalizeDotfiles l2 ∧
    L.sha256 (canonicalizeDotfiles l1) = L.sha256 (canonicalizeDotfiles l2) ∧
    (∀ (dir : Bytes → Except Bytes Bytes) (ball : WorldBall),
      LoadWorld L dir = .ok ball → ball.Dotfiles.Perm l1 →
      L.sha256 (canonicalizeDotfiles l2) = ball.WID) := by
  have h := canonicalizeDotfiles_perm l1 l2 hnd hp
  refine ⟨h, by rw [h], ?_⟩
  intro dir ball hb hperm
  rw [LoadWorld_ok L dir (LoadWorld_readable L dir ball hb)] at hb
  injection hb with hb
  subst hb
  simp only at hperm ⊢
  have hnd0 : (dotfilesOf dir).keys.Nodup := (hperm.map Prod.fst).nodup_iff.2 hnd
  rw [canonicalizeDotfiles_perm (dotfilesOf dir) l2 hnd0 (hperm.trans hp)]

/-- Witness for C6: three entries listed in two orders. -/
theorem C6_order_independent_witness :
    canonicalizeDotfiles [(ascii ".b", ascii "2"), (ascii ".a", ascii "1"), (ascii ".c", [])]
      = canonicalizeDotfiles
          [(ascii ".a", ascii "1"), (ascii ".b", ascii "2"), (ascii ".c", [])] :=
  (C6_order_independent demoLib
    [(ascii ".b", ascii "2"), (ascii ".a", ascii "1"), (ascii ".c", [])]
    [(ascii ".a", ascii "1"), (ascii ".b", ascii "2"), (ascii ".c", [])]
    (by decide) (List.Perm.swap _ _ _)).1

/-- C7. The canonical encoding is not collision-proof: the worlds `worldA`
(`.atom` = `X`, line feed, `.env=Y`; `.env` = `Z`) and `worldB` (`.atom` =
`X`; `.env` = `Y`, line feed, `.env=Z`) load into two different mappings over
the same 13 required names, `canonicalizeDotfiles` returns identical bytes
for both, and `LoadWorld` gives both the same WID. -/
theorem C7_collision (L : Lib) :
    ∃ a b : WorldBall,
      LoadWorld L worldA = .ok a ∧ LoadWorld L worldB = .ok b ∧
      a.Dotfiles.keys = b.Dotfiles.keys ∧ a.Dotfiles.keys.Perm required ∧
      a.Dotfiles.get (ascii ".atom") = some (ascii "X\n.env=Y") ∧
      b.Dotfiles.get (ascii ".atom") = some (ascii "X") ∧
      a.Dotfiles.get (ascii ".env") = some (ascii "Z") ∧
      b.Dotfiles.get (ascii ".env") = some (ascii "Y\n.env=Z") ∧
      a.Dotfiles ≠ b.Dotfiles ∧
      canonicalizeDotfiles a.Dotfiles = canonicalizeDotfiles b.Dotfiles ∧
      a.WID = b.WID := by
  have ra : ∀ x ∈ required, Readable worldA x := by
    have h : ∀ x ∈ required, worldA x = .ok (contents worldA x) := by decide
    exact fun x hx => ⟨_, h x hx⟩
  have rb : ∀ x ∈ required, Readable worldB x := by
    have h : ∀ x ∈ required, worldB x = .ok (contents worldB x) := by decide
    exact fun x hx => ⟨_, h x hx⟩
  have hc : canonicalizeDotfiles (dotfilesOf worldA)
      = canonicalizeDotfiles (dotfilesOf worldB) := by decide
  refine ⟨_, _, LoadWorld_ok L worldA ra, LoadWorld_ok L worldB rb, ?_, ?_, ?_, ?_, ?_, ?_, ?_,
    hc, ?_⟩
  · simp only [dotfilesOf_keys]
  · simp only [dotfilesOf_keys]; exact List.reverse_perm _
  · show (dotfilesOf worldA).get (ascii ".atom") = some (ascii "X\n.env=Y")
    decide
  · show (dotfilesOf worldB).get (ascii ".atom") = some (ascii "X")
    decide
  · show (dotfilesOf worldA).get (ascii ".env") = some (ascii "Z")
    decide
  · show (dotfilesOf worldB).get (ascii ".env") = some (ascii "Y\n.env=Z")
    decide
  · show dotfilesOf worldA ≠ dotfilesOf worldB
    decide
  · simp only [hc]

/-- C8. When at least one of the 13 required dotfile names cannot be read in
a world directory, `LoadWorld` returns an error and no `WorldBall`; the error
text is `missing dotfile ` + the first unreadable name in the order of the
required list + `: ` + the read error. Conversely `LoadWorld` returns a
`WorldBall` whenever all 13 can be read. -/
theorem C8_missing_dotfile (L : Lib) (dir : Bytes → Except Bytes Bytes) :
    required =
      [ascii ".genesis", ascii ".env", ascii ".schema", ascii ".atom", ascii ".manifest",
       ascii ".sequence", ascii ".include", ascii ".ignore", ascii ".interrupt",
       ascii ".procedure", ascii ".view", ascii ".record", ascii ".symmetry"] ∧
    ((∃ x ∈ required, ∃ e, dir x = .error e) →
      ∃ pre n post e, required = pre ++ n :: post ∧ (∀ x ∈ pre, Readable dir x) ∧
        dir n = .error e ∧
        LoadWorld L dir = .error (ascii "missing dotfile " ++ n ++ ascii ": " ++ e)) ∧
    (∀ pre n post e, required = pre ++ n :: post → (∀ x ∈ pre, Readable dir x) →
      dir n = .error e →
      LoadWorld L dir = .error (ascii "missing dotfile " ++ n ++ ascii ": " ++ e)) ∧
    ((∀ x ∈ required, Readable dir x) → ∃ ball, LoadWorld L dir = .ok ball) := by
  refine ⟨rfl, ?_, ?_, ?_⟩
  · rintro ⟨x, hx, e, he⟩
    have hnr : ¬ Readable dir x := by
      rintro ⟨d, hd⟩
      rw [hd] at he
      exact absurd he (by simp)
    obtain ⟨pre, n, post, e1, h1, h2, h3⟩ := exists_first_missing dir required ⟨x, hx, hnr⟩
    exact ⟨pre, n, post, e1, h1, h2, h3, LoadWorld_error L dir pre n post e1 h1 h2 h3⟩
  · exact fun pre n post e h1 h2 h3 => LoadWorld_error L dir pre n post e h1 h2 h3
  · exact fun h => ⟨_, LoadWorld_ok L dir h⟩

/-- Witness for C8: with `.schema` and `.view` absent the error names `.schema`. -/
theorem C8_missing_dotfile_witness :
    LoadWorld demoLib brokenDir = .error (ascii "missing dotfile .schema: no such file") :=
  (C8_missing_dotfile demoLib brokenDir).2.2.1
    [ascii ".genesis", ascii ".env"] (ascii ".schema")
    [ascii ".atom", ascii ".manifest", ascii ".sequence", ascii ".include", ascii ".ignore",
     ascii ".interrupt", ascii ".procedure", ascii ".view", ascii ".record",
     ascii ".symmetry"]
    (ascii "no such file") (by decide)
    (by
      intro x hx
      have h : ∀ y ∈ [ascii ".genesis", ascii ".env"], brokenDir y = .ok (ascii "x") := by
        decide
      exact ⟨_, h x hx⟩)
    (by decide)

/-- C9. Every `WorldBall` returned by `LoadWorld` is fully formed: the keys of
its `Dotfiles` are exactly the 13 required names, each once; each is mapped
to the bytes read for that name; no other name is a key; its WID is the
SHA-256 of `canonicalizeDotfiles(Dotfiles)`; and a directory that agrees on
the 13 required names gives the same result whatever else it holds. -/
theorem C9_fully_formed (L : Lib) (dir : Bytes → Except Bytes Bytes) (ball : WorldBall)
    (h : LoadWorld L dir = .ok ball) :
    ball.Dotfiles.keys.Perm required ∧ ball.Dotfiles.keys.Nodup ∧
    ball.Dotfiles.length = 13 ∧
    (∀ n ∈ required, ∃ d, dir n = .ok d ∧ ball.Dotfiles.get n = some d) ∧
    (∀ n, n ∉ required → ball.Dotfiles.get n = none) ∧
    ball.WID = L.sha256 (canonicalizeDotfiles ball.Dotfiles) ∧
    (∀ dir2 : Bytes → Except Bytes Bytes, (∀ n ∈ required, dir2 n = dir n) →
      LoadWorld L dir2 = .ok ball) := by
  have hr := LoadWorld_readable L dir ball h
  have h0 := h
  rw [LoadWorld_ok L dir hr] at h
  injection h with h
  subst h
  have hk := dotfilesOf_keys dir
  have hnd : (dotfilesOf dir).keys.Nodup := by
    rw [hk]; exact List.nodup_reverse.2 required_nodup
  refine ⟨by rw [hk]; exact List.reverse_perm _, hnd, ?_, ?_, ?_, rfl, ?_⟩
  · simp [dotfilesOf, required]
  · intro n hn
    obtain ⟨d, hd⟩ := hr n hn
    refine ⟨d, hd, ?_⟩
    apply GoMap.get_of_mem _ hnd
    have hc : contents dir n = d := by simp [contents, hd]
    simp only [dotfilesOf, List.mem_reverse, List.mem_map]
    exact ⟨n, hn, by rw [hc]⟩
  · intro n hn
    apply GoMap.get_absent
    rw [hk]
    simpa using hn
  · intro dir2 hagree
    unfold LoadWorld
    rw [readDotfiles_congr dir2 dir required [] hagree]
    exact h0

/-- Witness for C9: the world whose dotfiles hold their own names. -/
theorem C9_fully_formed_witness :
    ∃ ball, LoadWorld demoLib demoDir = .ok ball ∧ ball.Dotfiles.length = 13 ∧
      ball.Dotfiles.get (ascii ".view") = some (ascii ".view") := by
  have hr : ∀ x ∈ required, demoDir x = .ok x := by decide
  have h := LoadWorld_ok demoLib demoDir (fun x hx => ⟨x, hr x hx⟩)
  refine ⟨_, h, (C9_fully_formed demoLib demoDir _ h).2.2.1, ?_⟩
  obtain ⟨d, hd, hg⟩ := (C9_fully_formed demoLib demoDir _ h).2.2.2.1 (ascii ".view") (by decide)
  rw [hr _ (by decide)] at hd
  injection hd with hd
  rw [hg, hd]

/-- C10 as stated fails: after a successful `LoadWorld` next to the fresh
peer, looking the computed WID up in the peer's `worlds` table finds nothing. -/
theorem C10_counterexample :
    ∃ ball, (LoadWorldAt demoLib demoDir NewULPPeer).2 = .ok ball ∧
      (LoadWorldAt demoLib demoDir NewULPPeer).1.worlds.get ball.WID = none := by
  have hr : ∀ x ∈ required, demoDir x = .ok x := by decide
  exact ⟨_, LoadWorld_ok demoLib demoDir (fun x hx => ⟨x, hr x hx⟩), rfl⟩

/-- C10, amended. A successful `LoadWorld` hands the `WorldBall` to its caller
only: it leaves the peer as it was, and since no other call writes the
`worlds` table either, in every peer state reached from `NewULPPeer` by
`LoadRecord` and `LoadWorld` calls the table is empty and a lookup by the
computed WID finds nothing. -/
theorem C10_worlds_never_written (L : Lib) (fs : Bytes → Except Bytes Bytes)
    (calls : List Call) (dir : Bytes → Except Bytes Bytes) (ball : WorldBall)
    (h : LoadWorld L dir = .ok ball) :
    (LoadWorldAt L dir (runCalls L fs NewULPPeer calls)).2 = .ok ball ∧
    (LoadWorldAt L dir (runCalls L fs NewULPPeer calls)).1 = runCalls L fs NewULPPeer calls ∧
    (runCalls L fs NewULPPeer calls).worlds = [] ∧
    (LoadWorldAt L dir (runCalls L fs NewULPPeer calls)).1.worlds.get ball.WID = none := by
  have inv : ∀ (cs : List Call) (p : ULPPeer), p.worlds = [] →
      (runCalls L fs p cs).worlds = [] := by
    intro cs
    induction cs with
    | nil => intro p hp; exact hp
    | cons c rest ih =>
      intro p hp
      apply ih
      cases c with
      | loadRecord tracePath =>
        simp only [Call.run, LoadRecord]
        cases fs tracePath <;> exact hp
      | loadWorld d => exact hp
  have hw := inv calls NewULPPeer rfl
  refine ⟨h, rfl, hw, ?_⟩
  show (runCalls L fs NewULPPeer calls).worlds.get ball.WID = none
  rw [hw]
  rfl

/-- Witness for C10 (amended): a record and a world are loaded, then the
world is loaded again. -/
theorem C10_worlds_never_written_witness :
    (runCalls demoLib demoFs NewULPPeer
      [Call.loadRecord (ascii "b/trace.log"), Call.loadWorld demoDir]).worlds = [] := by
  have hr : ∀ x ∈ required, demoDir x = .ok x := by decide
  exact (C10_worlds_never_written demoLib demoFs
    [Call.loadRecord (ascii "b/trace.log"), Call.loadWorld demoDir] demoDir _
    (LoadWorld_ok demoLib demoDir (fun x hx => ⟨x, hr x hx⟩))).2.2.1

/-- C11. In the archive peer's `extractPolicyFromTrace`, every trace that
holds no `POLICY`/`e8l` data line, or no `POLICY`/`e8r` data line (a data
line having at least three tab-separated fields), makes extraction fail with
the missing-policy error: no `PolicyMetadata` is returned. -/
theorem C11_missing_labels (L : Lib) (trace : Bytes)
    (h : (∀ line ∈ traceLines trace, ¬ DataLine (ascii "POLICY") (ascii "e8l") line) ∨
      (∀ line ∈ traceLines trace, ¬ DataLine (ascii "POLICY") (ascii "e8r") line)) :
    extractPolicyFromTrace L trace = none := by
  unfold extractPolicyFromTrace
  unfold traceLines at h
  rcases h with h | h
  · have e := fold_frame_scalar L .e8l (splitOn 10 trace) PolicyMetadata.empty h
    have e1 : ((splitOn 10 trace).foldl (policyLine L) PolicyMetadata.empty).E8L = [] := e
    simp [e1]
  · have e := fold_frame_scalar L .e8r (splitOn 10 trace) PolicyMetadata.empty h
    have e1 : ((splitOn 10 trace).foldl (policyLine L) PolicyMetadata.empty).E8R = [] := e
    simp [e1]

/-- Witness for C11: `e8l` is present, `e8r` is absent. -/
theorem C11_missing_labels_witness :
    extractPolicyFromTrace arrayLib (ascii "hello\nPOLICY\te8l\tx\nPOLICY\te8r\n") = none :=
  C11_missing_labels arrayLib (ascii "hello\nPOLICY\te8l\tx\nPOLICY\te8r\n")
    (Or.inr (by
      have h : ∀ line ∈ traceLines (ascii "hello\nPOLICY\te8l\tx\nPOLICY\te8r\n"),
          isDataLine (ascii "POLICY") (ascii "e8r") line = false := by decide
      intro line hl hd
      rw [isDataLine_iff, h line hl] at hd
      exact absurd hd (by decide)))

/-- C12, the code at the failing input: on the trace of the one line
`POLICY`, `e8l`, `x`, which holds no `e8r` line, the p2p server's and the
trustee's `extractPolicy` succeed with an empty `E8R`, while the archive
peer's `extractPolicyFromTrace` fails on the same trace. -/
theorem C12_e8r_not_checked (L : Lib) :
    (∀ line ∈ traceLines (ascii "POLICY\te8l\tx\n"),
      isDataLine (ascii "POLICY") (ascii "e8r") line = false) ∧
    P2P.extractPolicy L (ascii "POLICY\te8l\tx\n")
      = .ok ⟨ascii "x", [], [], [], [], [], []⟩ ∧
    Trustee.extractPolicy L (ascii "POLICY\te8l\tx\n")
      = some ⟨ascii "x", [], [], [], [], [], []⟩ ∧
    extractPolicyFromTrace L (ascii "POLICY\te8l\tx\n") = none :=
  ⟨by decide, rfl, rfl, rfl⟩

/-- C13 as stated fails: the text `null` is no JSON array of integers, the
decoder accepts it without error, and the p2p server's extraction of a trace
with the line `REPLICA`, `slots`, `null` succeeds. -/
theorem C13_counterexample :
    isDataLine (ascii "REPLICA") (ascii "slots") (ascii "REPLICA\tslots\tnull") = true ∧
    restText (ascii "REPLICA\tslots\tnull") = ascii "null" ∧
    jsonIntArray (ascii "null") = none ∧
    P2P.extractPolicy jsonLib (ascii "POLICY\te8l\tx\nREPLICA\tslots\tnull\n")
      = .ok ⟨ascii "x", [], [], [], [], [], []⟩ := by
  decide

/-- C13, amended. In the p2p server's `extractPolicy`, a trace that holds a
`REPLICA`/`slots` data line whose fields from the third onward, re-joined
with tabs, the JSON decoder refuses with an error, makes the whole extraction
fail with an error that reads `invalid replica slots: ` + the decoder's
error, whatever the other lines are. -/
theorem C13_p2p_malformed_slots (L : Lib) (trace line f2 : Bytes) (more : List Bytes)
    (hmem : line ∈ traceLines trace)
    (hline : splitOn 9 line = ascii "REPLICA" :: ascii "slots" :: f2 :: more)
    (hbad : ∀ old, (L.jsonUnmarshalInts (joinWith 9 (f2 :: more)) old).2 ≠ none) :
    ∃ err, P2P.extractPolicy L trace = .error (ascii "invalid replica slots: " ++ err) := by
  have hr := restText_eq line _ _ f2 more hline
  obtain ⟨err, he⟩ := P2P.policyLines_bad L line ⟨f2, more, hline⟩ (by rw [hr]; exact hbad)
    (traceLines trace) PolicyMetadata.empty hmem
  refine ⟨err, ?_⟩
  unfold P2P.extractPolicy
  unfold traceLines at he
  rw [he]

/-- Witness for C13: valid labels before and a valid line after the
malformed array. -/
theorem C13_p2p_malformed_slots_witness :
    ∃ err, P2P.extractPolicy arrayLib
      (ascii "POLICY\te8l\tx\nPOLICY\te8r\ty\nREPLICA\tslots\t[1,\nGEOMETRY\tincidence\tz\n")
      = .error (ascii "invalid replica slots: " ++ err) :=
  C13_p2p_malformed_slots arrayLib
    (ascii "POLICY\te8l\tx\nPOLICY\te8r\ty\nREPLICA\tslots\t[1,\nGEOMETRY\tincidence\tz\n")
    (ascii "REPLICA\tslots\t[1,") (ascii "[1,") [] (by decide) (by decide)
    (by
      intro old
      have e : readIntArray (joinWith 9 [ascii "[1,"]) = none := by decide
      simp [arrayLib, e])

/-- C14, the code at the failing input: on a trace with valid `e8l` and
`e8r` lines and a `REPLICA`/`slots` line whose array the decoder refuses, the
archive peer's `extractPolicyFromTrace` and the trustee's `extractPolicy`
return the policy with the labels and no slots, the error being dropped,
while the p2p server's `extractPolicy` returns the error. -/
theorem C14_error_dropped :
    isDataLine (ascii "REPLICA") (ascii "slots") (ascii "REPLICA\tslots\t[1,") = true ∧
    jsonIntArray (restText (ascii "REPLICA\tslots\t[1,")) = none ∧
    (jsonLib.jsonUnmarshalInts (restText (ascii "REPLICA\tslots\t[1,")) []).2
      = some (ascii "invalid character") ∧
    extractPolicyFromTrace jsonLib
      (ascii "POLICY\te8l\tx\nPOLICY\te8r\ty\nREPLICA\tslots\t[1,\n")
      = some ⟨ascii "x", ascii "y", [], [], [], [], []⟩ ∧
    Trustee.extractPolicy jsonLib
      (ascii "POLICY\te8l\tx\nPOLICY\te8r\ty\nREPLICA\tslots\t[1,\n")
      = some ⟨ascii "x", ascii "y", [], [], [], [], []⟩ ∧
    P2P.extractPolicy jsonLib
      (ascii "POLICY\te8l\tx\nPOLICY\te8r\ty\nREPLICA\tslots\t[1,\n")
      = .error (ascii "invalid replica slots: invalid character") := by
  decide

/-- How far the dropped error reaches in the archive peer's
`extractPolicyFromTrace`: a `REPLICA`/`slots` data line whose array the
decoder refuses has no effect at all, the extraction of a trace with such a
line put in at any position being the extraction of the trace without it;
and whenever the last `e8l` line and the last `e8r` line carry non-empty
values the extraction succeeds with them, whatever slots lines the trace
holds. -/
theorem archive_skips_malformed_slots (L : Lib) (trace : Bytes) (pre post : List Bytes)
    (hlines : traceLines trace = pre ++ post) :
    (∀ (line f2 : Bytes) (more : List Bytes), (10 : Byte) ∉ line →
      splitOn 9 line = ascii "REPLICA" :: ascii "slots" :: f2 :: more →
      (L.jsonUnmarshalInts (joinWith 9 (f2 :: more)) []).2 ≠ none →
      extractPolicyFromTrace L (joinWith 10 (pre ++ line :: post))
        = extractPolicyFromTrace L trace) ∧
    (∀ (l r : Bytes), l ≠ [] → r ≠ [] →
      (∃ a b c, traceLines trace = a ++ b :: c ∧
        DataLine (ascii "POLICY") (ascii "e8l") b ∧ thirdField b = l ∧
        ∀ x ∈ c, ¬ DataLine (ascii "POLICY") (ascii "e8l") x) →
      (∃ a b c, traceLines trace = a ++ b :: c ∧
        DataLine (ascii "POLICY") (ascii "e8r") b ∧ thirdField b = r ∧
        ∀ x ∈ c, ¬ DataLine (ascii "POLICY") (ascii "e8r") x) →
      ∃ pol, extractPolicyFromTrace L trace = some pol ∧ pol.E8L = l ∧ pol.E8R = r) := by
  constructor
  · intro line f2 more hnl hline hbad
    apply extractPolicyFromTrace_insert L trace pre post line hlines hnl
    intro q
    rw [policyLine_slots L q line ⟨f2, more, hline⟩, restText_eq line _ _ f2 more hline]
    generalize L.jsonUnmarshalInts (joinWith 9 (f2 :: more)) [] = res at hbad
    obtain ⟨s, e⟩ := res
    cases e with
    | none => exact absurd rfl hbad
    | some _ => rfl
  · rintro l r hl hr ⟨a, b, c, h1, h2, h3, h4⟩ ⟨a1, b1, c1, g1, g2, g3, g4⟩
    have e1 := fold_last_scalar L .e8l a c b PolicyMetadata.empty h2 h4
    have e2 := fold_last_scalar L .e8r a1 c1 b1 PolicyMetadata.empty g2 g4
    rw [← h1, h3] at e1
    rw [← g1, g3] at e2
    unfold traceLines at e1 e2
    have e3 : ((splitOn 10 trace).foldl (policyLine L) PolicyMetadata.empty).E8L = l := e1
    have e4 : ((splitOn 10 trace).foldl (policyLine L) PolicyMetadata.empty).E8R = r := e2
    refine ⟨_, ?_, e3, e4⟩
    unfold extractPolicyFromTrace
    simp [e3, e4, hl, hr]

/-- An instance of the above: the malformed line is put in after the labels. -/
theorem archive_skips_malformed_slots_instance :
    extractPolicyFromTrace arrayLib
      (joinWith 10 ([ascii "POLICY\te8l\tx", ascii "POLICY\te8r\ty"] ++
        ascii "REPLICA\tslots\t[1," :: [[]]))
      = extractPolicyFromTrace arrayLib (ascii "POLICY\te8l\tx\nPOLICY\te8r\ty\n") :=
  (archive_skips_malformed_slots arrayLib (ascii "POLICY\te8l\tx\nPOLICY\te8r\ty\n")
    [ascii "POLICY\te8l\tx", ascii "POLICY\te8r\ty"] [[]] (by decide)).1
    (ascii "REPLICA\tslots\t[1,") (ascii "[1,") [] (by decide) (by decide) (by decide)

/-- C15. Last write wins: when a trace on which extraction succeeds holds a
data line of a recognised key and no data line of that key below it, the
extracted field is the value of that line, whatever lines stand above it.
For the six scalar keys the value is the third field; for `REPLICA`/`slots`
it is the decoded array, where the archive peer passes over the slots lines
the decoder refuses and the p2p server has none of those on success. -/
theorem C15_last_write_wins (L : Lib) (trace : Bytes) (pre post : List Bytes) (l : Bytes)
    (hlines : traceLines trace = pre ++ l :: post) :
    (∀ (k : Scalar) (v : Bytes) (more : List Bytes),
      splitOn 9 l = k.sec :: k.key :: v :: more →
      (∀ x ∈ post, ¬ DataLine k.sec k.key x) →
      (∀ pol, extractPolicyFromTrace L trace = some pol → pol.scalar k = v) ∧
      (∀ pol, P2P.extractPolicy L trace = .ok pol → pol.scalar k = v)) ∧
    (∀ (f2 : Bytes) (more : List Bytes) (s : List Int),
      splitOn 9 l = ascii "REPLICA" :: ascii "slots" :: f2 :: more →
      (L.jsonUnmarshalInts (joinWith 9 (f2 :: more)) [] = (s, none) →
        (∀ x ∈ post, SlotsLine x → (L.jsonUnmarshalInts (restText x) []).2 ≠ none) →
        ∀ pol, extractPolicyFromTrace L trace = some pol → pol.Slots = s) ∧
      ((∀ old, L.jsonUnmarshalInts (joinWith 9 (f2 :: more)) old = (s, none)) →
        (∀ x ∈ post, ¬ SlotsLine x) →
        ∀ pol, P2P.extractPolicy L trace = .ok pol → pol.Slots = s)) := by
  constructor
  · intro k v more hsplit hpost
    have hd : DataLine k.sec k.key l := ⟨v, more, hsplit⟩
    have hv := thirdField_eq l _ _ v more hsplit
    constructor
    · intro pol hpol
      rw [extractPolicyFromTrace_some L trace pol hpol, hlines,
        fold_last_scalar L k pre post l _ hd hpost, hv]
    · intro pol hpol
      have h1 := P2P.extractPolicy_ok L trace pol hpol
      rw [hlines] at h1
      rw [P2P.policyLines_last_scalar L k pre post l _ pol h1 hd hpost, hv]
  · intro f2 more s hsplit
    have hd : SlotsLine l := ⟨f2, more, hsplit⟩
    have hr := restText_eq l _ _ f2 more hsplit
    constructor
    · intro hs hpost pol hpol
      rw [extractPolicyFromTrace_some L trace pol hpol, hlines]
      exact fold_last_slots L pre post l _ s hd (by rw [hr]; exact hs) hpost
    · intro hs hpost pol hpol
      have h1 := P2P.extractPolicy_ok L trace pol hpol
      rw [hlines] at h1
      exact P2P.policyLines_last_slots L pre post l _ pol s h1 hd (by rw [hr]; exact hs) hpost

/-- Witness for C15: `chirality` is written twice, the second value is kept. -/
theorem C15_last_write_wins_witness :
    extractPolicyFromTrace arrayLib
      (ascii "POLICY\tchirality\tLEFT\nPOLICY\te8l\tx\nPOLICY\tchirality\tRIGHT\nPOLICY\te8r\ty")
      = some ⟨ascii "x", ascii "y", ascii "RIGHT", [], [], [], []⟩ ∧
    PolicyMetadata.scalar ⟨ascii "x", ascii "y", ascii "RIGHT", [], [], [], []⟩ .chirality
      = ascii "RIGHT" :=
  ⟨by decide,
   ((C15_last_write_wins arrayLib
    (ascii "POLICY\tchirality\tLEFT\nPOLICY\te8l\tx\nPOLICY\tchirality\tRIGHT\nPOLICY\te8r\ty")
    [ascii "POLICY\tchirality\tLEFT", ascii "POLICY\te8l\tx"] [ascii "POLICY\te8r\ty"]
    (ascii "POLICY\tchirality\tRIGHT") (by decide)).1
    .chirality (ascii "RIGHT") [] (by decide)
    (by
      have h : ∀ x ∈ [ascii "POLICY\te8r\ty"],
          isDataLine (ascii "POLICY") (ascii "chirality") x = false := by decide
      intro x hx hd
      have hd1 : DataLine (ascii "POLICY") (ascii "chirality") x := hd
      rw [isDataLine_iff, h x hx] at hd1
      exact absurd hd1 (by decide))).1
    ⟨ascii "x", ascii "y", ascii "RIGHT", [], [], [], []⟩ (by decide)⟩

/-- C16. Irrelevant lines are ignored: putting a line without line feed that
has fewer than three tab-separated fields, or whose (section, key) pair is
none of the seven recognised pairs, into a trace as an additional line at any
position leaves the result of policy extraction, the `PolicyMetadata` or the
failure, as it was; this holds for the archive peer and the p2p server. -/
theorem C16_irrelevant_lines (L : Lib) (trace : Bytes) (pre post : List Bytes) (line : Bytes)
    (hlines : traceLines trace = pre ++ post) (hnl : (10 : Byte) ∉ line)
    (hirr : Irrelevant line) :
    traceLines (joinWith 10 (pre ++ line :: post)) = pre ++ line :: post ∧
    extractPolicyFromTrace L (joinWith 10 (pre ++ line :: post))
      = extractPolicyFromTrace L trace ∧
    P2P.extractPolicy L (joinWith 10 (pre ++ line :: post)) = P2P.extractPolicy L trace :=
  ⟨traceLines_insert trace pre post line hlines hnl,
   extractPolicyFromTrace_insert L trace pre post line hlines hnl
     (fun q => policyLine_irrelevant L q line hirr),
   P2P.extractPolicy_insert L trace pre post line hlines hnl
     (fun q => P2P.serverLine_irrelevant L q line hirr)⟩

/-- Witness for C16: a line of an unknown section is put between the labels. -/
theorem C16_irrelevant_lines_witness :
    extractPolicyFromTrace arrayLib
      (joinWith 10 ([ascii "POLICY\te8l\tx"] ++ ascii "NOTE\te8l\tz" ::
        [ascii "POLICY\te8r\ty"]))
      = extractPolicyFromTrace arrayLib (ascii "POLICY\te8l\tx\nPOLICY\te8r\ty") :=
  (C16_irrelevant_lines arrayLib (ascii "POLICY\te8l\tx\nPOLICY\te8r\ty")
    [ascii "POLICY\te8l\tx"] [ascii "POLICY\te8r\ty"] (ascii "NOTE\te8l\tz")
    (by decide) (by decide)
    (Or.inr (by
      intro f0 f1 f2 more hs
      have e : splitOn 9 (ascii "NOTE\te8l\tz") = [ascii "NOTE", ascii "e8l", ascii "z"] := by
        decide
      rw [e] at hs
      injection hs with h0 hs
      injection hs with h1 hs
      rw [← h0, ← h1]
      decide))).2.1

/-- C20. Policy failure is not fatal to loading: for a blob `B` read
successfully, the archive peer's `LoadRecord` returns and stores under
`SHA256(B)` the record with that RID, the bytes `B` and the result of policy
extraction, which is no policy when extraction fails; the p2p server's
`loadRecord` returns no error and stores the same record, with no policy when
its extraction fails and with the extracted policy when it succeeds. -/
theorem C20_policy_failure_not_fatal (L : Lib) (fs : Bytes → Except Bytes Bytes)
    (path B : Bytes) (hB : fs path = .ok B) :
    (∀ p : ULPPeer,
      (extractPolicyFromTrace L B = none →
        (LoadRecord L fs p path).2 = .ok ⟨L.sha256 B, B, none⟩ ∧
        (LoadRecord L fs p path).1.records.get (L.sha256 B) = some ⟨L.sha256 B, B, none⟩) ∧
      (∀ pol, extractPolicyFromTrace L B = some pol →
        (LoadRecord L fs p path).2 = .ok ⟨L.sha256 B, B, some pol⟩ ∧
        (LoadRecord L fs p path).1.records.get (L.sha256 B)
          = some ⟨L.sha256 B, B, some pol⟩)) ∧
    (∀ s : P2P.TestamentServer,
      (P2P.loadRecord L fs s path).2 = none ∧
      (∀ e, P2P.extractPolicy L B = .error e →
        (P2P.loadRecord L fs s path).1.records.get (L.sha256 B)
          = some ⟨L.sha256 B, B, none⟩) ∧
      (∀ pol, P2P.extractPolicy L B = .ok pol →
        (P2P.loadRecord L fs s path).1.records.get (L.sha256 B)
          = some ⟨L.sha256 B, B, some pol⟩)) := by
  constructor
  · intro p
    unfold LoadRecord
    rw [hB]
    constructor
    · intro h
      simp only [h]
      exact ⟨trivial, GoMap.get_set_self _ _ _⟩
    · intro pol h
      simp only [h]
      exact ⟨trivial, GoMap.get_set_self _ _ _⟩
  · intro s
    unfold P2P.loadRecord
    rw [hB]
    refine ⟨rfl, ?_, ?_⟩
    · intro e h
      simp only [h]
      exact GoMap.get_set_self _ _ _
    · intro pol h
      simp only [h]
      exact GoMap.get_set_self _ _ _

/-- Witness for C20: a trace without labels is loaded without policy. -/
theorem C20_policy_failure_not_fatal_witness :
    (LoadRecord arrayLib demoFs NewULPPeer (ascii "b/trace.log")).2
      = .ok ⟨arrayLib.sha256 (ascii "hello"), ascii "hello", none⟩ :=
  (((C20_policy_failure_not_fatal arrayLib demoFs (ascii "b/trace.log") (ascii "hello")
    (by decide)).1 NewULPPeer).1 (by decide)).1

/-- C18. `RouteToPeers` returns the input sequence reversed when the RID's
record exists, has a policy and its chirality is exactly `RIGHT`; in every
other case (record absent, no policy, any other chirality) it returns the
peers in the order of the input; the input sequence is not modified. -/
theorem C18_route_to_peers (p : ULPPeer) (rid : RID) (peers : List PeerID) :
    (∀ record policy, p.records.get rid = some record → record.Policy = some policy →
      policy.Chirality = ascii "RIGHT" → (RouteToPeers p rid peers).1 = peers.reverse) ∧
    (p.records.get rid = none → (RouteToPeers p rid peers).1 = peers) ∧
    (∀ record, p.records.get rid = some record → record.Policy = none →
      (RouteToPeers p rid peers).1 = peers) ∧
    (∀ record policy, p.records.get rid = some record → record.Policy = some policy →
      policy.Chirality ≠ ascii "RIGHT" → (RouteToPeers p rid peers).1 = peers) ∧
    (RouteToPeers p rid peers).2 = peers := by
  unfold RouteToPeers
  refine ⟨?_, ?_, ?_, ?_, ?_⟩
  · intro record policy h1 h2 h3
    simp only [h1, h2, h3, if_true]
    exact reverseLoop_reverse peers
  · intro h1
    simp only [h1]
  · intro record h1 h2
    simp only [h1, h2]
  · intro record policy h1 h2 h3
    simp only [h1, h2, h3, if_false]
  · cases p.records.get rid with
    | none => rfl
    | some record =>
      cases hp : record.Policy with
      | none => simp only [hp]
      | some policy =>
        by_cases hc : policy.Chirality = ascii "RIGHT"
        · simp only [hp, hc, if_true]
        · simp only [hp, hc, if_false]

/-- Witness for C18: three peers are routed for a record of chirality `RIGHT`. -/
theorem C18_route_to_peers_witness :
    (RouteToPeers demoPeer RID.zero [ascii "A", ascii "B", ascii "C"]).1
      = [ascii "C", ascii "B", ascii "A"] :=
  (C18_route_to_peers demoPeer RID.zero [ascii "A", ascii "B", ascii "C"]).1
    ⟨RID.zero, ascii "t", some ⟨ascii "x", ascii "y", ascii "RIGHT", [], [], [], [2, 0, 2]⟩⟩
    ⟨ascii "x", ascii "y", ascii "RIGHT", [], [], [], [2, 0, 2]⟩ (by decide) rfl rfl

/-- C19. `AnnounceReplicaIntent` returns the slot list of the record's policy
as it is (same integers, same order, duplicates kept) when the record exists
and has a policy, and an empty result when the record is absent or has no
policy; the peer and its store are afterwards what they were. -/
theorem C19_announce_replica_intent (p : ULPPeer) (rid : RID) :
    (∀ record policy, p.records.get rid = some record → record.Policy = some policy →
      (AnnounceReplicaIntent p rid).2 = policy.Slots) ∧
    (p.records.get rid = none → (AnnounceReplicaIntent p rid).2 = []) ∧
    (∀ record, p.records.get rid = some record → record.Policy = none →
      (AnnounceReplicaIntent p rid).2 = []) ∧
    (AnnounceReplicaIntent p rid).1 = p := by
  unfold AnnounceReplicaIntent
  refine ⟨?_, ?_, ?_, ?_⟩
  · intro record policy h1 h2
    simp only [h1, h2]
  · intro h1
    simp only [h1]
  · intro record h1 h2
    simp only [h1, h2]
  · cases p.records.get rid with
    | none => rfl
    | some record =>
      cases hp : record.Policy with
      | none => simp only [hp]
      | some policy => simp only [hp]

/-- Witness for C19: the slots of the stored record, a duplicate among them. -/
theorem C19_announce_replica_intent_witness :
    (AnnounceReplicaIntent demoPeer RID.zero).2 = [2, 0, 2] :=
  (C19_announce_replica_intent demoPeer RID.zero).1
    ⟨RID.zero, ascii "t", some ⟨ascii "x", ascii "y", ascii "RIGHT", [], [], [], [2, 0, 2]⟩⟩
    ⟨ascii "x", ascii "y", ascii "RIGHT", [], [], [], [2, 0, 2]⟩ (by decide) rfl

/-- C17. Serialise-then-extract round trip: for non-empty `e8l` and `e8r`,
any `chirality`, `projective`, `causality`, `incidence`, none of the six
holding a tab or a line feed, and a slot array text without line feed that
the JSON decoder reads as the list `s`, extraction from the trace made of the
seven lines of the trace encoding, with or without a final line feed,
succeeds and returns the `PolicyMetadata` whose seven fields are exactly
those values, `Slots` being `s`; this holds for the archive peer and the p2p
server. -/
theorem C17_round_trip (L : Lib) (e8l e8r chirality projective causality incidence
    arr : Bytes) (s : List Int) (hl : e8l ≠ []) (hr : e8r ≠ [])
    (hclean : ∀ v ∈ [e8l, e8r, chirality, projective, causality, incidence],
      (9 : Byte) ∉ v ∧ (10 : Byte) ∉ v)
    (harr : (10 : Byte) ∉ arr) (hjson : L.jsonUnmarshalInts arr [] = (s, none)) :
    extractPolicyFromTrace L
        (joinWith 10 (traceEncoding e8l e8r chirality projective causality incidence arr))
      = some ⟨e8l, e8r, chirality, projective, causality, incidence, s⟩ ∧
    extractPolicyFromTrace L
        (joinWith 10 (traceEncoding e8l e8r chirality projective causality incidence arr)
          ++ ascii "\n")
      = some ⟨e8l, e8r, chirality, projective, causality, incidence, s⟩ ∧
    P2P.extractPolicy L
        (joinWith 10 (traceEncoding e8l e8r chirality projective causality incidence arr))
      = .ok ⟨e8l, e8r, chirality, projective, causality, incidence, s⟩ ∧
    P2P.extractPolicy L
        (joinWith 10 (traceEncoding e8l e8r chirality projective causality incidence arr)
          ++ ascii "\n")
      = .ok ⟨e8l, e8r, chirality, projective, causality, incidence, s⟩ := by
  have htab : ∀ v ∈ [e8l, e8r, chirality, projective, causality, incidence],
      (9 : Byte) ∉ v := fun v hv => (hclean v hv).1
  have hnl := traceEncoding_no_nl e8l e8r chirality projective causality incidence arr
    (fun v hv => (hclean v hv).2) harr
  have hne : traceEncoding e8l e8r chirality projective causality incidence arr ≠ [] := by
    simp [traceEncoding]
  have nl : ascii "\n" = [10] := by decide
  have s1 := splitOn_joinWith 10 _ hne hnl
  have s2 : splitOn 10
      (joinWith 10 (traceEncoding e8l e8r chirality projective causality incidence arr)
        ++ [10])
      = traceEncoding e8l e8r chirality projective causality incidence arr ++ [[]] := by
    rw [← joinWith_append_empty 10 _ hne]
    apply splitOn_joinWith 10 _ (by simp)
    intro x hx
    rcases List.mem_append.1 hx with h | h
    · exact hnl x h
    · have e : x = [] := by simpa using h
      rw [e]; simp
  have f1 := fold_traceEncoding L e8l e8r chirality projective causality incidence arr s
    htab hjson
  have g1 := P2P.policyLines_traceEncoding L e8l e8r chirality projective causality
    incidence arr s [] htab hjson
  have g2 := P2P.policyLines_traceEncoding L e8l e8r chirality projective causality
    incidence arr s [[]] htab hjson
  rw [List.append_nil] at g1
  rw [nl]
  refine ⟨?_, ?_, ?_, ?_⟩
  · unfold extractPolicyFromTrace
    rw [s1, f1]
    simp [hl, hr]
  · unfold extractPolicyFromTrace
    rw [s2, List.foldl_append, f1]
    have e : policyLine L ⟨e8l, e8r, chirality, projective, causality, incidence, s⟩ []
        = ⟨e8l, e8r, chirality, projective, causality, incidence, s⟩ := rfl
    simp [e, hl, hr]
  · unfold P2P.extractPolicy
    rw [s1, g1]
    simp [P2P.policyLines, hl]
  · unfold P2P.extractPolicy
    rw [s2, g2]
    have e : P2P.policyLine L ⟨e8l, e8r, chirality, projective, causality, incidence, s⟩ []
        = .ok ⟨e8l, e8r, chirality, projective, causality, incidence, s⟩ := rfl
    simp [P2P.policyLines, e, hl]

/-- Witness for C17: seven values, the slots `[3,-1,20]`. -/
theorem C17_round_trip_witness :
    extractPolicyFromTrace arrayLib
        (joinWith 10 (traceEncoding (ascii "E8-A") (ascii "E8-B") (ascii "LEFT") (ascii "p")
          (ascii "c") [] (ascii "[3,-1,20]")))
      = some ⟨ascii "E8-A", ascii "E8-B", ascii "LEFT", ascii "p", ascii "c", [],
          [3, -1, 20]⟩ :=
  (C17_round_trip arrayLib (ascii "E8-A") (ascii "E8-B") (ascii "LEFT") (ascii "p")
    (ascii "c") [] (ascii "[3,-1,20]") [3, -1, 20] (by decide) (by decide) (by decide)
    (by decide) (by decide)).1

/-- C21. Store invariant: in every store reached from the empty store by a
sequence of `LoadRecord` calls (archive peer) or `loadRecord` calls (p2p
server), every entry `k -> r` of the records table has `r.RID = k` and
`k = SHA256(r.Bytes)` and the keys are pairwise distinct; the number of
entries is at most the number of successful loads; a blob that was loaded
has exactly one entry under its digest, however often it was loaded; and a
load repeated at once leaves the store as the first one left it. -/
theorem C21_store_invariant (L : Lib) (fs : Bytes → Except Bytes Bytes) (paths : List Bytes) :
    ((∀ k r, (k, r) ∈ (loadAll L fs NewULPPeer paths).records →
        r.RID = k ∧ k = L.sha256 r.Bytes) ∧
      (loadAll L fs NewULPPeer paths).records.keys.Nodup ∧
      (loadAll L fs NewULPPeer paths).records.length ≤ successfulLoads fs paths ∧
      (∀ q ∈ paths, ∀ B, fs q = .ok B →
        ((loadAll L fs NewULPPeer paths).records.filter
          (fun e => decide (e.1 = L.sha256 B))).length = 1) ∧
      (∀ q, (LoadRecord L fs (LoadRecord L fs (loadAll L fs NewULPPeer paths) q).1 q).1
        = (LoadRecord L fs (loadAll L fs NewULPPeer paths) q).1)) ∧
    ((∀ k r, (k, r) ∈ (P2P.LoadRecords L fs ⟨[]⟩ paths).records →
        r.RID = k ∧ k = L.sha256 r.Bytes) ∧
      (P2P.LoadRecords L fs ⟨[]⟩ paths).records.keys.Nodup ∧
      (P2P.LoadRecords L fs ⟨[]⟩ paths).records.length ≤ successfulLoads fs paths ∧
      (∀ q ∈ paths, ∀ B, fs q = .ok B →
        ((P2P.LoadRecords L fs ⟨[]⟩ paths).records.filter
          (fun e => decide (e.1 = L.sha256 B))).length = 1) ∧
      (∀ q, (P2P.loadRecord L fs (P2P.loadRecord L fs (P2P.LoadRecords L fs ⟨[]⟩ paths) q).1
          q).1
        = (P2P.loadRecord L fs (P2P.LoadRecords L fs ⟨[]⟩ paths) q).1)) := by
  have h0 : StoreInv L ([] : GoMap RID Record) :=
    ⟨List.nodup_nil, fun e he => absurd he (List.not_mem_nil e)⟩
  constructor
  · obtain ⟨i1, i2, _, i4⟩ := loads_invariant L fs (fun p : ULPPeer => p.records)
      (fun p path => (LoadRecord L fs p path).1) (fun _ B => extractPolicyFromTrace L B)
      (fun p path => LoadRecord_records L fs p path) paths NewULPPeer h0
    refine ⟨fun k r h => i1.2 (k, r) h, i1.1, ?_, ?_, ?_⟩
    · have : (NewULPPeer.records).length = 0 := rfl
      unfold loadAll
      omega
    · intro q hq B hB
      exact GoMap.count_key _ _ i1.1 (i4 q hq B hB)
    · intro q
      unfold LoadRecord
      cases fs q with
      | error e => rfl
      | ok B => simp only [GoMap.set_set]
  · obtain ⟨i1, i2, _, i4⟩ := loads_invariant L fs (fun s : P2P.TestamentServer => s.records)
      (fun s path => (P2P.loadRecord L fs s path).1)
      (fun _ B => match P2P.extractPolicy L B with | .error _ => none | .ok pol => some pol)
      (fun s path => P2P.loadRecord_records L fs s path) paths ⟨[]⟩ h0
    refine ⟨fun k r h => i1.2 (k, r) h, i1.1, ?_, ?_, ?_⟩
    · have : ((⟨[]⟩ : P2P.TestamentServer).records).length = 0 := rfl
      unfold P2P.LoadRecords
      omega
    · intro q hq B hB
      exact GoMap.count_key _ _ i1.1 (i4 q hq B hB)
    · intro q
      unfold P2P.loadRecord
      cases fs q with
      | error e => rfl
      | ok B => simp only [GoMap.set_set]

/-- Witness for C21: one trace is loaded twice, another path cannot be read. -/
theorem C21_store_invariant_witness :
    ((loadAll demoLib demoFs NewULPPeer
        [ascii "b/trace.log", ascii "none", ascii "b/trace.log"]).records.filter
      (fun e => decide (e.1 = demoLib.sha256 (ascii "hello")))).length = 1 ∧
    (loadAll demoLib demoFs NewULPPeer
        [ascii "b/trace.log", ascii "none", ascii "b/trace.log"]).records.length
      ≤ successfulLoads demoFs [ascii "b/trace.log", ascii "none", ascii "b/trace.log"] :=
  ⟨(C21_store_invariant demoLib demoFs
      [ascii "b/trace.log", ascii "none", ascii "b/trace.log"]).1.2.2.2.1
      (ascii "b/trace.log") (by simp) (ascii "hello") (by decide),
   (C21_store_invariant demoLib demoFs
      [ascii "b/trace.log", ascii "none", ascii "b/trace.log"]).1.2.2.1⟩

/-- C22 as stated fails: against a store that holds a record under the zero
RID, the request `ulp://` + 64 zero digits followed by a line feed is
answered with the record's bytes, and the same request ended by the end of
the stream gets no response. -/
theorem C22_counterexample :
    handleULPStream demoLib demoPeer (ascii "ulp://" ++ List.replicate 64 48 ++ ascii "\n")
      = some (ascii "t") ∧
    handleULPStream demoLib demoPeer (ascii "ulp://" ++ List.replicate 64 48) = none := by
  decide

/-- C22, amended. The archive handler answers a request only when a line
feed ends it: for every request text without line feed, `handleULPStream`
writes the three-way response for the trimmed text when the text is followed
by a line feed, whatever comes after it, and writes nothing when the inbound
stream ends after the text; a stream is closed with no response exactly when
it carries no line feed. -/
theorem C22_response_needs_newline (L : Lib) (p : ULPPeer) (text : Bytes)
    (h : (10 : Byte) ∉ text) :
    handleULPStream L p text = none ∧
    (∀ rest, handleULPStream L p (text ++ ascii "\n" ++ rest)
      = some (threeWay L p.records (trimSpace text))) ∧
    (∀ inbound, handleULPStream L p inbound = none ↔ (10 : Byte) ∉ inbound) := by
  have nl : ascii "\n" = [10] := by decide
  refine ⟨handleULPStream_no_newline L p text h, ?_, ?_⟩
  · intro rest
    rw [nl, List.append_assoc, List.singleton_append]
    exact handleULPStream_line_rest L p text rest h
  · intro inbound
    constructor
    · intro hn
      rcases split_at_first 10 inbound with h1 | ⟨a, b, h1, h2⟩
      · exact h1
      · rw [h1, handleULPStream_line_rest L p a b h2] at hn
        exact absurd hn (by simp)
    · exact handleULPStream_no_newline L p inbound

/-- Witness for C22 (amended): a valid request for a stored record, ended by
the end of the stream. -/
theorem C22_response_needs_newline_witness :
    handleULPStream demoLib demoPeer (ascii "ulp://" ++ List.replicate 64 48) = none :=
  (C22_response_needs_newline demoLib demoPeer (ascii "ulp://" ++ List.replicate 64 48)
    (by decide)).1

/-- C23. The archive peer's `extractPolicyFromTrace` succeeds exactly when
the third field of the last `POLICY`/`e8l` data line and the third field of
the last `POLICY`/`e8r` data line both exist and are non-empty; a label whose
last line carries an empty value makes extraction fail like an absent label;
and each scalar field of a returned policy is the third field alone of the
last data line of its key (empty when there is none), further fields of the
line being dropped. -/
theorem C23_labels_decide (L : Lib) (trace : Bytes) :
    ((∃ pol, extractPolicyFromTrace L trace = some pol) ↔
      ∃ l r, lastValue (ascii "POLICY") (ascii "e8l") (traceLines trace) = some l ∧ l ≠ [] ∧
        lastValue (ascii "POLICY") (ascii "e8r") (traceLines trace) = some r ∧ r ≠ []) ∧
    ((lastValue (ascii "POLICY") (ascii "e8l") (traceLines trace) = some [] ∨
        lastValue (ascii "POLICY") (ascii "e8l") (traceLines trace) = none ∨
        lastValue (ascii "POLICY") (ascii "e8r") (traceLines trace) = some [] ∨
        lastValue (ascii "POLICY") (ascii "e8r") (traceLines trace) = none) →
      extractPolicyFromTrace L trace = none) ∧
    (∀ (k : Scalar) (pol : PolicyMetadata), extractPolicyFromTrace L trace = some pol →
      pol.scalar k = (lastValue k.sec k.key (traceLines trace)).getD []) ∧
    extractPolicyFromTrace L (ascii "POLICY\te8l\t\nPOLICY\te8r\ty\n") = none ∧
    extractPolicyFromTrace L (ascii "POLICY\te8l\ta\tb\nPOLICY\te8r\ty\tz\n")
      = some ⟨ascii "a", ascii "y", [], [], [], [], []⟩ := by
  have hL := fold_scalar_lastValue L .e8l PolicyMetadata.empty (traceLines trace)
  have hR := fold_scalar_lastValue L .e8r PolicyMetadata.empty (traceLines trace)
  have hL1 : ((splitOn 10 trace).foldl (policyLine L) PolicyMetadata.empty).E8L
      = (lastValue (ascii "POLICY") (ascii "e8l") (traceLines trace)).getD [] := hL
  have hR1 : ((splitOn 10 trace).foldl (policyLine L) PolicyMetadata.empty).E8R
      = (lastValue (ascii "POLICY") (ascii "e8r") (traceLines trace)).getD [] := hR
  have key : (∃ pol, extractPolicyFromTrace L trace = some pol) ↔
      ((lastValue (ascii "POLICY") (ascii "e8l") (traceLines trace)).getD [] ≠ [] ∧
        (lastValue (ascii "POLICY") (ascii "e8r") (traceLines trace)).getD [] ≠ []) := by
    unfold extractPolicyFromTrace
    simp only
    rw [hL1, hR1]
    by_cases c : (lastValue (ascii "POLICY") (ascii "e8l") (traceLines trace)).getD [] = [] ∨
        (lastValue (ascii "POLICY") (ascii "e8r") (traceLines trace)).getD [] = []
    · rw [if_pos c]
      constructor
      · rintro ⟨pol, hp⟩; exact absurd hp (by simp)
      · rintro ⟨h1, h2⟩; rcases c with c | c
        · exact absurd c h1
        · exact absurd c h2
    · rw [if_neg c]
      exact ⟨fun _ => ⟨fun e => c (Or.inl e), fun e => c (Or.inr e)⟩, fun _ => ⟨_, rfl⟩⟩
  have none_of : ¬ (∃ pol, extractPolicyFromTrace L trace = some pol) →
      extractPolicyFromTrace L trace = none := by
    intro hn
    cases he : extractPolicyFromTrace L trace with
    | none => rfl
    | some pol => exact absurd ⟨pol, he⟩ hn
  refine ⟨?_, ?_, ?_, rfl, rfl⟩
  · rw [key]
    constructor
    · rintro ⟨h1, h2⟩
      cases hl : lastValue (ascii "POLICY") (ascii "e8l") (traceLines trace) with
      | none => rw [hl] at h1; exact absurd rfl h1
      | some l =>
        cases hr : lastValue (ascii "POLICY") (ascii "e8r") (traceLines trace) with
        | none => rw [hr] at h2; exact absurd rfl h2
        | some r =>
          rw [hl] at h1; rw [hr] at h2
          exact ⟨l, r, rfl, h1, rfl, h2⟩
    · rintro ⟨l, r, h1, h2, h3, h4⟩
      rw [h1, h3]
      exact ⟨h2, h4⟩
  · intro hc
    apply none_of
    rw [key]
    rintro ⟨h1, h2⟩
    rcases hc with c | c | c | c
    · rw [c] at h1; exact absurd rfl h1
    · rw [c] at h1; exact absurd rfl h1
    · rw [c] at h2; exact absurd rfl h2
    · rw [c] at h2; exact absurd rfl h2
  · intro k pol hp
    rw [extractPolicyFromTrace_some L trace pol hp,
      fold_scalar_lastValue L k PolicyMetadata.empty (traceLines trace)]
    cases k <;> rfl

/-- Witness for C23: the last `e8l` line carries an empty value after an
earlier one with a value, and extraction fails. -/
theorem C23_labels_decide_witness :
    lastValue (ascii "POLICY") (ascii "e8l")
        (traceLines (ascii "POLICY\te8l\tx\nPOLICY\te8r\ty\nPOLICY\te8l\t")) = some [] ∧
    extractPolicyFromTrace arrayLib (ascii "POLICY\te8l\tx\nPOLICY\te8r\ty\nPOLICY\te8l\t")
      = none :=
  ⟨by decide,
   (C23_labels_decide arrayLib (ascii "POLICY\te8l\tx\nPOLICY\te8r\ty\nPOLICY\te8l\t")).2.1
     (Or.inl (by decide))⟩

end ULP
